import Mathlib

/-!
binheap: frequency heap (`bh.c`) and window codec (`bh.h`)

A shallow embedding of the two source files and the properties proved about them.

Conventions of the embedding

* `int32_t` indices and symbols and `int64_t` frequencies are `Int`.  Frequency
  arithmetic is not wrapped: signed overflow is undefined in C and needs more
  than `2^63` increments to be reached.
* The arrays `ns[max_nodes]` and `sx[alphabet]` are total maps from `Int`.
  The one out-of-range store the source performs, `t->sx[-1] = ix` when the
  node at `ix` is internal, falls into the padding after `ns[max_nodes - 1]`
  on the usual LP64 layout; `sx_set` drops stores outside `[0, alphabet)`, so
  such a store changes none of the embedded fields.
* `assert(...)` compiles to nothing in a release build (see the comment at
  the head of `binheap_verify`), and is not embedded.
* `while` loops and the recursion of `binheap_heapify_down` are structural
  recursions on a fuel argument that the caller sets to a bound on the
  number of iterations.
-/

set_option autoImplicit false

/-! ## Data model of `bh.c` -/

/-- Number of symbols: `enum { alphabet = 32 }`. -/
def alphabet : Int := 32

/-- Capacity of the node array: `enum { max_nodes = alphabet * 2 }`. -/
def max_nodes : Int := alphabet * 2

/-- A heap node: `node_t`.  The field `freq` is an `int64_t` in the source and an integer
here: the two agree as long as no sum leaves `[-2 ^ 63, 2 ^ 63)`, which from `binheap_init`
takes about `2 ^ 63` calls; `binheap_inc_freq_spec` bounds the frequencies it starts from. -/
structure node_t where
  freq : Int
  sym : Int
deriving DecidableEq, Repr

/-- The heap: `binheap_t`. -/
structure binheap_t where
  ns : Int → node_t
  sx : Int → Int
  nc : Int

/-- Store `ns[i] = v`. -/
def ns_set (ns : Int → node_t) (i : Int) (v : node_t) : Int → node_t :=
  fun j => if j = i then v else ns j

/-- Store `sx[s] = v`; a store outside the table is dropped. -/
def sx_set (sx : Int → Int) (s : Int) (v : Int) : Int → Int :=
  fun k => if k = s ∧ 0 ≤ s ∧ s < alphabet then v else sx k

/-- The heap after `binheap_init`. -/
def binheap_init : binheap_t :=
  { ns := fun _ => { freq := 0, sym := -1 }, sx := fun _ => -1, nc := 0 }

/-- Test `t->ns[ix].sym >= 0` of `binheap_is_leaf`. -/
def binheap_is_leaf (t : binheap_t) (ix : Int) : Bool :=
  decide ((t.ns ix).sym ≥ 0)

/-! ## `binheap_find` -/

/-- The `while (i > 0)` loop of `binheap_find`; the state is `(i, path, bits)`,
`path` is a `uint64_t`. -/
def find_loop : Nat → Int → Nat → Int → Nat × Int
  | 0, _, path, bits => (path, bits)
  | fuel + 1, i, path, bits =>
    if i > 0 then
      let parent := (i - 1) / 2
      let path1 := (path * 2) % 2 ^ 64
      let path2 := if i = parent * 2 + 2 then path1 ||| 1 else path1
      find_loop fuel parent path2 (bits + 1)
    else (path, bits)

/-- The result `(ix, *path, *bits)` of `binheap_find(t, sym, &path, &bits)`. -/
def binheap_find (t : binheap_t) (sym : Int) : Int × Nat × Int :=
  let ix := t.sx sym
  if ix ≥ 0 then
    let r := find_loop ix.toNat ix 0 0
    (ix, r.1, r.2)
  else (ix, 0, 0)

/-! ## `binheap_verify` -/

/-- Body of the first loop of `binheap_verify` at index `ix`: `false` when the
body executes `return false`. -/
def verify_node (t : binheap_t) (ix : Int) : Bool :=
  let left := 2 * ix + 1
  let right := 2 * ix + 2
  if left < t.nc ∧ (t.ns ix).freq < (t.ns left).freq then false
  else if right < t.nc ∧ (t.ns ix).freq < (t.ns right).freq then false
  else if (t.ns ix).sym ≥ 0 ∧ t.sx (t.ns ix).sym ≠ ix then false
  else if (t.ns ix).sym ≥ 0 then
    let sym := (t.ns ix).sym
    let i := (binheap_find t sym).1
    if i ≠ ix then false
    else if ¬ (0 ≤ t.sx sym ∧ t.sx sym < max_nodes) then false
    else true
  else true

/-- Body of the second loop of `binheap_verify` at symbol `sym`. -/
def verify_sym (t : binheap_t) (sym : Int) : Bool :=
  if t.sx sym ≠ -1 then
    let ix := t.sx sym
    if ¬ (0 ≤ ix ∧ ix < t.nc) then false
    else if (t.ns ix).sym ≠ sym then false
    else true
  else true

/-- The value returned by `binheap_verify`. -/
def binheap_verify (t : binheap_t) : Bool :=
  (List.range t.nc.toNat).all (fun ix : Nat => verify_node t (ix : Int)) &&
  (List.range alphabet.toNat).all (fun sym : Nat => verify_sym t (sym : Int))

/-- The memory `binheap_verify` can store to: the heap behind `t` and the locals `path` and
`bits` whose addresses it hands to `binheap_find`. -/
structure verify_state where
  t : binheap_t
  path : Nat
  bits : Int

/-- The call `binheap_find(t, sym, &path, &bits)` inside `binheap_verify`: the state after
the stores to `*path` and `*bits`, and the index returned. -/
def binheap_find_call (s : verify_state) (sym : Int) : verify_state × Int :=
  ({ t := s.t, path := (binheap_find s.t sym).2.1, bits := (binheap_find s.t sym).2.2 },
   (binheap_find s.t sym).1)

/-- One iteration of the first loop of `binheap_verify` at index `ix`: the state after it,
and `false` when the body executes `return false`. -/
def verify_node_call (s : verify_state) (ix : Int) : verify_state × Bool :=
  let left := 2 * ix + 1
  let right := 2 * ix + 2
  if left < s.t.nc ∧ (s.t.ns ix).freq < (s.t.ns left).freq then (s, false)
  else if right < s.t.nc ∧ (s.t.ns ix).freq < (s.t.ns right).freq then (s, false)
  else if (s.t.ns ix).sym ≥ 0 ∧ s.t.sx (s.t.ns ix).sym ≠ ix then (s, false)
  else if (s.t.ns ix).sym ≥ 0 then
    let sym := (s.t.ns ix).sym
    let r := binheap_find_call { t := s.t, path := 0, bits := 0 } sym
    if r.2 ≠ ix then (r.1, false)
    else if ¬ (0 ≤ r.1.t.sx sym ∧ r.1.t.sx sym < max_nodes) then (r.1, false)
    else (r.1, true)
  else (s, true)

/-- The first loop of `binheap_verify`, `for (ix = 0; ix < t->nc; ix++)`, from `ix` on:
the state at loop exit or at `return false`, and `false` in the latter case. -/
def verify_nodes_loop : Nat → verify_state → Int → verify_state × Bool
  | 0, s, _ => (s, true)
  | fuel + 1, s, ix =>
    if ix < s.t.nc then
      let r := verify_node_call s ix
      if r.2 then verify_nodes_loop fuel r.1 (ix + 1) else (r.1, false)
    else (s, true)

/-- The second loop of `binheap_verify`, `for (sym = 0; sym < alphabet; sym++)`, from
`sym` on. -/
def verify_syms_loop : Nat → verify_state → Int → verify_state × Bool
  | 0, s, _ => (s, true)
  | fuel + 1, s, sym =>
    if sym < alphabet then
      if verify_sym s.t sym then verify_syms_loop fuel s (sym + 1) else (s, false)
    else (s, true)

/-- The call `binheap_verify(t)` as a state transformer: the heap after the call and the
value returned.  The first loop runs at most `nc` iterations, the second `alphabet`. -/
def binheap_verify_call (t : binheap_t) : binheap_t × Bool :=
  let r1 := verify_nodes_loop t.nc.toNat { t := t, path := 0, bits := 0 } 0
  if r1.2 then
    let r2 := verify_syms_loop alphabet.toNat r1.1 0
    (r2.1.t, r2.2)
  else (r1.1.t, false)

/-! ## Sifting -/

/-- The heap after `binheap_swap(t, ix0, ix1)`. -/
def binheap_swap (t : binheap_t) (ix0 ix1 : Int) : binheap_t :=
  let a := t.ns ix0
  let b := t.ns ix1
  let sa := a.sym
  let sb := b.sym
  let sx1 :=
    if sa ≥ 0 ∧ sb ≥ 0 then
      sx_set (sx_set t.sx sa (t.sx sb)) sb (t.sx sa)
    else if sa ≥ 0 then sx_set t.sx sa ix1
    else if sb ≥ 0 then sx_set t.sx sb ix0
    else t.sx
  { ns := ns_set (ns_set t.ns ix0 b) ix1 a, sx := sx1, nc := t.nc }

/-- The store `t->sx[t->ns[ix].sym] = ix` that ends both sifts. -/
def sx_store_at (t : binheap_t) (ix : Int) : binheap_t :=
  { ns := t.ns, sx := sx_set t.sx (t.ns ix).sym ix, nc := t.nc }

/-- The `while (ix > 0)` loop of `binheap_heapify_up`: the heap and `ix` at
loop exit. -/
def heapify_up_loop : Nat → binheap_t → Int → binheap_t × Int
  | 0, t, ix => (t, ix)
  | fuel + 1, t, ix =>
    if ix > 0 then
      let parent := (ix - 1) / 2
      if (t.ns ix).freq > (t.ns parent).freq then
        heapify_up_loop fuel (binheap_swap t ix parent) parent
      else (t, ix)
    else (t, ix)

/-- The heap after `binheap_heapify_up(t, ix)` and the index returned. -/
def binheap_heapify_up (t : binheap_t) (ix : Int) : binheap_t × Int :=
  let r := heapify_up_loop ix.toNat t ix
  (sx_store_at r.1 r.2, r.2)

/-- The index `largest` chosen by `binheap_heapify_down` at `ix`. -/
def heapify_down_largest (t : binheap_t) (ix : Int) : Int :=
  let left := 2 * ix + 1
  let right := 2 * ix + 2
  let largest := if left < t.nc ∧ (t.ns left).freq > (t.ns ix).freq then left else ix
  if right < t.nc ∧ (t.ns right).freq > (t.ns largest).freq then right else largest

/-- The recursion of `binheap_heapify_down`, at most `fuel` calls deep. -/
def heapify_down_rec : Nat → binheap_t → Int → binheap_t × Int
  | 0, t, ix => (t, ix)
  | fuel + 1, t, ix =>
    let largest := heapify_down_largest t ix
    let r := if largest ≠ ix then heapify_down_rec fuel (binheap_swap t ix largest) largest
             else (t, ix)
    (sx_store_at r.1 r.2, r.2)

/-- The heap after `binheap_heapify_down(t, ix)` and the index returned.  Each
recursive call is at a child, a larger index below `nc`. -/
def binheap_heapify_down (t : binheap_t) (ix : Int) : binheap_t × Int :=
  heapify_down_rec (t.nc.toNat + 1) t ix

/-! ## `binheap_add` and `binheap_inc_freq` -/

/-- The heap after `binheap_add(t, sym)` and the index returned. -/
def binheap_add (t : binheap_t) (sym : Int) : binheap_t × Int :=
  if t.nc < 2 then
    let leaf : node_t := { freq := 1, sym := sym }
    let t1 : binheap_t := { t with ns := ns_set t.ns t.nc leaf }
    let t2 : binheap_t := { t1 with sx := sx_set t1.sx sym t1.nc }
    let r := binheap_heapify_up t2 t2.nc
    ({ r.1 with nc := r.1.nc + 1 }, r.2)
  else
    let smallest := t.nc - 2
    let second_smallest := t.nc - 1
    let i := t.nc
    let merged : node_t :=
      { freq := (t.ns smallest).freq + (t.ns second_smallest).freq, sym := -1 }
    let t1 : binheap_t := { t with ns := ns_set t.ns i merged }
    let t2 : binheap_t := { t1 with nc := t1.nc + 1 }
    let t3 := (binheap_heapify_down t2 smallest).1
    let t4 := (binheap_heapify_down t3 second_smallest).1
    let t5 := (binheap_heapify_up t4 i).1
    let new := t5.nc
    let leaf : node_t := { freq := 1, sym := sym }
    let t6 : binheap_t := { t5 with ns := ns_set t5.ns new leaf }
    let t7 : binheap_t := { t6 with sx := sx_set t6.sx sym t6.nc }
    let t8 : binheap_t := { t7 with nc := t7.nc + 1 }
    binheap_heapify_up t8 new

/-- The `while (p > 0)` loop of `binheap_inc_freq`: every proper ancestor of
`p`, bottom up, gets the sum of its children's frequencies. -/
def inc_freq_loop : Nat → (Int → node_t) → Int → (Int → node_t)
  | 0, ns, _ => ns
  | fuel + 1, ns, p =>
    if p > 0 then
      let parent := (p - 1) / 2
      let sum : node_t :=
        { freq := (ns (2 * parent + 1)).freq + (ns (2 * parent + 2)).freq,
          sym := (ns parent).sym }
      inc_freq_loop fuel (ns_set ns parent sum) parent
    else ns

/-- The heap after `binheap_inc_freq(t, sym)` and the index returned. -/
def binheap_inc_freq (t : binheap_t) (sym : Int) : binheap_t × Int :=
  let ix := t.sx sym
  let bumped : node_t := { freq := (t.ns ix).freq + 1, sym := (t.ns ix).sym }
  let t1 : binheap_t := { t with ns := ns_set t.ns ix bumped }
  let r2 := binheap_heapify_down t1 ix
  let r3 := binheap_heapify_up r2.1 r2.2
  ({ r3.1 with ns := inc_freq_loop r3.2.toNat r3.1.ns r3.2 }, r3.2)

/-! ## Sequences of calls -/

/-- A call on the heap: `binheap_add(t, sym)` or `binheap_inc_freq(t, sym)`. -/
inductive heap_op where
  | add (sym : Int)
  | inc (sym : Int)
deriving DecidableEq, Repr

/-- The heap after one call. -/
def heap_step (t : binheap_t) : heap_op → binheap_t
  | .add sym => (binheap_add t sym).1
  | .inc sym => (binheap_inc_freq t sym).1

/-- The heap after `binheap_init` and the calls `ops`, in order. -/
def heap_run (ops : List heap_op) : binheap_t :=
  ops.foldl heap_step binheap_init

/-! ## Data model of `bh.h`

* `size_t`, `uint64_t`, `uint32_t` and `uint8_t` values are `Nat`, reduced modulo the width
  where the source can wrap.  A left shift by 64 or more, undefined in C, yields `0`.
* The input of `huff_compress` is the map `data` from index to byte and its length `bytes`;
  the memory `huff_decompress` writes is a map from `Int` offset (relative to `data`) to
  byte, so that the source of a match copy, `data[i - pos]`, may lie before the buffer.
* The callbacks `read` and `write` of a session are the parameter `io`: a callback sees
  the caller's data `that` and the `error` field and may change both.
* `calls` is a ghost log kept by the embedding: one entry for each callback invocation,
  with the value of `error` at the call and the word read or written.
-/

/-- The error code `EINVAL`. -/
def EINVAL : Nat := 22

/-- One invocation of a host callback: the `error` field at the call and the word. -/
inductive huff_call where
  | read (error : Nat) (word : Nat)
  | write (error : Nat) (word : Nat)
deriving DecidableEq, Repr

/-- The session `huff_t`, without its two callbacks, with the ghost log `calls`. -/
structure huff_t (σ : Type) where
  that : σ
  error : Nat
  written : Nat
  calls : List huff_call

/-- The caller-supplied callbacks `uint64_t (*read)(huff_t*)` and
`void (*write)(huff_t*, uint64_t)`, as functions of `that` and `error`. -/
structure huff_io (σ : Type) where
  read : σ → Nat → Nat × σ × Nat
  write : σ → Nat → Nat → σ × Nat

/-- The call `lz->write(lz, b64)`. -/
def call_write {σ : Type} (io : huff_io σ) (lz : huff_t σ) (b64 : Nat) : huff_t σ :=
  { that := (io.write lz.that lz.error b64).1,
    error := (io.write lz.that lz.error b64).2,
    written := lz.written,
    calls := lz.calls ++ [huff_call.write lz.error b64] }

/-- The call `lz->read(lz)`: the word returned and the session after the call. -/
def call_read {σ : Type} (io : huff_io σ) (lz : huff_t σ) : Nat × huff_t σ :=
  ((io.read lz.that lz.error).1 % 2 ^ 64,
   { that := (io.read lz.that lz.error).2.1,
     error := (io.read lz.that lz.error).2.2,
     written := lz.written,
     calls := lz.calls ++ [huff_call.read lz.error ((io.read lz.that lz.error).1 % 2 ^ 64)] })

/-- The session with `error = EINVAL`: `huff_return_invalid`. -/
def set_invalid {σ : Type} (lz : huff_t σ) : huff_t σ :=
  { that := lz.that, error := EINVAL, written := lz.written, calls := lz.calls }

/-- The session with `written += 8`. -/
def add_written {σ : Type} (lz : huff_t σ) : huff_t σ :=
  { that := lz.that, error := lz.error, written := (lz.written + 8) % 2 ^ 64,
    calls := lz.calls }

/-! ### Bit writer -/

/-- The session and the locals `b64`, `bp` of a bit writer or reader. -/
structure bit_state (σ : Type) where
  lz : huff_t σ
  b64 : Nat
  bp : Nat

/-- The state after `huff_write_bit(lz, &b64, &bp, bit)`. -/
def huff_write_bit {σ : Type} (io : huff_io σ) (w : bit_state σ) (bit : Nat) : bit_state σ :=
  let w1 : bit_state σ :=
    if w.bp = 64 ∧ w.lz.error = 0 then
      let lz1 := call_write io w.lz w.b64
      { lz := if lz1.error = 0 then add_written lz1 else lz1, b64 := 0, bp := 0 }
    else w
  { lz := w1.lz, b64 := w1.b64 ||| (bit <<< w1.bp) % 2 ^ 64, bp := (w1.bp + 1) % 2 ^ 32 }

/-- The state after `huff_write_bits(lz, &b64, &bp, bits, n)`; `n` is the first argument. -/
def huff_write_bits {σ : Type} (io : huff_io σ) : Nat → bit_state σ → Nat → bit_state σ
  | 0, w, _ => w
  | n + 1, w, bits => huff_write_bits io n (huff_write_bit io w (bits &&& 1)) (bits >>> 1)

/-- The `do ... while (bits != 0)` loop of `huff_write_number`. -/
def huff_write_number_loop {σ : Type} (io : huff_io σ) (base : Nat) :
    Nat → bit_state σ → Nat → bit_state σ
  | 0, w, _ => w
  | fuel + 1, w, bits =>
    let w1 := huff_write_bits io base w bits
    let bits1 := bits >>> base
    let w2 := huff_write_bit io w1 (if bits1 ≠ 0 then 1 else 0)
    if bits1 ≠ 0 then huff_write_number_loop io base fuel w2 bits1 else w2

/-- The state after `huff_write_number(lz, &b64, &bp, bits, base)`.  With `base ≥ 1` every
iteration shifts a 64-bit value right by at least one bit: 64 iterations suffice. -/
def huff_write_number {σ : Type} (io : huff_io σ) (w : bit_state σ) (bits base : Nat) :
    bit_state σ :=
  huff_write_number_loop io base 64 w bits

/-- The session after `huff_flush(lz, b64, bp)`. -/
def huff_flush {σ : Type} (io : huff_io σ) (w : bit_state σ) : huff_t σ :=
  if w.bp > 0 ∧ w.lz.error = 0 then
    let lz1 := call_write io w.lz w.b64
    if lz1.error = 0 then add_written lz1 else lz1
  else w.lz

/-- The session after `huff_write_header(lz, bytes, window_bits)`. -/
def huff_write_header {σ : Type} (io : huff_io σ) (lz : huff_t σ) (bytes window_bits : Nat) :
    huff_t σ :=
  if lz.error ≠ 0 then lz
  else if window_bits < 10 ∨ window_bits > 20 then set_invalid lz
  else
    let lz1 := call_write io lz (bytes % 2 ^ 64)
    if lz1.error ≠ 0 then lz1
    else call_write io lz1 window_bits

/-! ### `huff_compress` -/

/-- The loop `while (k < n && data[j + k] == data[i + k]) k++`: the final `k`. -/
def match_len_loop (data : Nat → Nat) (j i n : Nat) : Nat → Nat → Nat
  | 0, k => k
  | fuel + 1, k =>
    if k < n ∧ data (j + k) = data (i + k) then match_len_loop data j i n fuel (k + 1) else k

/-- The loop `while (j > min_j)` of the match search: the final `(len, pos)`. -/
def search_loop (data : Nat → Nat) (bytes i min_j : Nat) : Nat → Nat → Nat → Nat → Nat × Nat
  | 0, _, len, pos => (len, pos)
  | fuel + 1, j, len, pos =>
    if j > min_j then
      let n := bytes - i
      let k := match_len_loop data j i n n 0
      if k > len then search_loop data bytes i min_j fuel (j - 1) k (i - j)
      else search_loop data bytes i min_j fuel (j - 1) len pos
    else (len, pos)

/-- The longest match `(len, pos)` found at cursor `i`. -/
def find_match (data : Nat → Nat) (bytes window i : Nat) : Nat × Nat :=
  if i ≥ 1 then
    search_loop data bytes i (if i > window then i - window else 0) i (i - 1) 0 0
  else (0, 0)

/-- The loop `while (i < bytes)` of `huff_compress` followed by `huff_flush`: the session
at return.  Every iteration advances `i`: `bytes - i` iterations suffice. -/
def compress_loop {σ : Type} (io : huff_io σ) (data : Nat → Nat) (bytes window base : Nat) :
    Nat → bit_state σ → Nat → huff_t σ
  | 0, w, _ => huff_flush io w
  | fuel + 1, w, i =>
    if i < bytes then
      let m := find_match data bytes window i
      if m.1 > 2 then
        let w1 := huff_write_bits io 2 w 3
        if w1.lz.error ≠ 0 then w1.lz
        else
          let w2 := huff_write_number io w1 m.2 base
          if w2.lz.error ≠ 0 then w2.lz
          else
            let w3 := huff_write_number io w2 m.1 base
            if w3.lz.error ≠ 0 then w3.lz
            else compress_loop io data bytes window base fuel w3 (i + m.1)
      else
        let b := data i
        if b < 128 then
          let w1 := huff_write_bit io w 0
          if w1.lz.error ≠ 0 then w1.lz
          else
            let w2 := huff_write_bits io 7 w1 b
            if w2.lz.error ≠ 0 then w2.lz
            else compress_loop io data bytes window base fuel w2 (i + 1)
        else
          let w1 := huff_write_bits io 2 w 2
          if w1.lz.error ≠ 0 then w1.lz
          else
            let w2 := huff_write_bits io 7 w1 b
            if w2.lz.error ≠ 0 then w2.lz
            else compress_loop io data bytes window base fuel w2 (i + 1)
    else huff_flush io w

/-- The session after `huff_compress(lz, data, bytes, window_bits)`. -/
def huff_compress {σ : Type} (io : huff_io σ) (lz : huff_t σ) (data : Nat → Nat)
    (bytes window_bits : Nat) : huff_t σ :=
  if lz.error ≠ 0 then lz
  else if window_bits < 10 ∨ window_bits > 20 then set_invalid lz
  else
    compress_loop io data bytes (1 <<< window_bits) ((window_bits - 4) / 2) bytes
      { lz := lz, b64 := 0, bp := 0 } 0

/-! ### Bit reader -/

/-- The bit returned by `huff_read_bit(lz, &b64, &bp)` and the state after it. -/
def huff_read_bit {σ : Type} (io : huff_io σ) (r : bit_state σ) : Nat × bit_state σ :=
  let r1 : bit_state σ :=
    if r.bp = 0 then { lz := (call_read io r.lz).2, b64 := (call_read io r.lz).1, bp := r.bp }
    else r
  ((r1.b64 >>> r1.bp) &&& 1,
   { lz := r1.lz, b64 := r1.b64, bp := if r1.bp = 63 then 0 else r1.bp + 1 })

/-- The loop `for (i = 0; i < n && lz->error == 0; i++)` of `huff_read_bits`. -/
def huff_read_bits_loop {σ : Type} (io : huff_io σ) (n : Nat) :
    Nat → bit_state σ → Nat → Nat → Nat × bit_state σ
  | 0, r, _, bits => (bits, r)
  | fuel + 1, r, i, bits =>
    if i < n ∧ r.lz.error = 0 then
      huff_read_bits_loop io n fuel (huff_read_bit io r).2 (i + 1)
        (bits ||| ((huff_read_bit io r).1 <<< i) % 2 ^ 64)
    else (bits, r)

/-- The value returned by `huff_read_bits(lz, &b64, &bp, n)` and the state after it. -/
def huff_read_bits {σ : Type} (io : huff_io σ) (r : bit_state σ) (n : Nat) :
    Nat × bit_state σ :=
  huff_read_bits_loop io n n r 0 0

/-- The `do ... while (bit && lz->error == 0)` loop of `huff_read_number`; `none` when
`fuel` iterations did not reach the end of the loop (the stream decides how long it runs). -/
def huff_read_number_loop {σ : Type} (io : huff_io σ) (base : Nat) :
    Nat → bit_state σ → Nat → Nat → Option (Nat × bit_state σ)
  | 0, _, _, _ => none
  | fuel + 1, r, bits, shift =>
    let x := huff_read_bits io r base
    let bits1 := bits ||| (x.1 <<< shift) % 2 ^ 64
    let shift1 := (shift + base) % 2 ^ 32
    let y := huff_read_bit io x.2
    if y.1 ≠ 0 ∧ y.2.lz.error = 0 then huff_read_number_loop io base fuel y.2 bits1 shift1
    else some (bits1, y.2)

/-- The value returned by `huff_read_number(lz, &b64, &bp, base)` and the state after it. -/
def huff_read_number {σ : Type} (io : huff_io σ) (fuel : Nat) (r : bit_state σ) (base : Nat) :
    Option (Nat × bit_state σ) :=
  huff_read_number_loop io base fuel r 0 0

/-- The session, `*bytes` and `*window_bits` after
`huff_read_header(lz, &bytes, &window_bits)`. -/
def huff_read_header {σ : Type} (io : huff_io σ) (lz : huff_t σ) (bytes window_bits : Nat) :
    huff_t σ × Nat × Nat :=
  if lz.error ≠ 0 then (lz, bytes, window_bits)
  else
    let a := call_read io lz
    let b := call_read io a.2
    let wb := b.1 % 2 ^ 8
    if wb < 10 ∨ wb > 20 then (set_invalid b.2, a.1, wb) else (b.2, a.1, wb)

/-! ### `huff_decompress` -/

/-- Store `data[i] = v`. -/
def mem_set (data : Int → Nat) (i : Int) (v : Nat) : Int → Nat :=
  fun j => if j = i then v else data j

/-- What `huff_decompress` leaves: the session, the memory at `data`, and the ghost flag
`below`, set when a match copy read an offset below 0. -/
structure huff_out (σ : Type) where
  lz : huff_t σ
  data : Int → Nat
  below : Bool

/-- The loop `while (i < n) { data[i] = s[i]; i++; }` with `s = data - pos`, `count`
iterations: the memory and `i` after it. -/
def copy_loop (pos : Nat) : Nat → (Int → Nat) → Nat → (Int → Nat) × Nat
  | 0, data, i => (data, i)
  | count + 1, data, i =>
    copy_loop pos count (mem_set data (i : Int) (data ((i : Int) - (pos : Int)))) (i + 1)

/-- The loop `while (i < bytes)` of `huff_decompress`; `none` when `fuel` iterations (or
`fuel` iterations inside a `huff_read_number`) did not reach the end. -/
def decompress_loop {σ : Type} (io : huff_io σ) (bytes window base nfuel : Nat) :
    Nat → bit_state σ → (Int → Nat) → Nat → Bool → Option (huff_out σ)
  | 0, r, data, i, below =>
    if i < bytes then none else some { lz := r.lz, data := data, below := below }
  | fuel + 1, r, data, i, below =>
    if i < bytes then
      let b0 := huff_read_bit io r
      if b0.2.lz.error ≠ 0 then some { lz := b0.2.lz, data := data, below := below }
      else if b0.1 ≠ 0 then
        let b1 := huff_read_bit io b0.2
        if b1.2.lz.error ≠ 0 then some { lz := b1.2.lz, data := data, below := below }
        else if b1.1 ≠ 0 then
          match huff_read_number io nfuel b1.2 base with
          | none => none
          | some p =>
            if p.2.lz.error ≠ 0 then some { lz := p.2.lz, data := data, below := below }
            else
              match huff_read_number io nfuel p.2 base with
              | none => none
              | some l =>
                if l.2.lz.error ≠ 0 then
                  some { lz := l.2.lz, data := data, below := below }
                else if ¬ (0 < p.1 ∧ p.1 < window) then
                  some { lz := set_invalid l.2.lz, data := data, below := below }
                else if l.1 = 0 then
                  some { lz := set_invalid l.2.lz, data := data, below := below }
                else
                  let n := (i + l.1) % 2 ^ 64
                  let c := copy_loop p.1 (n - i) data i
                  decompress_loop io bytes window base nfuel fuel l.2 c.1 c.2
                    (below || decide (i < n ∧ i < p.1))
        else
          let b := huff_read_bits io b1.2 7
          if b.2.lz.error ≠ 0 then some { lz := b.2.lz, data := data, below := below }
          else
            decompress_loop io bytes window base nfuel fuel b.2
              (mem_set data (i : Int) ((b.1 % 256) ||| 128)) (i + 1) below
      else
        let b := huff_read_bits io b0.2 7
        if b.2.lz.error ≠ 0 then some { lz := b.2.lz, data := data, below := below }
        else
          decompress_loop io bytes window base nfuel fuel b.2
            (mem_set data (i : Int) (b.1 % 256)) (i + 1) below
    else some { lz := r.lz, data := data, below := below }

/-- The outcome of `huff_decompress(lz, data, bytes, window_bits)`; `none` when `fuel` did
not suffice for the stream read. -/
def huff_decompress {σ : Type} (io : huff_io σ) (fuel : Nat) (lz : huff_t σ)
    (data : Int → Nat) (bytes window_bits : Nat) : Option (huff_out σ) :=
  if lz.error ≠ 0 then some { lz := lz, data := data, below := false }
  else if window_bits < 10 ∨ window_bits > 20 then
    some { lz := set_invalid lz, data := data, below := false }
  else
    decompress_loop io bytes (1 <<< window_bits) ((window_bits - 4) / 2) fuel fuel
      { lz := lz, b64 := 0, bp := 0 } data 0 false

/-! ### A host that keeps the words in a list -/

/-- Callbacks over a list of words: `write` appends the word, `read` removes and returns
the first word (0 when none is left); neither sets `error`. -/
def list_io : huff_io (List Nat) :=
  { read := fun s e => (s.headD 0, s.tail, e),
    write := fun s e w => (s ++ [w], e) }

/-- A fresh session over the words `ws`. -/
def list_session (ws : List Nat) : huff_t (List Nat) :=
  { that := ws, error := 0, written := 0, calls := [] }

/-- Callbacks of a failing host: each call sets `error = 5` (`EIO`) and moves no data. -/
def fail_io : huff_io (List Nat) :=
  { read := fun s _ => (0, s, 5),
    write := fun s _ _ => (s, 5) }

/-! ## Specification-side definitions for the heap -/

/-- The index reached from `cur` after `k` steps `cur ↦ 2 * cur + 1 + bit_j(path)`,
`j = 0 .. k-1`. -/
def path_walk (cur : Int) (path : Nat) : Nat → Int
  | 0 => cur
  | k + 1 => 2 * path_walk cur path k + 1 + ((path / 2 ^ k % 2 : Nat) : Int)


/-- Max-heap property over the live range `[0, nc)`: every live node's frequency is at
least that of each child that exists. -/
def max_heap (t : binheap_t) : Prop :=
  ∀ ix : Int, 0 ≤ ix → ix < t.nc →
    (2 * ix + 1 < t.nc → (t.ns ix).freq ≥ (t.ns (2 * ix + 1)).freq) ∧
    (2 * ix + 2 < t.nc → (t.ns ix).freq ≥ (t.ns (2 * ix + 2)).freq)

/-- Symbol-table correctness in both directions: a table entry other than `-1` is a live
index whose node carries that symbol, and the table entry of a live leaf is its index. -/
def table_ok (t : binheap_t) : Prop :=
  (∀ s : Int, 0 ≤ s → s < alphabet → t.sx s ≠ -1 →
    0 ≤ t.sx s ∧ t.sx s < t.nc ∧ (t.ns (t.sx s)).sym = s) ∧
  (∀ ix : Int, 0 ≤ ix → ix < t.nc → (t.ns ix).sym ≥ 0 → t.sx (t.ns ix).sym = ix)

/-- Every live node's symbol is below `alphabet`: a leaf carries a valid symbol id. -/
def sym_range (t : binheap_t) : Prop :=
  ∀ ix : Int, 0 ≤ ix → ix < t.nc → (t.ns ix).sym < alphabet

/-- What the sift-up loop guarantees on a heap with a correct table. -/
structure sift_up_post (t : binheap_t) (i : Int) (r : binheap_t × Int) : Prop where
  nc_eq : r.1.nc = t.nc
  table : table_ok r.1
  lo : 0 ≤ r.2
  hi : r.2 ≤ i
  node : r.1.ns r.2 = t.ns i
  above : ∀ j : Int, i < j → r.1.ns j = t.ns j
  all : ∀ P : node_t → Prop, (∀ j : Int, 0 ≤ j → j < t.nc → P (t.ns j)) →
    ∀ j : Int, 0 ≤ j → j < t.nc → P (r.1.ns j)
  dom : ∀ k : Int, r.1.sx k = -1 ↔ t.sx k = -1

/-- Sift-up precondition: the heap order holds on every edge except the one into `i`, and
the parent of `i` dominates the children of `i`. -/
def up_inv (t : binheap_t) (i : Int) : Prop :=
  (∀ ix : Int, 0 ≤ ix → ix < t.nc → ∀ c : Int, (c = 2 * ix + 1 ∨ c = 2 * ix + 2) → c < t.nc →
    c ≠ i → (t.ns ix).freq ≥ (t.ns c).freq) ∧
  (0 < i → ∀ c : Int, (c = 2 * i + 1 ∨ c = 2 * i + 2) → c < t.nc →
    (t.ns ((i - 1) / 2)).freq ≥ (t.ns c).freq)

/-- Appending node `v` at index `nc`: the stores `ns[nc] = v`, `sx[v.sym] = nc` (dropped
for an internal node) and `nc++` that precede a sift-up in `binheap_add`. -/
def push_node (t : binheap_t) (v : node_t) : binheap_t :=
  { ns := ns_set t.ns t.nc v, sx := sx_set t.sx v.sym t.nc, nc := t.nc + 1 }

/-- Number of symbols of the alphabet whose table entry is not `-1`. -/
def inserted_count (t : binheap_t) : Nat :=
  (List.range alphabet.toNat).countP (fun s : Nat => decide (t.sx (s : Int) ≠ -1))

/-- Invariant of the heaps reached from `binheap_init`. -/
structure heap_inv (t : binheap_t) : Prop where
  nc_nonneg : 0 ≤ t.nc
  shape : t.nc < 2 ∨ t.nc % 2 = 0
  heap : max_heap t
  table : table_ok t
  syms : sym_range t
  freq_pos : ∀ ix : Int, 0 ≤ ix → ix < t.nc → 1 ≤ (t.ns ix).freq
  rest : ∀ ix : Int, t.nc ≤ ix → 0 ≤ (t.ns ix).freq
  count : t.nc ≤ 2 * (inserted_count t : Int)

/-- The heap `t` with its node count replaced by `n`. -/
def with_nc (t : binheap_t) (n : Int) : binheap_t :=
  { ns := t.ns, sx := t.sx, nc := n }

/-- The internal node `binheap_add` creates: the sum of the two last nodes. -/
def merged_node (t : binheap_t) : node_t :=
  { freq := (t.ns (t.nc - 2)).freq + (t.ns (t.nc - 1)).freq, sym := -1 }

/-- The heap inside `binheap_add` (two or more nodes) after the internal node is appended
and the three sifts have run, before the new leaf is stored. -/
def add_mid_state (t : binheap_t) : binheap_t :=
  (binheap_heapify_up (binheap_heapify_down (binheap_heapify_down
    (push_node t (merged_node t)) (t.nc - 2)).1 (t.nc - 1)).1 t.nc).1

/-- The heap after the store `t->ns[ix].freq++` of `binheap_inc_freq`. -/
def bump (t : binheap_t) (ix : Int) : binheap_t :=
  { ns := ns_set t.ns ix { freq := (t.ns ix).freq + 1, sym := (t.ns ix).sym },
    sx := t.sx, nc := t.nc }

/-- The heap after the ancestor loop of `binheap_inc_freq` started at `p`. -/
def anc_fix (t : binheap_t) (p : Int) : binheap_t :=
  { ns := inc_freq_loop p.toNat t.ns p, sx := t.sx, nc := t.nc }

/-- Sequences in which `add` is called with pairwise-distinct symbols of the alphabet and
`inc` only on symbols added before; `added` lists the symbols added so far. -/
def distinct_ops : List Int → List heap_op → Bool
  | _, [] => true
  | added, .add s :: rest =>
    decide (0 ≤ s ∧ s < alphabet ∧ s ∉ added) && distinct_ops (s :: added) rest
  | added, .inc s :: rest => decide (s ∈ added) && distinct_ops added rest

/-- Sequences in which every `add` meets the precondition stated for it
(`0 ≤ sym < alphabet`, `nc < max_nodes`) and every `inc` is on a symbol in the table;
`t` is the heap before the first call. -/
def stated_ops : binheap_t → List heap_op → Bool
  | _, [] => true
  | t, .add s :: rest =>
    decide (0 ≤ s ∧ s < alphabet ∧ t.nc < max_nodes) && stated_ops (heap_step t (.add s)) rest
  | t, .inc s :: rest =>
    decide (0 ≤ s ∧ s < alphabet ∧ t.sx s ≠ -1) && stated_ops (heap_step t (.inc s)) rest

/-- As `stated_ops`, and the symbol of every `add` has table entry `-1` at the call. -/
def fresh_ops : binheap_t → List heap_op → Bool
  | _, [] => true
  | t, .add s :: rest =>
    decide (0 ≤ s ∧ s < alphabet ∧ t.nc < max_nodes ∧ t.sx s = -1) &&
      fresh_ops (heap_step t (.add s)) rest
  | t, .inc s :: rest =>
    decide (0 ≤ s ∧ s < alphabet ∧ t.sx s ≠ -1) && fresh_ops (heap_step t (.inc s)) rest

/-- The code of symbol `s`: the bits of the path returned by `binheap_find`, the step
nearest the root first. -/
def code_bits (t : binheap_t) (s : Int) : List Bool :=
  (List.range (binheap_find t s).2.2.toNat).map
    (fun k : Nat => decide ((binheap_find t s).2.1 / 2 ^ k % 2 = 1))

/-- The symbol index `t->ns[ix].sym` of the store `t->sx[t->ns[ix].sym] = ix` that ends
`binheap_heapify_up(t, ix)`: the symbol of the node at the index where the loop stopped. -/
def heapify_up_store_sym (t : binheap_t) (ix : Int) : Int :=
  let r := heapify_up_loop ix.toNat t ix
  (r.1.ns r.2).sym

/-- The symbol index `t->ns[ix].sym` of the store `t->sx[t->ns[ix].sym] = ix` that ends the
outermost call `binheap_heapify_down(t, ix)`, after the recursive call, if any, returned. -/
def heapify_down_store_sym (t : binheap_t) (ix : Int) : Int :=
  let largest := heapify_down_largest t ix
  let r := if largest ≠ ix then heapify_down_rec t.nc.toNat (binheap_swap t ix largest) largest
           else (t, ix)
  (r.1.ns r.2).sym

/-- The heap inside `binheap_add` (two or more nodes) at the call
`binheap_heapify_down(t, smallest)`: the internal node is stored and `nc` incremented. -/
def add_down_state (t : binheap_t) : binheap_t :=
  push_node t (merged_node t)

/-- The heap inside `binheap_add` (two or more nodes) at the call
`binheap_heapify_up(t, i)`: the two sift-downs have run. -/
def add_up_state (t : binheap_t) : binheap_t :=
  (binheap_heapify_down (binheap_heapify_down (add_down_state t) (t.nc - 2)).1 (t.nc - 1)).1

/-- Every frequency in the node array `ns[0 .. max_nodes - 1]` lies in `[0, b)`. -/
def freq_below (t : binheap_t) (b : Int) : Prop :=
  ∀ ix : Int, 0 ≤ ix → ix < max_nodes → 0 ≤ (t.ns ix).freq ∧ (t.ns ix).freq < b

/-! ## Specification-side definitions for the codec -/

/-- The session `lz` comes from `lz0` by write-callback invocations only: the log grew by
write entries, and when no error is set at the end none was set at the start and `written`
grew by 8 for each of them. -/
def wr_rel {σ : Type} (lz0 lz : huff_t σ) : Prop :=
  ∃ new : List huff_call, lz.calls = lz0.calls ++ new ∧
    (∀ c ∈ new, ∃ e w, c = huff_call.write e w) ∧
    (lz.error = 0 → lz0.error = 0 ∧ lz.written = (lz0.written + 8 * new.length) % 2 ^ 64)

/-- The common run of `data[j ..]` and `data[i ..]`, capped at `n`, has length `k`: the
first `k` positions agree and, when `k < n`, position `k` differs. -/
def is_run (data : Nat → Nat) (j i n k : Nat) : Prop :=
  k ≤ n ∧ (∀ m : Nat, m < k → data (j + m) = data (i + m)) ∧
    (k < n → data (j + k) ≠ data (i + k))

/-- The run length the match search measures at candidate `j`. -/
def run_len (data : Nat → Nat) (j i n : Nat) : Nat :=
  match_len_loop data j i n n 0


/-- What the search holds after the candidates above `j` were tried: `len` bounds their
runs, and either nothing was found or `len` is the run of the candidate at distance `pos`,
the closest one reaching it. -/
def search_inv (data : Nat → Nat) (bytes i min_j j len pos : Nat) : Prop :=
  (∀ c : Nat, j < c → c < i → run_len data c i (bytes - i) ≤ len) ∧
  ((len = 0 ∧ pos = 0) ∨
   (0 < len ∧ 0 < pos ∧ pos ≤ i ∧ min_j < i - pos ∧ j < i - pos ∧
     run_len data (i - pos) i (bytes - i) = len ∧
     ∀ c : Nat, i - pos < c → c < i → run_len data c i (bytes - i) < len))

/-- A token of the stream: a literal byte, or a match of `len` bytes at distance `pos`. -/
inductive lz_token where
  | lit (b : Nat)
  | mat (pos len : Nat)
deriving DecidableEq, Repr

/-- The tokens the loop `while (i < bytes)` of `huff_compress` emits from cursor `i` on:
the control flow of `compress_loop` without the bit writer. -/
def compress_tokens (data : Nat → Nat) (bytes window : Nat) : Nat → Nat → List lz_token
  | 0, _ => []
  | fuel + 1, i =>
    if i < bytes then
      if (find_match data bytes window i).1 > 2 then
        lz_token.mat (find_match data bytes window i).2 (find_match data bytes window i).1 ::
          compress_tokens data bytes window fuel (i + (find_match data bytes window i).1)
      else lz_token.lit (data i) :: compress_tokens data bytes window fuel (i + 1)
    else []

/-- The writer state after the bits `huff_compress` writes for one token. -/
def write_token {σ : Type} (io : huff_io σ) (base : Nat) (w : bit_state σ) :
    lz_token → bit_state σ
  | lz_token.mat pos len =>
    huff_write_number io (huff_write_number io (huff_write_bits io 2 w 3) pos base) len base
  | lz_token.lit b =>
    if b < 128 then huff_write_bits io 7 (huff_write_bit io w 0) b
    else huff_write_bits io 7 (huff_write_bits io 2 w 2) b

/-- The writer state after the bits of the tokens `toks`, in order. -/
def write_tokens {σ : Type} (io : huff_io σ) (base : Nat) (w : bit_state σ)
    (toks : List lz_token) : bit_state σ :=
  toks.foldl (write_token io base) w

/-- A host whose write callback never sets the error. -/
def quiet_io {σ : Type} (io : huff_io σ) : Prop :=
  ∀ (s : σ) (w : Nat), (io.write s 0 w).2 = 0

/-- Whether a token is a match. -/
def lz_token.is_mat : lz_token → Bool
  | lz_token.mat _ _ => true
  | lz_token.lit _ => false

/-- The `n` low bits of `w`, least significant first. -/
def low_bits (w n : Nat) : List Bool :=
  (List.range n).map (fun k => w.testBit k)

/-- The bits `bp .. 63` of `w`, in this order. -/
def high_bits (w bp : Nat) : List Bool :=
  (List.range (64 - bp)).map (fun k => w.testBit (bp + k))

/-- The bits of a sequence of 64-bit words, each least significant bit first. -/
def words_bits : List Nat → List Bool
  | [] => []
  | w :: ws => low_bits w 64 ++ words_bits ws

/-- The bits a writer over the list host has produced: the words handed to the host, then
the `bp` bits pending in `b64`. -/
def wbits (w : bit_state (List Nat)) : List Bool :=
  words_bits w.lz.that ++ low_bits w.b64 w.bp

/-- The bits a reader over the list host has before it: the unread bits of `b64`, then the
words the host still holds. -/
def rbits (r : bit_state (List Nat)) : List Bool :=
  (if r.bp = 0 then [] else high_bits r.b64 r.bp) ++ words_bits r.lz.that

/-- A writer state as `huff_compress` keeps it: no error, at most 64 pending bits, and
nothing in `b64` above them. -/
structure wr_ok (w : bit_state (List Nat)) : Prop where
  error : w.lz.error = 0
  bp_le : w.bp ≤ 64
  clean : ∀ k : Nat, w.bp ≤ k → w.b64.testBit k = false

/-- A reader state as `huff_decompress` keeps it: no error and `bp` in `[0, 64)`. -/
structure rd_ok (r : bit_state (List Nat)) : Prop where
  error : r.lz.error = 0
  bp_lt : r.bp < 64

/-- The value of a bit sequence, least significant bit first. -/
def bits_val : List Bool → Nat
  | [] => 0
  | b :: bs => b.toNat + 2 * bits_val bs

/-- The bits `huff_write_number` emits for `v`: chunks of `base` bits, each followed by a
continuation bit; `fuel` bounds the number of chunks as in `huff_write_number_loop`. -/
def number_bits (base : Nat) : Nat → Nat → List Bool
  | 0, _ => []
  | fuel + 1, v =>
    low_bits v base ++ [decide (v >>> base ≠ 0)] ++
      (if v >>> base ≠ 0 then number_bits base fuel (v >>> base) else [])

/-- The bits `huff_compress` emits for one token, in stream order. -/
def token_bits (base : Nat) : lz_token → List Bool
  | lz_token.mat pos len => low_bits 3 2 ++ number_bits base 64 pos ++ number_bits base 64 len
  | lz_token.lit b => if b < 128 then false :: low_bits b 7 else low_bits 2 2 ++ low_bits b 7

/-- The bits of a token sequence. -/
def tokens_bits (base : Nat) : List lz_token → List Bool
  | [] => []
  | t :: ts => token_bits base t ++ tokens_bits base ts

/-- The tokens `ts` describe `data[i .. bytes)`: a literal is the byte at the cursor, below
`0x80`; a match copies `len` bytes found `pos` back, inside the buffer; the cursor ends at
`bytes`. -/
def tokens_ok (data : Nat → Nat) (bytes window : Nat) : Nat → List lz_token → Prop
  | i, [] => i = bytes
  | i, lz_token.lit b :: ts =>
    i < bytes ∧ b = data i ∧ b < 128 ∧ tokens_ok data bytes window (i + 1) ts
  | i, lz_token.mat pos len :: ts =>
    i < bytes ∧ 0 < pos ∧ pos < window ∧ pos ≤ i ∧ 0 < len ∧ i + len ≤ bytes ∧
      (∀ k : Nat, k < len → data (i - pos + k) = data (i + k)) ∧
      tokens_ok data bytes window (i + len) ts

/-- The session `lz` comes from `lz0` by read-callback invocations only: the log grew by
read entries. -/
def rd_rel {σ : Type} (lz0 lz : huff_t σ) : Prop :=
  ∃ new : List huff_call, lz.calls = lz0.calls ++ new ∧
    ∀ c ∈ new, ∃ e w, c = huff_call.read e w

/-- The number of input bytes a token stands for: the cursor of `huff_compress` advances
by 1 after a literal and by `len` after a match. -/
def lz_token.span : lz_token → Nat
  | lz_token.lit _ => 1
  | lz_token.mat _ len => len

/-- The tokens `toks`, each with the cursor at which it is emitted, the first one at `i`. -/
def cursor_tokens : Nat → List lz_token → List (Nat × lz_token)
  | _, [] => []
  | i, tk :: ts => (i, tk) :: cursor_tokens (i + tk.span) ts

/-! ## `binheap_find` -/

theorem ns_set_eq (ns : Int → node_t) (i : Int) (v : node_t) : ns_set ns i v i = v := by
  simp [ns_set]

theorem ns_set_ne (ns : Int → node_t) (i j : Int) (v : node_t) (h : j ≠ i) :
    ns_set ns i v j = ns j := by
  simp [ns_set, h]

theorem path_walk_shift (cur : Int) (path : Nat) (n : Nat) :
    path_walk cur path (n + 1) = path_walk (2 * cur + 1 + ((path % 2 : Nat) : Int)) (path / 2) n := by
  induction n with
  | zero => simp [path_walk]
  | succ n ih =>
    have h : path / 2 ^ (n + 1) = path / 2 / 2 ^ n := by
      rw [Nat.div_div_eq_div_mul, pow_succ, Nat.mul_comm]
    rw [path_walk, ih]
    simp only [path_walk]
    rw [h]

theorem lor_one_of_even (n : Nat) (h : n % 2 = 0) : n ||| 1 = n + 1 := by
  have h1 := Nat.mul_add_lt_is_or (i := 1) (b := 1) (by norm_num) (n / 2)
  have h2 : 2 ^ 1 * (n / 2) = n := by omega
  rw [h2] at h1
  exact h1.symm

theorem log2_parent (n : Nat) (h : 0 < n) : Nat.log2 (n + 1) = Nat.log2 ((n - 1) / 2 + 1) + 1 := by
  have h2 : (n - 1) / 2 + 1 = (n + 1) / 2 := by omega
  rw [h2]
  conv_lhs => rw [Nat.log2]
  simp
  omega

theorem find_loop_spec (fuel : Nat) : ∀ (i : Int) (path b : Nat), 0 ≤ i → i.toNat ≤ fuel →
    path < 2 ^ b → b + Nat.log2 (i.toNat + 1) ≤ 64 →
    (find_loop fuel i path b).2 = ((b + Nat.log2 (i.toNat + 1) : Nat) : Int) ∧
    (find_loop fuel i path b).1 < 2 ^ (b + Nat.log2 (i.toNat + 1)) ∧
    path_walk 0 (find_loop fuel i path b).1 (b + Nat.log2 (i.toNat + 1)) = path_walk i path b := by
  induction fuel with
  | zero =>
    intro i path b h0 hf hp hb
    have hi : i = 0 := by omega
    subst hi
    simp [find_loop, Nat.log2, hp]
  | succ fuel ih =>
    intro i path b h0 hf hp hb
    by_cases hi : i > 0
    · have hlog := log2_parent i.toNat (by omega)
      have hpar : ((i - 1) / 2).toNat = (i.toNat - 1) / 2 := by omega
      have hb1 : b + 1 ≤ 64 := by omega
      have hp2 : path * 2 < 2 ^ (b + 1) := by rw [pow_succ]; omega
      have hlt : path * 2 < 2 ^ 64 :=
        lt_of_lt_of_le hp2 (Nat.pow_le_pow_right (by norm_num) hb1)
      have hmod : path * 2 % 2 ^ 64 = path * 2 := Nat.mod_eq_of_lt hlt
      have hor : (path * 2) ||| 1 = path * 2 + 1 := lor_one_of_even _ (by omega)
      have hp3 : path * 2 + 1 < 2 ^ (b + 1) := by rw [pow_succ]; omega
      rw [find_loop, if_pos hi]
      simp only [hmod, hor]
      have hcast : ((b : Int) + 1) = ((b + 1 : Nat) : Int) := by push_cast; ring
      by_cases hr : i = (i - 1) / 2 * 2 + 2
      · rw [if_pos hr, hcast]
        have := ih ((i - 1) / 2) (path * 2 + 1) (b + 1) (by omega) (by omega) hp3
          (by rw [hpar]; omega)
        rw [hpar] at this
        have e : b + 1 + Nat.log2 ((i.toNat - 1) / 2 + 1) = b + Nat.log2 (i.toNat + 1) := by omega
        rw [e] at this
        refine ⟨this.1, this.2.1, ?_⟩
        rw [this.2.2, path_walk_shift]
        have e1 : (path * 2 + 1) % 2 = 1 := by omega
        have e2 : (path * 2 + 1) / 2 = path := by omega
        rw [e1, e2]
        congr 1
        push_cast
        omega
      · rw [if_neg hr, hcast]
        have := ih ((i - 1) / 2) (path * 2) (b + 1) (by omega) (by omega) hp2
          (by rw [hpar]; omega)
        rw [hpar] at this
        have e : b + 1 + Nat.log2 ((i.toNat - 1) / 2 + 1) = b + Nat.log2 (i.toNat + 1) := by omega
        rw [e] at this
        refine ⟨this.1, this.2.1, ?_⟩
        rw [this.2.2, path_walk_shift]
        have e1 : (path * 2) % 2 = 0 := by omega
        have e2 : (path * 2) / 2 = path := by omega
        rw [e1, e2]
        congr 1
        push_cast
        omega
    · have hi0 : i = 0 := by omega
      subst hi0
      simp [find_loop, Nat.log2, hp]


/-- For a symbol `s` whose table entry `ix = sx[s]` is an index (`0 ≤ ix`, within the
range of `int32_t`), `binheap_find` returns `ix`, a bit length equal to the depth
`⌊log2 (ix + 1)⌋` of `ix`, and a path whose bits, followed from index `0` least-significant
first by `cur ↦ 2 * cur + 1 + bit`, lead exactly to `ix`. -/
theorem binheap_find_walk (t : binheap_t) (s : Int) (h0 : 0 ≤ t.sx s) (h31 : t.sx s < 2 ^ 31) :
    (binheap_find t s).1 = t.sx s ∧
    (binheap_find t s).2.2 = ((Nat.log2 ((t.sx s).toNat + 1) : Nat) : Int) ∧
    path_walk 0 (binheap_find t s).2.1 (binheap_find t s).2.2.toNat = t.sx s := by
  have hlog : Nat.log2 ((t.sx s).toNat + 1) ≤ 31 := by
    have hlt : (t.sx s).toNat + 1 < 2 ^ 32 := by
      have : (t.sx s).toNat < 2 ^ 31 := by omega
      omega
    have := (Nat.log2_lt (by omega)).2 hlt
    omega
  have h := find_loop_spec (t.sx s).toNat (t.sx s) 0 0 h0 le_rfl (by norm_num) (by omega)
  simp only [Nat.zero_add] at h
  have hz : ((0 : Nat) : Int) = 0 := rfl
  rw [hz] at h
  unfold binheap_find
  simp only [ge_iff_le, h0, if_true]
  refine ⟨trivial, h.1, ?_⟩
  rw [h.1, Int.toNat_ofNat, h.2.2]
  rfl

/-- C4. For a symbol `s` whose table entry `ix = sx[s]` is an index (`0 ≤ ix`, within the
range of `int32_t`), `binheap_find` returns `ix`, a bit length equal to the depth
`⌊log2 (ix + 1)⌋` of `ix`, and a path whose bits, followed from index `0` least-significant
first by `cur ↦ 2 * cur + 1 + bit`, lead exactly to `ix`. -/
theorem binheap_find_path (t : binheap_t) (s : Int) (h0 : 0 ≤ t.sx s) (h31 : t.sx s < 2 ^ 31) :
    (binheap_find t s).1 = t.sx s ∧
    (binheap_find t s).2.2 = ((Nat.log2 ((t.sx s).toNat + 1) : Nat) : Int) ∧
    path_walk 0 (binheap_find t s).2.1 (binheap_find t s).2.2.toNat = t.sx s :=
  binheap_find_walk t s h0 h31

/-- Witness for C4: symbol 2 after adding 0, 1, 2 sits at index 3. -/
theorem binheap_find_path_witness :
    (binheap_find (binheap_add (binheap_add (binheap_add binheap_init 0).1 1).1 2).1 2).1 = 3 ∧
    path_walk 0 (binheap_find (binheap_add (binheap_add (binheap_add binheap_init 0).1 1).1 2).1 2).2.1
      (binheap_find (binheap_add (binheap_add (binheap_add binheap_init 0).1 1).1 2).1 2).2.2.toNat
      = (binheap_add (binheap_add (binheap_add binheap_init 0).1 1).1 2).1.sx 2 :=
  ⟨by decide, (binheap_find_path _ 2 (by decide) (by decide)).2.2⟩

/-- C8. For a symbol in `[0, alphabet)` whose table entry is `-1`, `binheap_find` returns
index `-1`, path `0` and bit length `0`. -/
theorem binheap_find_absent (t : binheap_t) (sym : Int) (_hlo : 0 ≤ sym) (_hhi : sym < alphabet)
    (h : t.sx sym = -1) : binheap_find t sym = (-1, 0, 0) := by
  simp [binheap_find, h]

/-- Witness for C8: symbol 5 in the empty heap. -/
theorem binheap_find_absent_witness : binheap_find binheap_init 5 = (-1, 0, 0) :=
  binheap_find_absent binheap_init 5 (by decide) (by decide) rfl

/-! ## `binheap_verify` -/

theorem binheap_find_fst (t : binheap_t) (sym : Int) : (binheap_find t sym).1 = t.sx sym := by
  unfold binheap_find
  dsimp only
  split <;> rfl

theorem verify_node_iff (t : binheap_t) (ix : Int) :
    verify_node t ix = true ↔
      (2 * ix + 1 < t.nc → (t.ns ix).freq ≥ (t.ns (2 * ix + 1)).freq) ∧
      (2 * ix + 2 < t.nc → (t.ns ix).freq ≥ (t.ns (2 * ix + 2)).freq) ∧
      ((t.ns ix).sym ≥ 0 → t.sx (t.ns ix).sym = ix ∧ t.sx (t.ns ix).sym < max_nodes ∧
        0 ≤ t.sx (t.ns ix).sym) := by
  unfold verify_node
  simp only [binheap_find_fst]
  constructor
  · intro h
    split at h
    · exact absurd h (by simp)
    · split at h
      · exact absurd h (by simp)
      · split at h
        · exact absurd h (by simp)
        · rename_i h1 h2 h3
          refine ⟨fun hl => ?_, fun hr => ?_, fun hs => ?_⟩
          · by_contra hc; exact h1 ⟨hl, by omega⟩
          · by_contra hc; exact h2 ⟨hr, by omega⟩
          · have e : t.sx (t.ns ix).sym = ix := by
              by_contra hc; exact h3 ⟨hs, hc⟩
            rw [if_pos hs] at h
            split at h
            · exact absurd h (by simp)
            · split at h
              · exact absurd h (by simp)
              · rename_i h5
                have h5' := not_not.mp h5
                exact ⟨e, h5'.2, h5'.1⟩
  · rintro ⟨hl, hr, hs⟩
    rw [if_neg (fun hc => by have := hl hc.1; omega),
      if_neg (fun hc => by have := hr hc.1; omega),
      if_neg (fun hc => hc.2 (hs hc.1).1)]
    split
    · rename_i h4
      have := hs h4
      rw [if_neg (fun hc => hc this.1), if_neg (fun hc => hc ⟨this.2.2, this.2.1⟩)]
    · rfl

theorem verify_sym_iff (t : binheap_t) (sym : Int) :
    verify_sym t sym = true ↔
      (t.sx sym ≠ -1 → 0 ≤ t.sx sym ∧ t.sx sym < t.nc ∧ (t.ns (t.sx sym)).sym = sym) := by
  unfold verify_sym
  dsimp only
  constructor
  · intro h hne
    rw [if_pos hne] at h
    split at h
    · exact absurd h (by simp)
    · split at h
      · exact absurd h (by simp)
      · rename_i h1 h2
        have h1' := not_not.mp h1
        exact ⟨h1'.1, h1'.2, not_not.mp h2⟩
  · intro h
    split
    · rename_i hne
      have := h hne
      rw [if_neg (fun hc => hc ⟨this.1, this.2.1⟩), if_neg (fun hc => hc this.2.2)]
    · rfl

theorem binheap_verify_iff (t : binheap_t) :
    binheap_verify t = true ↔
      (∀ ix : Int, 0 ≤ ix → ix < t.nc → verify_node t ix = true) ∧
      (∀ s : Int, 0 ≤ s → s < alphabet → verify_sym t s = true) := by
  unfold binheap_verify
  rw [Bool.and_eq_true, List.all_eq_true, List.all_eq_true]
  constructor
  · rintro ⟨h1, h2⟩
    refine ⟨fun ix h0 hlt => ?_, fun s h0 hlt => ?_⟩
    · have := h1 ix.toNat (List.mem_range.2 (by omega))
      rwa [Int.toNat_of_nonneg h0] at this
    · have := h2 s.toNat (List.mem_range.2 (by omega))
      rwa [Int.toNat_of_nonneg h0] at this
  · rintro ⟨h1, h2⟩
    refine ⟨fun n hn => ?_, fun n hn => ?_⟩
    · have hn' := List.mem_range.1 hn
      exact h1 n (by omega) (by omega)
    · have hn' := List.mem_range.1 hn
      exact h2 n (by omega) (by omega)

theorem binheap_verify_of (t : binheap_t) (hcap : t.nc ≤ max_nodes) (hh : max_heap t)
    (ht : table_ok t) : binheap_verify t = true := by
  rw [binheap_verify_iff]
  refine ⟨fun ix h0 hlt => ?_, fun s h0 hlt => ?_⟩
  · rw [verify_node_iff]
    refine ⟨(hh ix h0 hlt).1, (hh ix h0 hlt).2, fun hs => ?_⟩
    have e := ht.2 ix h0 hlt hs
    exact ⟨e, by omega, by omega⟩
  · rw [verify_sym_iff]
    exact ht.1 s h0 hlt

theorem max_heap_of_verify (t : binheap_t) (h : binheap_verify t = true) : max_heap t := by
  rw [binheap_verify_iff] at h
  intro ix h0 hlt
  have := (verify_node_iff t ix).1 (h.1 ix h0 hlt)
  exact ⟨this.1, this.2.1⟩

theorem table_ok_of_verify (t : binheap_t) (h : binheap_verify t = true) : table_ok t := by
  rw [binheap_verify_iff] at h
  refine ⟨fun s h0 hlt => (verify_sym_iff t s).1 (h.2 s h0 hlt), fun ix h0 hlt hs => ?_⟩
  exact (((verify_node_iff t ix).1 (h.1 ix h0 hlt)).2.2 hs).1

theorem verify_node_call_spec (s : verify_state) (ix : Int) :
    (verify_node_call s ix).1.t = s.t ∧ (verify_node_call s ix).2 = verify_node s.t ix := by
  unfold verify_node_call verify_node binheap_find_call
  dsimp only
  split
  · exact ⟨rfl, rfl⟩
  · split
    · exact ⟨rfl, rfl⟩
    · split
      · exact ⟨rfl, rfl⟩
      · split
        · split
          · exact ⟨rfl, rfl⟩
          · split
            · exact ⟨rfl, rfl⟩
            · exact ⟨rfl, rfl⟩
        · exact ⟨rfl, rfl⟩

theorem verify_nodes_loop_spec (fuel : Nat) : ∀ (s : verify_state) (ix : Int),
    (verify_nodes_loop fuel s ix).1.t = s.t ∧
    ((verify_nodes_loop fuel s ix).2 = true ↔
      ∀ j : Int, ix ≤ j → j < ix + fuel → j < s.t.nc → verify_node s.t j = true) := by
  induction fuel with
  | zero =>
    intro s ix
    refine ⟨rfl, fun _ => ?_, fun _ => rfl⟩
    intro j h1 h2
    simp only [Nat.cast_zero, add_zero] at h2
    omega
  | succ fuel ih =>
    intro s ix
    have hn := verify_node_call_spec s ix
    rw [verify_nodes_loop]
    by_cases hlt : ix < s.t.nc
    · rw [if_pos hlt]
      dsimp only
      by_cases hb : (verify_node_call s ix).2 = true
      · rw [if_pos hb]
        have r := ih (verify_node_call s ix).1 (ix + 1)
        rw [hn.1] at r
        refine ⟨r.1, ?_⟩
        rw [r.2]
        rw [hn.2] at hb
        constructor
        · intro h j h1 h2 h3
          by_cases e : j = ix
          · rw [e]; exact hb
          · exact h j (by omega) (by push_cast at h2; omega) h3
        · intro h j h1 h2 h3
          exact h j (by omega) (by push_cast; omega) h3
      · rw [if_neg hb]
        refine ⟨hn.1, ?_⟩
        rw [hn.2] at hb
        constructor
        · intro h
          exact absurd h (by simp)
        · intro h
          exact absurd (h ix le_rfl (by push_cast; omega) hlt) hb
    · rw [if_neg hlt]
      refine ⟨rfl, fun _ => ?_, fun _ => rfl⟩
      intro j h1 _ h3
      omega

theorem verify_syms_loop_spec (fuel : Nat) : ∀ (s : verify_state) (sym : Int),
    (verify_syms_loop fuel s sym).1.t = s.t ∧
    ((verify_syms_loop fuel s sym).2 = true ↔
      ∀ j : Int, sym ≤ j → j < sym + fuel → j < alphabet → verify_sym s.t j = true) := by
  induction fuel with
  | zero =>
    intro s sym
    refine ⟨rfl, fun _ => ?_, fun _ => rfl⟩
    intro j h1 h2
    simp only [Nat.cast_zero, add_zero] at h2
    omega
  | succ fuel ih =>
    intro s sym
    rw [verify_syms_loop]
    by_cases hlt : sym < alphabet
    · rw [if_pos hlt]
      by_cases hb : verify_sym s.t sym = true
      · rw [if_pos hb]
        have r := ih s (sym + 1)
        refine ⟨r.1, ?_⟩
        rw [r.2]
        constructor
        · intro h j h1 h2 h3
          by_cases e : j = sym
          · rw [e]; exact hb
          · exact h j (by omega) (by push_cast at h2; omega) h3
        · intro h j h1 h2 h3
          exact h j (by omega) (by push_cast; omega) h3
      · rw [if_neg hb]
        refine ⟨rfl, ?_⟩
        constructor
        · intro h
          exact absurd h (by simp)
        · intro h
          exact absurd (h sym le_rfl (by push_cast; omega) hlt) hb
    · rw [if_neg hlt]
      refine ⟨rfl, fun _ => ?_, fun _ => rfl⟩
      intro j h1 _ h3
      omega

/-- The loops of `binheap_verify` leave the heap as it was and return the conjunction of
the checks of every live index and every symbol. -/
theorem binheap_verify_call_eq (t : binheap_t) :
    binheap_verify_call t = (t, binheap_verify t) := by
  have r1 := verify_nodes_loop_spec t.nc.toNat { t := t, path := 0, bits := 0 } 0
  have r2 := verify_syms_loop_spec alphabet.toNat
    (verify_nodes_loop t.nc.toNat { t := t, path := 0, bits := 0 } 0).1 0
  rw [r1.1] at r2
  have ea : ((alphabet.toNat : Nat) : Int) = alphabet := by decide
  have hv := binheap_verify_iff t
  unfold binheap_verify_call
  dsimp only
  by_cases hb : (verify_nodes_loop t.nc.toNat { t := t, path := 0, bits := 0 } 0).2 = true
  · rw [if_pos hb]
    have h1 := r1.2.1 hb
    refine Prod.ext r2.1 ?_
    show (verify_syms_loop _ _ 0).2 = binheap_verify t
    rw [Bool.eq_iff_iff, r2.2, hv]
    constructor
    · intro h
      exact ⟨fun ix h0 hlt => h1 ix h0 (by omega) hlt, fun s h0 hlt => h s h0 (by omega) hlt⟩
    · intro h j h0 _ hlt
      exact h.2 j h0 hlt
  · rw [if_neg hb]
    refine Prod.ext r1.1 ?_
    show false = binheap_verify t
    symm
    rw [Bool.eq_false_iff]
    intro hc
    apply hb
    rw [r1.2]
    intro j h0 _ hlt
    exact (hv.1 hc).1 j h0 hlt

/-- C9. On a heap whose live range fits the node array (`nc ≤ max_nodes`), the call
`binheap_verify(t)` leaves the heap as it was (its only stores go to the locals `path` and
`bits`) and returns true exactly when the max-heap property holds over the live range and
the symbol table is correct in both directions. -/
theorem binheap_verify_spec (t : binheap_t) (hcap : t.nc ≤ max_nodes) :
    (binheap_verify_call t).1 = t ∧
    ((binheap_verify_call t).2 = true ↔ max_heap t ∧ table_ok t) := by
  rw [binheap_verify_call_eq]
  exact ⟨rfl, fun h => ⟨max_heap_of_verify t h, table_ok_of_verify t h⟩,
    fun h => binheap_verify_of t hcap h.1 h.2⟩

/-- Witness for C9: on the heap of four live nodes reached by adding 0, 1, 2 the call
returns true and the heap is in heap order with a correct table; on the heap reached by
adding 0 twice it returns false and the two properties do not both hold. -/
theorem binheap_verify_spec_witness :
    (heap_run [.add 0, .add 1, .add 2]).nc = 4 ∧
    (binheap_verify_call (heap_run [.add 0, .add 1, .add 2])).1 =
      heap_run [.add 0, .add 1, .add 2] ∧
    (binheap_verify_call (heap_run [.add 0, .add 1, .add 2])).2 = true ∧
    (max_heap (heap_run [.add 0, .add 1, .add 2]) ∧
      table_ok (heap_run [.add 0, .add 1, .add 2])) ∧
    (binheap_verify_call (heap_run [.add 0, .add 0])).2 = false ∧
    ¬ (max_heap (heap_run [.add 0, .add 0]) ∧ table_ok (heap_run [.add 0, .add 0])) :=
  ⟨by decide,
   (binheap_verify_spec (heap_run [.add 0, .add 1, .add 2]) (by decide)).1,
   by decide,
   (binheap_verify_spec (heap_run [.add 0, .add 1, .add 2]) (by decide)).2.1 (by decide),
   by decide,
   fun h => absurd ((binheap_verify_spec (heap_run [.add 0, .add 0]) (by decide)).2.2 h)
     (by decide)⟩

/-! ## `binheap_swap` -/

theorem sx_set_apply (sx : Int → Int) (s v k : Int) :
    sx_set sx s v k = if k = s ∧ 0 ≤ s ∧ s < alphabet then v else sx k := rfl

theorem sx_set_id (sx : Int → Int) (s v : Int) (h : 0 ≤ s → sx s = v) : sx_set sx s v = sx := by
  funext k
  rw [sx_set_apply]
  split
  · rename_i hk
    rw [hk.1, h hk.2.1]
  · rfl

theorem sx_store_at_id (t : binheap_t) (ix : Int) (ht : table_ok t) (h0 : 0 ≤ ix)
    (h1 : ix < t.nc) : sx_store_at t ix = t := by
  unfold sx_store_at
  rw [sx_set_id _ _ _ (fun hs => ht.2 ix h0 h1 hs)]

theorem binheap_swap_nc (t : binheap_t) (i p : Int) : (binheap_swap t i p).nc = t.nc := rfl

theorem binheap_swap_ns (t : binheap_t) (i p : Int) :
    (binheap_swap t i p).ns = ns_set (ns_set t.ns i (t.ns p)) p (t.ns i) := rfl

theorem binheap_swap_ns_snd (t : binheap_t) (i p : Int) :
    (binheap_swap t i p).ns p = t.ns i := by
  rw [binheap_swap_ns, ns_set_eq]

theorem binheap_swap_ns_fst (t : binheap_t) (i p : Int) :
    (binheap_swap t i p).ns i = t.ns p := by
  rw [binheap_swap_ns]
  by_cases h : i = p
  · rw [h, ns_set_eq]
  · rw [ns_set_ne _ _ _ _ h, ns_set_eq]

theorem binheap_swap_ns_other (t : binheap_t) (i p j : Int) (hi : j ≠ i) (hp : j ≠ p) :
    (binheap_swap t i p).ns j = t.ns j := by
  rw [binheap_swap_ns, ns_set_ne _ _ _ _ hp, ns_set_ne _ _ _ _ hi]

/-- With a correct table, the swap retargets exactly the table entries of the two nodes. -/
theorem binheap_swap_sx (t : binheap_t) (i p : Int) (ht : table_ok t) (hs : sym_range t)
    (hi0 : 0 ≤ i) (hi1 : i < t.nc) (hp0 : 0 ≤ p) (hp1 : p < t.nc) (hne : i ≠ p) (k : Int) :
    (binheap_swap t i p).sx k =
      if 0 ≤ (t.ns i).sym ∧ k = (t.ns i).sym then p
      else if 0 ≤ (t.ns p).sym ∧ k = (t.ns p).sym then i
      else t.sx k := by
  have ha := ht.2 i hi0 hi1
  have hb := ht.2 p hp0 hp1
  have hra := hs i hi0 hi1
  have hrb := hs p hp0 hp1
  unfold binheap_swap
  dsimp only
  by_cases h1 : (t.ns i).sym ≥ 0
  · by_cases h2 : (t.ns p).sym ≥ 0
    · have hab : (t.ns i).sym ≠ (t.ns p).sym := by
        intro e
        have := ha h1
        rw [e, hb h2] at this
        exact hne this.symm
      rw [if_pos ⟨h1, h2⟩, sx_set_apply, sx_set_apply, ha h1, hb h2]
      by_cases k1 : k = (t.ns i).sym
      · have k2 : k ≠ (t.ns p).sym := fun e => hab (k1.symm.trans e)
        simp [k1, h1, hra, hab]
      · by_cases k2 : k = (t.ns p).sym
        · simp [k2, h2, hrb, hab, Ne.symm hab]
        · simp [k1, k2]
    · rw [if_neg (fun h => h2 h.2), if_pos h1, sx_set_apply]
      by_cases k1 : k = (t.ns i).sym
      · simp [k1, h1, hra]
      · have : ¬ (0 ≤ (t.ns p).sym ∧ k = (t.ns p).sym) := fun h => h2 h.1
        simp [k1, this]
  · by_cases h2 : (t.ns p).sym ≥ 0
    · rw [if_neg (fun h => h1 h.1), if_neg h1, if_pos h2, sx_set_apply]
      have : ¬ (0 ≤ (t.ns i).sym ∧ k = (t.ns i).sym) := fun h => h1 h.1
      by_cases k2 : k = (t.ns p).sym
      · simp [k2, h2, hrb, this, h1]
      · simp [k2, this]
    · rw [if_neg (fun h => h1 h.1), if_neg h1, if_neg h2]
      have a1 : ¬ (0 ≤ (t.ns i).sym ∧ k = (t.ns i).sym) := fun h => h1 h.1
      have a2 : ¬ (0 ≤ (t.ns p).sym ∧ k = (t.ns p).sym) := fun h => h2 h.1
      simp [a1, a2]

theorem binheap_swap_table (t : binheap_t) (i p : Int) (ht : table_ok t) (hs : sym_range t)
    (hi0 : 0 ≤ i) (hi1 : i < t.nc) (hp0 : 0 ≤ p) (hp1 : p < t.nc) (hne : i ≠ p) :
    table_ok (binheap_swap t i p) := by
  have hsx := binheap_swap_sx t i p ht hs hi0 hi1 hp0 hp1 hne
  have ha := ht.2 i hi0 hi1
  have hb := ht.2 p hp0 hp1
  constructor
  · intro s s0 s1 hdom
    rw [binheap_swap_nc]
    rw [hsx s] at hdom ⊢
    by_cases k1 : 0 ≤ (t.ns i).sym ∧ s = (t.ns i).sym
    · rw [if_pos k1, binheap_swap_ns_snd]
      exact ⟨hp0, hp1, k1.2.symm⟩
    · rw [if_neg k1] at hdom ⊢
      by_cases k2 : 0 ≤ (t.ns p).sym ∧ s = (t.ns p).sym
      · rw [if_pos k2, binheap_swap_ns_fst]
        exact ⟨hi0, hi1, k2.2.symm⟩
      · rw [if_neg k2] at hdom ⊢
        have h := ht.1 s s0 s1 hdom
        have n1 : t.sx s ≠ i := by
          intro e
          rw [e] at h
          exact k1 ⟨by omega, h.2.2.symm⟩
        have n2 : t.sx s ≠ p := by
          intro e
          rw [e] at h
          exact k2 ⟨by omega, h.2.2.symm⟩
        rw [binheap_swap_ns_other _ _ _ _ n1 n2]
        exact h
  · intro ix x0 x1 hleaf
    rw [binheap_swap_nc] at x1
    by_cases e1 : ix = p
    · subst e1
      rw [binheap_swap_ns_snd] at hleaf ⊢
      rw [hsx, if_pos ⟨hleaf, rfl⟩]
    · by_cases e2 : ix = i
      · subst e2
        rw [binheap_swap_ns_fst] at hleaf ⊢
        have hab : ¬ (0 ≤ (t.ns ix).sym ∧ (t.ns p).sym = (t.ns ix).sym) := by
          rintro ⟨h1, e⟩
          have := hb hleaf
          rw [e, ha h1] at this
          exact hne this
        rw [hsx, if_neg hab, if_pos ⟨hleaf, rfl⟩]
      · rw [binheap_swap_ns_other _ _ _ _ e2 e1] at hleaf ⊢
        have hx := ht.2 ix x0 x1 hleaf
        have n1 : ¬ (0 ≤ (t.ns i).sym ∧ (t.ns ix).sym = (t.ns i).sym) := by
          rintro ⟨h1, e⟩
          rw [e, ha h1] at hx
          exact e2 hx.symm
        have n2 : ¬ (0 ≤ (t.ns p).sym ∧ (t.ns ix).sym = (t.ns p).sym) := by
          rintro ⟨h1, e⟩
          rw [e, hb h1] at hx
          exact e1 hx.symm
        rw [hsx, if_neg n1, if_neg n2]
        exact hx

theorem binheap_swap_dom (t : binheap_t) (i p : Int) (ht : table_ok t) (hs : sym_range t)
    (hi0 : 0 ≤ i) (hi1 : i < t.nc) (hp0 : 0 ≤ p) (hp1 : p < t.nc) (hne : i ≠ p) (k : Int) :
    (binheap_swap t i p).sx k = -1 ↔ t.sx k = -1 := by
  rw [binheap_swap_sx t i p ht hs hi0 hi1 hp0 hp1 hne]
  have ha := ht.2 i hi0 hi1
  have hb := ht.2 p hp0 hp1
  by_cases k1 : 0 ≤ (t.ns i).sym ∧ k = (t.ns i).sym
  · rw [if_pos k1, k1.2, ha k1.1]
    omega
  · rw [if_neg k1]
    by_cases k2 : 0 ≤ (t.ns p).sym ∧ k = (t.ns p).sym
    · rw [if_pos k2, k2.2, hb k2.1]
      omega
    · rw [if_neg k2]

theorem binheap_swap_all (t : binheap_t) (i p : Int) (hi0 : 0 ≤ i) (hi1 : i < t.nc)
    (hp0 : 0 ≤ p) (hp1 : p < t.nc) (P : node_t → Prop)
    (h : ∀ j : Int, 0 ≤ j → j < t.nc → P (t.ns j)) :
    ∀ j : Int, 0 ≤ j → j < t.nc → P ((binheap_swap t i p).ns j) := by
  intro j j0 j1
  by_cases e1 : j = p
  · rw [e1, binheap_swap_ns_snd]
    exact h i hi0 hi1
  · by_cases e2 : j = i
    · rw [e2, binheap_swap_ns_fst]
      exact h p hp0 hp1
    · rw [binheap_swap_ns_other _ _ _ _ e2 e1]
      exact h j j0 j1

/-! ## `binheap_heapify_up` -/

theorem heapify_up_loop_post (fuel : Nat) : ∀ (t : binheap_t) (i : Int), table_ok t →
    sym_range t → 0 ≤ i → i < t.nc → sift_up_post t i (heapify_up_loop fuel t i) := by
  induction fuel with
  | zero =>
    intro t i ht _ h0 _
    exact ⟨rfl, ht, h0, le_rfl, rfl, fun _ _ => rfl, fun _ h => h, fun _ => Iff.rfl⟩
  | succ fuel ih =>
    intro t i ht hs h0 h1
    have stay : sift_up_post t i (t, i) :=
      ⟨rfl, ht, h0, le_rfl, rfl, fun _ _ => rfl, fun _ h => h, fun _ => Iff.rfl⟩
    rw [heapify_up_loop]
    split
    · rename_i hpos
      dsimp only
      split
      · have p0 : 0 ≤ (i - 1) / 2 := by omega
        have p1 : (i - 1) / 2 < t.nc := by omega
        have pne : i ≠ (i - 1) / 2 := by omega
        have ht' := binheap_swap_table t i _ ht hs h0 h1 p0 p1 pne
        have hs' : sym_range (binheap_swap t i ((i - 1) / 2)) :=
          binheap_swap_all t i _ h0 h1 p0 p1 (fun n => n.sym < alphabet) hs
        have r := ih (binheap_swap t i ((i - 1) / 2)) ((i - 1) / 2) ht' hs' p0 p1
        refine ⟨r.nc_eq, r.table, r.lo, by have := r.hi; omega, ?_, ?_, ?_, ?_⟩
        · rw [r.node, binheap_swap_ns_snd]
        · intro j hj
          rw [r.above j (by omega), binheap_swap_ns_other _ _ _ _ (by omega) (by omega)]
        · intro P hP
          exact r.all P (binheap_swap_all t i _ h0 h1 p0 p1 P hP)
        · intro k
          rw [r.dom k]
          exact binheap_swap_dom t i _ ht hs h0 h1 p0 p1 pne k
      · exact stay
    · exact stay

theorem max_heap_of_edges (t : binheap_t)
    (h : ∀ ix : Int, 0 ≤ ix → ix < t.nc → ∀ c : Int, (c = 2 * ix + 1 ∨ c = 2 * ix + 2) →
      c < t.nc → (t.ns ix).freq ≥ (t.ns c).freq) : max_heap t :=
  fun ix h0 h1 => ⟨fun hl => h ix h0 h1 _ (Or.inl rfl) hl, fun hr => h ix h0 h1 _ (Or.inr rfl) hr⟩

theorem edges_of_max_heap (t : binheap_t) (h : max_heap t) (ix : Int) (h0 : 0 ≤ ix)
    (h1 : ix < t.nc) (c : Int) (hc : c = 2 * ix + 1 ∨ c = 2 * ix + 2) (hlt : c < t.nc) :
    (t.ns ix).freq ≥ (t.ns c).freq := by
  rcases hc with e | e
  · rw [e] at hlt ⊢; exact (h ix h0 h1).1 hlt
  · rw [e] at hlt ⊢; exact (h ix h0 h1).2 hlt

theorem up_inv_swap (t : binheap_t) (i : Int) (h0 : 0 < i) (h1 : i < t.nc)
    (hu : up_inv t i) (hgt : (t.ns i).freq > (t.ns ((i - 1) / 2)).freq) :
    up_inv (binheap_swap t i ((i - 1) / 2)) ((i - 1) / 2) := by
  have fp : (binheap_swap t i ((i - 1) / 2)).ns ((i - 1) / 2) = t.ns i :=
    binheap_swap_ns_snd t i _
  have fi : (binheap_swap t i ((i - 1) / 2)).ns i = t.ns ((i - 1) / 2) :=
    binheap_swap_ns_fst t i _
  have fo : ∀ j : Int, j ≠ i → j ≠ (i - 1) / 2 →
      (binheap_swap t i ((i - 1) / 2)).ns j = t.ns j :=
    fun j a b => binheap_swap_ns_other t i _ j a b
  have p0 : 0 ≤ (i - 1) / 2 := by omega
  have p1 : (i - 1) / 2 < t.nc := by omega
  constructor
  · intro ix x0 x1 c hc clt cne
    rw [binheap_swap_nc] at x1 clt
    by_cases e1 : ix = (i - 1) / 2
    · rw [e1, fp]
      by_cases e2 : c = i
      · rw [e2, fi]; omega
      · rw [fo c e2 cne]
        have := hu.1 ((i - 1) / 2) p0 p1 c (by omega) clt e2
        omega
    · by_cases e3 : ix = i
      · rw [e3, fi, fo c (by omega) cne]
        exact hu.2 h0 c (by omega) clt
      · have e2 : c ≠ i := by omega
        rw [fo ix e3 e1, fo c e2 cne]
        exact hu.1 ix x0 x1 c hc clt e2
  · intro hp c hc clt
    rw [binheap_swap_nc] at clt
    have g0 : 0 ≤ ((i - 1) / 2 - 1) / 2 := by omega
    have g1 : ((i - 1) / 2 - 1) / 2 < t.nc := by omega
    rw [fo _ (by omega) (by omega)]
    have hg := hu.1 _ g0 g1 ((i - 1) / 2) (by omega) p1 (by omega)
    by_cases e2 : c = i
    · rw [e2, fi]; exact hg
    · rw [fo c e2 (by omega)]
      have := hu.1 ((i - 1) / 2) p0 p1 c hc clt e2
      omega

theorem heapify_up_loop_heap (fuel : Nat) : ∀ (t : binheap_t) (i : Int), 0 ≤ i → i < t.nc →
    i.toNat ≤ fuel → up_inv t i → max_heap (heapify_up_loop fuel t i).1 := by
  induction fuel with
  | zero =>
    intro t i h0 _ hf hu
    have hi : i = 0 := by omega
    rw [heapify_up_loop]
    exact max_heap_of_edges t (fun ix x0 x1 c hc clt => hu.1 ix x0 x1 c hc clt (by omega))
  | succ fuel ih =>
    intro t i h0 h1 hf hu
    rw [heapify_up_loop]
    split
    · rename_i hpos
      dsimp only
      split
      · rename_i hgt
        exact ih _ _ (by omega) (by rw [binheap_swap_nc]; omega) (by omega)
          (up_inv_swap t i hpos h1 hu hgt)
      · rename_i hle
        refine max_heap_of_edges t (fun ix x0 x1 c hc clt => ?_)
        by_cases e : c = i
        · have : ix = (i - 1) / 2 := by omega
          rw [this, e]; omega
        · exact hu.1 ix x0 x1 c hc clt e
    · have hi : i = 0 := by omega
      exact max_heap_of_edges t (fun ix x0 x1 c hc clt => hu.1 ix x0 x1 c hc clt (by omega))

theorem binheap_heapify_up_eq (t : binheap_t) (i : Int) (ht : table_ok t) (hs : sym_range t)
    (h0 : 0 ≤ i) (h1 : i < t.nc) :
    binheap_heapify_up t i = heapify_up_loop i.toNat t i := by
  have r := heapify_up_loop_post i.toNat t i ht hs h0 h1
  unfold binheap_heapify_up
  dsimp only
  rw [sx_store_at_id _ _ r.table r.lo (by rw [r.nc_eq]; have := r.hi; omega)]

theorem binheap_heapify_up_post (t : binheap_t) (i : Int) (ht : table_ok t)
    (hs : sym_range t) (h0 : 0 ≤ i) (h1 : i < t.nc) :
    sift_up_post t i (binheap_heapify_up t i) := by
  rw [binheap_heapify_up_eq t i ht hs h0 h1]
  exact heapify_up_loop_post _ t i ht hs h0 h1

theorem binheap_heapify_up_heap (t : binheap_t) (i : Int) (ht : table_ok t)
    (hs : sym_range t) (h0 : 0 ≤ i) (h1 : i < t.nc) (hu : up_inv t i) :
    max_heap (binheap_heapify_up t i).1 := by
  rw [binheap_heapify_up_eq t i ht hs h0 h1]
  exact heapify_up_loop_heap _ t i h0 h1 le_rfl hu

/-! ## `binheap_heapify_down` and the ancestor loop of `binheap_inc_freq` -/

theorem up_inv_of_max_heap (t : binheap_t) (i : Int) (h0 : 0 ≤ i) (h1 : i < t.nc)
    (h : max_heap t) : up_inv t i := by
  constructor
  · intro ix x0 x1 c hc clt _
    exact edges_of_max_heap t h ix x0 x1 c hc clt
  · intro hp c hc clt
    have a := edges_of_max_heap t h ((i - 1) / 2) (by omega) (by omega) i (by omega) h1
    have b := edges_of_max_heap t h i h0 h1 c hc clt
    omega

theorem heapify_down_largest_eq (t : binheap_t) (ix : Int)
    (hl : 2 * ix + 1 < t.nc → (t.ns (2 * ix + 1)).freq ≤ (t.ns ix).freq)
    (hr : 2 * ix + 2 < t.nc → (t.ns (2 * ix + 2)).freq ≤ (t.ns ix).freq) :
    heapify_down_largest t ix = ix := by
  unfold heapify_down_largest
  dsimp only
  have e1 : (if 2 * ix + 1 < t.nc ∧ (t.ns (2 * ix + 1)).freq > (t.ns ix).freq
      then 2 * ix + 1 else ix) = ix :=
    if_neg (fun h => by have := hl h.1; omega)
  rw [e1]
  exact if_neg (fun h => by have := hr h.1; omega)

theorem heapify_down_rec_noop (fuel : Nat) (t : binheap_t) (ix : Int) (ht : table_ok t)
    (h0 : 0 ≤ ix) (h1 : ix < t.nc) (hl : heapify_down_largest t ix = ix) :
    heapify_down_rec (fuel + 1) t ix = (t, ix) := by
  rw [heapify_down_rec, hl]
  simp only [ne_eq, not_true_eq_false, if_false]
  rw [sx_store_at_id t ix ht h0 h1]

theorem binheap_heapify_down_noop (t : binheap_t) (ix : Int) (ht : table_ok t)
    (h0 : 0 ≤ ix) (h1 : ix < t.nc) (hl : heapify_down_largest t ix = ix) :
    binheap_heapify_down t ix = (t, ix) :=
  heapify_down_rec_noop _ t ix ht h0 h1 hl

theorem inc_freq_loop_sym (fuel : Nat) : ∀ (ns : Int → node_t) (p j : Int),
    (inc_freq_loop fuel ns p j).sym = (ns j).sym := by
  induction fuel with
  | zero => intro ns p j; rfl
  | succ fuel ih =>
    intro ns p j
    rw [inc_freq_loop]
    split
    · dsimp only
      rw [ih]
      by_cases e : j = (p - 1) / 2
      · rw [e, ns_set_eq]
      · rw [ns_set_ne _ _ _ _ e]
    · rfl

theorem inc_freq_loop_ge (fuel : Nat) : ∀ (ns : Int → node_t) (p j : Int), p ≤ j →
    inc_freq_loop fuel ns p j = ns j := by
  induction fuel with
  | zero => intro ns p j _; rfl
  | succ fuel ih =>
    intro ns p j hj
    rw [inc_freq_loop]
    split
    · dsimp only
      rw [ih _ _ _ (by omega), ns_set_ne _ _ _ _ (by omega)]
    · rfl

/-- Loop invariant of the ancestor loop: heap order on every edge except the one into `p`,
live frequencies at least one and the others non-negative. -/
theorem inc_freq_loop_inv (nc : Int) (fuel : Nat) : ∀ (ns : Int → node_t) (p : Int),
    0 ≤ p → p < nc → p.toNat ≤ fuel →
    (∀ ix : Int, 0 ≤ ix → ix < nc → ∀ c : Int, (c = 2 * ix + 1 ∨ c = 2 * ix + 2) → c < nc →
      c ≠ p → (ns ix).freq ≥ (ns c).freq) →
    (∀ ix : Int, 0 ≤ ix → ix < nc → 1 ≤ (ns ix).freq) →
    (∀ ix : Int, nc ≤ ix → 0 ≤ (ns ix).freq) →
    (∀ ix : Int, 0 ≤ ix → ix < nc → ∀ c : Int, (c = 2 * ix + 1 ∨ c = 2 * ix + 2) → c < nc →
      (inc_freq_loop fuel ns p ix).freq ≥ (inc_freq_loop fuel ns p c).freq) ∧
    (∀ ix : Int, 0 ≤ ix → ix < nc → 1 ≤ (inc_freq_loop fuel ns p ix).freq) ∧
    (∀ ix : Int, nc ≤ ix → 0 ≤ (inc_freq_loop fuel ns p ix).freq) := by
  induction fuel with
  | zero =>
    intro ns p h0 _ hf he hp hr
    have : p = 0 := by omega
    exact ⟨fun ix x0 x1 c hc clt => he ix x0 x1 c hc clt (by omega), hp, hr⟩
  | succ fuel ih =>
    intro ns p h0 h1 hf he hp hr
    rw [inc_freq_loop]
    split
    · rename_i hpos
      dsimp only
      have nonneg : ∀ j : Int, 0 ≤ j → 0 ≤ (ns j).freq := by
        intro j j0
        by_cases hj : j < nc
        · have := hp j j0 hj; omega
        · exact hr j (by omega)
      have hl1 : 1 ≤ (ns (2 * ((p - 1) / 2) + 1)).freq := hp _ (by omega) (by omega)
      have hr0 := nonneg (2 * ((p - 1) / 2) + 2) (by omega)
      have hl0 := nonneg (2 * ((p - 1) / 2) + 1) (by omega)
      apply ih _ _ (by omega) (by omega) (by omega)
      · intro ix x0 x1 c hc clt cne
        by_cases e1 : ix = (p - 1) / 2
        · rw [e1, ns_set_eq, ns_set_ne _ _ _ _ (by omega)]
          dsimp only
          rcases hc with e | e
          · rw [e, e1]; omega
          · rw [e, e1]; omega
        · rw [ns_set_ne _ _ _ _ e1, ns_set_ne _ _ _ _ cne]
          exact he ix x0 x1 c hc clt (by omega)
      · intro ix x0 x1
        by_cases e1 : ix = (p - 1) / 2
        · rw [e1, ns_set_eq]
          dsimp only
          omega
        · rw [ns_set_ne _ _ _ _ e1]
          exact hp ix x0 x1
      · intro ix hx
        rw [ns_set_ne _ _ _ _ (by omega)]
        exact hr ix hx
    · have : p = 0 := by omega
      exact ⟨fun ix x0 x1 c hc clt => he ix x0 x1 c hc clt (by omega), hp, hr⟩

/-! ## Appending a node -/

theorem push_node_ns_old (t : binheap_t) (v : node_t) (j : Int) (h : j ≠ t.nc) :
    (push_node t v).ns j = t.ns j := ns_set_ne _ _ _ _ h

theorem push_node_ns_new (t : binheap_t) (v : node_t) : (push_node t v).ns t.nc = v :=
  ns_set_eq _ _ _

theorem push_node_table (t : binheap_t) (v : node_t) (ht : table_ok t) (hnc : 0 ≤ t.nc)
    (hv1 : v.sym < alphabet) (hv : v.sym < 0 ∨ t.sx v.sym = -1) : table_ok (push_node t v) := by
  have hsx : ∀ k : Int, (push_node t v).sx k = sx_set t.sx v.sym t.nc k := fun _ => rfl
  have hncp : (push_node t v).nc = t.nc + 1 := rfl
  constructor
  · intro s s0 s1 hdom
    rw [hsx, sx_set_apply] at hdom
    rw [hncp, hsx, sx_set_apply]
    by_cases hg : s = v.sym ∧ 0 ≤ v.sym ∧ v.sym < alphabet
    · rw [if_pos hg, push_node_ns_new]
      exact ⟨hnc, by omega, hg.1.symm⟩
    · rw [if_neg hg] at hdom ⊢
      have h := ht.1 s s0 s1 hdom
      rw [push_node_ns_old _ _ _ (by omega)]
      exact ⟨h.1, by omega, h.2.2⟩
  · intro ix x0 x1 hleaf
    rw [hncp] at x1
    rw [hsx]
    by_cases e : ix = t.nc
    · rw [e, push_node_ns_new] at hleaf ⊢
      rw [sx_set_apply, if_pos ⟨rfl, hleaf, hv1⟩]
    · rw [push_node_ns_old _ _ _ e] at hleaf ⊢
      have hx := ht.2 ix x0 (by omega) hleaf
      rw [sx_set_apply, if_neg, hx]
      rintro ⟨e1, e2, _⟩
      rcases hv with hv | hv
      · omega
      · rw [← e1, hx] at hv; omega

theorem push_node_dom (t : binheap_t) (v : node_t) (hnc : 0 ≤ t.nc) (k : Int) :
    (push_node t v).sx k ≠ -1 ↔ ((k = v.sym ∧ 0 ≤ v.sym ∧ v.sym < alphabet) ∨ t.sx k ≠ -1) := by
  change sx_set t.sx v.sym t.nc k ≠ -1 ↔ _
  rw [sx_set_apply]
  split
  · rename_i hg
    constructor
    · intro _; exact Or.inl hg
    · intro _; omega
  · rename_i hg
    constructor
    · intro h; exact Or.inr h
    · rintro (h | h)
      · exact absurd h hg
      · exact h

theorem push_node_up_inv (t : binheap_t) (v : node_t) (hh : max_heap t) (hnc : 0 ≤ t.nc) :
    up_inv (push_node t v) t.nc := by
  constructor
  · intro ix x0 x1 c hc clt cne
    change ix < t.nc + 1 at x1
    change c < t.nc + 1 at clt
    rw [push_node_ns_old _ _ _ (by omega), push_node_ns_old _ _ _ cne]
    exact edges_of_max_heap t hh ix x0 (by omega) c hc (by omega)
  · intro _ c hc clt
    change c < t.nc + 1 at clt
    omega

theorem push_node_all (t : binheap_t) (v : node_t) (P : node_t → Prop)
    (h : ∀ j : Int, 0 ≤ j → j < t.nc → P (t.ns j)) (hv : P v) :
    ∀ j : Int, 0 ≤ j → j < (push_node t v).nc → P ((push_node t v).ns j) := by
  intro j j0 j1
  change j < t.nc + 1 at j1
  by_cases e : j = t.nc
  · rw [e, push_node_ns_new]; exact hv
  · rw [push_node_ns_old _ _ _ e]; exact h j j0 (by omega)

/-- Appending a node and sifting it up keeps the invariants; the table domain gains at most
the new symbol. -/
theorem push_sift (t : binheap_t) (v : node_t) (ht : table_ok t) (hs : sym_range t)
    (hh : max_heap t) (hnc : 0 ≤ t.nc)
    (hp : ∀ ix : Int, 0 ≤ ix → ix < t.nc → 1 ≤ (t.ns ix).freq)
    (hr : ∀ ix : Int, t.nc ≤ ix → 0 ≤ (t.ns ix).freq)
    (hv0 : 1 ≤ v.freq) (hv1 : v.sym < alphabet) (hv : v.sym < 0 ∨ t.sx v.sym = -1) :
    (binheap_heapify_up (push_node t v) t.nc).1.nc = t.nc + 1 ∧
    table_ok (binheap_heapify_up (push_node t v) t.nc).1 ∧
    sym_range (binheap_heapify_up (push_node t v) t.nc).1 ∧
    max_heap (binheap_heapify_up (push_node t v) t.nc).1 ∧
    (∀ ix : Int, 0 ≤ ix → ix < t.nc + 1 →
      1 ≤ ((binheap_heapify_up (push_node t v) t.nc).1.ns ix).freq) ∧
    (∀ ix : Int, t.nc + 1 ≤ ix →
      0 ≤ ((binheap_heapify_up (push_node t v) t.nc).1.ns ix).freq) ∧
    (∀ k : Int, (binheap_heapify_up (push_node t v) t.nc).1.sx k ≠ -1 ↔
      ((k = v.sym ∧ 0 ≤ v.sym ∧ v.sym < alphabet) ∨ t.sx k ≠ -1)) := by
  have ht' := push_node_table t v ht hnc hv1 hv
  have hs' : sym_range (push_node t v) :=
    push_node_all t v (fun n => n.sym < alphabet) hs hv1
  have hlt : t.nc < (push_node t v).nc := by change t.nc < t.nc + 1; omega
  have r := binheap_heapify_up_post (push_node t v) t.nc ht' hs' hnc hlt
  have hheap := binheap_heapify_up_heap (push_node t v) t.nc ht' hs' hnc hlt
    (push_node_up_inv t v hh hnc)
  refine ⟨r.nc_eq, r.table, ?_, hheap, ?_, ?_, ?_⟩
  · intro ix x0 x1
    rw [r.nc_eq] at x1
    exact r.all (fun n => n.sym < alphabet) hs' ix x0 x1
  · intro ix x0 x1
    exact r.all (fun n => 1 ≤ n.freq) (push_node_all t v (fun n => 1 ≤ n.freq) hp hv0) ix x0 x1
  · intro ix hx
    rw [r.above ix (by omega), push_node_ns_old _ _ _ (by omega)]
    exact hr ix (by omega)
  · intro k
    rw [← push_node_dom t v hnc k]
    exact not_congr (r.dom k)

/-! ## `binheap_add` -/

theorem heapify_up_loop_with_nc (n : Int) (fuel : Nat) : ∀ (t : binheap_t) (i : Int),
    heapify_up_loop fuel (with_nc t n) i =
      (with_nc (heapify_up_loop fuel t i).1 n, (heapify_up_loop fuel t i).2) := by
  induction fuel with
  | zero => intro t i; rfl
  | succ fuel ih =>
    intro t i
    rw [heapify_up_loop, heapify_up_loop]
    by_cases h : i > 0
    · rw [if_pos h, if_pos h]
      dsimp only
      by_cases h2 : (t.ns i).freq > (t.ns ((i - 1) / 2)).freq
      · have h2' : ((with_nc t n).ns i).freq > ((with_nc t n).ns ((i - 1) / 2)).freq := h2
        rw [if_pos h2, if_pos h2']
        exact ih (binheap_swap t i ((i - 1) / 2)) ((i - 1) / 2)
      · have h2' : ¬ ((with_nc t n).ns i).freq > ((with_nc t n).ns ((i - 1) / 2)).freq := h2
        rw [if_neg h2, if_neg h2']
    · rw [if_neg h, if_neg h]

theorem heapify_up_loop_nc (fuel : Nat) : ∀ (t : binheap_t) (i : Int),
    (heapify_up_loop fuel t i).1.nc = t.nc := by
  induction fuel with
  | zero => intro t i; rfl
  | succ fuel ih =>
    intro t i
    rw [heapify_up_loop]
    split
    · dsimp only
      split
      · rw [ih]; rfl
      · rfl
    · rfl

theorem binheap_heapify_up_nc (t : binheap_t) (i : Int) :
    (binheap_heapify_up t i).1.nc = t.nc :=
  heapify_up_loop_nc _ t i

theorem binheap_heapify_up_with_nc (t : binheap_t) (n i : Int) :
    binheap_heapify_up (with_nc t n) i =
      (with_nc (binheap_heapify_up t i).1 n, (binheap_heapify_up t i).2) := by
  unfold binheap_heapify_up
  dsimp only
  rw [heapify_up_loop_with_nc]
  rfl

theorem binheap_add_small (t : binheap_t) (sym : Int) (h : t.nc < 2) :
    (binheap_add t sym).1 =
      (binheap_heapify_up (push_node t { freq := 1, sym := sym }) t.nc).1 := by
  have hn := binheap_heapify_up_nc (push_node t { freq := 1, sym := sym }) t.nc
  have e2 := binheap_heapify_up_with_nc (push_node t { freq := 1, sym := sym }) t.nc t.nc
  unfold binheap_add
  rw [if_pos h]
  show ({ ns := (binheap_heapify_up (with_nc (push_node t { freq := 1, sym := sym }) t.nc)
              t.nc).1.ns,
          sx := (binheap_heapify_up (with_nc (push_node t { freq := 1, sym := sym }) t.nc)
              t.nc).1.sx,
          nc := (binheap_heapify_up (with_nc (push_node t { freq := 1, sym := sym }) t.nc)
              t.nc).1.nc + 1 } : binheap_t) = _
  rw [e2]
  show ({ ns := (binheap_heapify_up (push_node t { freq := 1, sym := sym }) t.nc).1.ns,
          sx := (binheap_heapify_up (push_node t { freq := 1, sym := sym }) t.nc).1.sx,
          nc := t.nc + 1 } : binheap_t) = _
  have hn' : (binheap_heapify_up (push_node t { freq := 1, sym := sym }) t.nc).1.nc
      = t.nc + 1 := hn
  rw [← hn']

theorem binheap_add_large (t : binheap_t) (sym : Int) (h : ¬ t.nc < 2) :
    binheap_add t sym =
      binheap_heapify_up
        (push_node (binheap_heapify_up (binheap_heapify_down (binheap_heapify_down
          (push_node t { freq := (t.ns (t.nc - 2)).freq + (t.ns (t.nc - 1)).freq, sym := -1 })
          (t.nc - 2)).1 (t.nc - 1)).1 t.nc).1 { freq := 1, sym := sym })
        (binheap_heapify_up (binheap_heapify_down (binheap_heapify_down
          (push_node t { freq := (t.ns (t.nc - 2)).freq + (t.ns (t.nc - 1)).freq, sym := -1 })
          (t.nc - 2)).1 (t.nc - 1)).1 t.nc).1.nc := by
  have e : push_node t { freq := (t.ns (t.nc - 2)).freq + (t.ns (t.nc - 1)).freq, sym := -1 } =
      { ns := ns_set t.ns t.nc
          { freq := (t.ns (t.nc - 2)).freq + (t.ns (t.nc - 1)).freq, sym := -1 },
        sx := t.sx, nc := t.nc + 1 } := by
    unfold push_node
    dsimp only
    rw [sx_set_id t.sx (-1) t.nc (fun h => absurd h (by decide))]
  rw [e]
  unfold binheap_add
  rw [if_neg h]
  rfl

/-! ## Counting inserted symbols -/

theorem countP_range_insert (p q : Nat → Bool) (a : Nat)
    (hq : ∀ k, q k = (decide (k = a) || p k)) (hpa : p a = false) (n : Nat) :
    (List.range n).countP q = (List.range n).countP p + if a < n then 1 else 0 := by
  induction n with
  | zero => simp
  | succ n ih =>
    rw [List.range_succ, List.countP_append, List.countP_append, ih]
    by_cases h1 : a < n
    · have : n ≠ a := by omega
      simp [List.countP_cons, hq n, this, h1, Nat.lt_succ_of_lt h1]
      omega
    · by_cases h2 : a = n
      · subst h2
        simp [List.countP_cons, hq a, hpa]
      · have h3 : ¬ a < n + 1 := by omega
        have : n ≠ a := fun e => h2 e.symm
        simp [List.countP_cons, hq n, this, h1, h3]

theorem inserted_count_congr (t u : binheap_t) (h : ∀ k : Int, u.sx k = -1 ↔ t.sx k = -1) :
    inserted_count u = inserted_count t := by
  unfold inserted_count
  congr 1
  funext s
  exact decide_eq_decide.2 (not_congr (h s))

theorem inserted_count_le (t : binheap_t) : (inserted_count t : Int) ≤ alphabet := by
  unfold inserted_count
  have h := List.countP_le_length (fun s : Nat => decide (t.sx (s : Int) ≠ -1))
    (l := List.range alphabet.toNat)
  rw [List.length_range] at h
  have e : alphabet.toNat = 32 := rfl
  have e2 : alphabet = 32 := rfl
  omega

theorem inserted_count_insert (t u : binheap_t) (sym : Int) (h0 : 0 ≤ sym)
    (h1 : sym < alphabet) (hf : t.sx sym = -1)
    (h : ∀ k : Int, u.sx k ≠ -1 ↔ (k = sym ∨ t.sx k ≠ -1)) :
    inserted_count u = inserted_count t + 1 := by
  unfold inserted_count
  have e2 : alphabet = 32 := rfl
  have := countP_range_insert (fun s : Nat => decide (t.sx (s : Int) ≠ -1))
    (fun s : Nat => decide (u.sx (s : Int) ≠ -1)) sym.toNat
    (fun k => by
      have hk := h (k : Int)
      have e : ((k : Int) = sym) ↔ k = sym.toNat := by omega
      rw [e] at hk
      simp only [← Bool.decide_or]
      exact decide_eq_decide.2 hk)
    (by simp [Int.toNat_of_nonneg h0, hf]) alphabet.toNat
  rw [this, if_pos (by omega)]

theorem binheap_add_large_eq (t : binheap_t) (sym : Int) (h : ¬ t.nc < 2) :
    binheap_add t sym =
      binheap_heapify_up (push_node (add_mid_state t) { freq := 1, sym := sym })
        (add_mid_state t).nc :=
  binheap_add_large t sym h

theorem heapify_down_rec_step (fuel : Nat) (t : binheap_t) (ix : Int)
    (h : heapify_down_largest t ix ≠ ix) :
    heapify_down_rec (fuel + 1) t ix =
      (sx_store_at (heapify_down_rec fuel (binheap_swap t ix (heapify_down_largest t ix))
          (heapify_down_largest t ix)).1
        (heapify_down_rec fuel (binheap_swap t ix (heapify_down_largest t ix))
          (heapify_down_largest t ix)).2,
       (heapify_down_rec fuel (binheap_swap t ix (heapify_down_largest t ix))
          (heapify_down_largest t ix)).2) := by
  rw [heapify_down_rec]
  simp only [h, ne_eq, not_false_eq_true, if_true]

theorem merged_node_sym_lt (t : binheap_t) : (merged_node t).sym < alphabet := by
  show (-1 : Int) < alphabet
  decide

theorem merged_node_sym_neg (t : binheap_t) : (merged_node t).sym < 0 := by
  show (-1 : Int) < 0
  decide

/-- With four or more nodes the two merged positions have no children: only the internal
node is sifted. -/
theorem add_mid_state_ge4 (t : binheap_t) (h : heap_inv t) (h4 : 4 ≤ t.nc) :
    add_mid_state t = (binheap_heapify_up (push_node t (merged_node t)) t.nc).1 := by
  have ht2 : table_ok (push_node t (merged_node t)) :=
    push_node_table t _ h.table h.nc_nonneg (merged_node_sym_lt t) (Or.inl (merged_node_sym_neg t))
  have hnc : (push_node t (merged_node t)).nc = t.nc + 1 := rfl
  have d1 := binheap_heapify_down_noop (push_node t (merged_node t)) (t.nc - 2) ht2
    (by omega) (by rw [hnc]; omega)
    (heapify_down_largest_eq _ _ (fun hl => by rw [hnc] at hl; omega)
      (fun hl => by rw [hnc] at hl; omega))
  have d2 := binheap_heapify_down_noop (push_node t (merged_node t)) (t.nc - 1) ht2
    (by omega) (by rw [hnc]; omega)
    (heapify_down_largest_eq _ _ (fun hl => by rw [hnc] at hl; omega)
      (fun hl => by rw [hnc] at hl; omega))
  unfold add_mid_state
  rw [d1, d2]

/-- What holds of the heap inside `binheap_add` before the new leaf is stored. -/
theorem add_mid_state_spec (t : binheap_t) (h : heap_inv t) (h2 : ¬ t.nc < 2) :
    (add_mid_state t).nc = t.nc + 1 ∧ table_ok (add_mid_state t) ∧
    sym_range (add_mid_state t) ∧ max_heap (add_mid_state t) ∧
    (∀ ix : Int, 0 ≤ ix → ix < t.nc + 1 → 1 ≤ ((add_mid_state t).ns ix).freq) ∧
    (∀ ix : Int, t.nc + 1 ≤ ix → 0 ≤ ((add_mid_state t).ns ix).freq) ∧
    (∀ k : Int, (add_mid_state t).sx k ≠ -1 ↔ t.sx k ≠ -1) := by
  have hm1 : 1 ≤ (merged_node t).freq := by
    have a := h.freq_pos (t.nc - 2) (by omega) (by omega)
    have b := h.freq_pos (t.nc - 1) (by omega) (by omega)
    change 1 ≤ (t.ns (t.nc - 2)).freq + (t.ns (t.nc - 1)).freq
    omega
  have hmsym : (merged_node t).sym = -1 := rfl
  by_cases h4 : 4 ≤ t.nc
  · rw [add_mid_state_ge4 t h h4]
    have r := push_sift t (merged_node t) h.table h.syms h.heap h.nc_nonneg h.freq_pos h.rest
      hm1 (merged_node_sym_lt t) (Or.inl (merged_node_sym_neg t))
    refine ⟨r.1, r.2.1, r.2.2.1, r.2.2.2.1, r.2.2.2.2.1, r.2.2.2.2.2.1, fun k => ?_⟩
    rw [r.2.2.2.2.2.2 k, hmsym]
    constructor
    · rintro (hk | hk)
      · omega
      · exact hk
    · exact Or.inr
  · have hnc2 : t.nc = 2 := by
      have := h.shape
      omega
    have f0 := h.freq_pos 0 (by omega) (by omega)
    have f1 := h.freq_pos 1 (by omega) (by omega)
    have f01 : (t.ns 0).freq ≥ (t.ns 1).freq :=
      edges_of_max_heap t h.heap 0 (by omega) (by omega) 1 (by omega) (by omega)
    have ht2 : table_ok (push_node t (merged_node t)) :=
      push_node_table t _ h.table h.nc_nonneg (merged_node_sym_lt t)
        (Or.inl (merged_node_sym_neg t))
    have hs2 : sym_range (push_node t (merged_node t)) :=
      push_node_all t _ (fun n => n.sym < alphabet) h.syms (merged_node_sym_lt t)
    have hp2 : ∀ j : Int, 0 ≤ j → j < (push_node t (merged_node t)).nc →
        1 ≤ ((push_node t (merged_node t)).ns j).freq :=
      push_node_all t _ (fun n => 1 ≤ n.freq) h.freq_pos hm1
    have hnc : (push_node t (merged_node t)).nc = 3 := by
      show t.nc + 1 = 3
      omega
    have n0 : (push_node t (merged_node t)).ns 0 = t.ns 0 :=
      push_node_ns_old _ _ _ (by omega)
    have n1 : (push_node t (merged_node t)).ns 1 = t.ns 1 :=
      push_node_ns_old _ _ _ (by omega)
    have n2 : (push_node t (merged_node t)).ns 2 = merged_node t := by
      have := push_node_ns_new t (merged_node t)
      rwa [hnc2] at this
    have hmf : (merged_node t).freq = (t.ns 0).freq + (t.ns 1).freq := by
      show (t.ns (t.nc - 2)).freq + (t.ns (t.nc - 1)).freq = _
      rw [hnc2]
      rfl
    have hl : heapify_down_largest (push_node t (merged_node t)) 0 = 2 := by
      unfold heapify_down_largest
      dsimp only
      have a1 : (2 : Int) * 0 + 1 = 1 := rfl
      have a2 : (2 : Int) * 0 + 2 = 2 := rfl
      rw [a1, a2, hnc, n0, n1, n2, hmf]
      have e1 : (if (1 : Int) < 3 ∧ (t.ns 1).freq > (t.ns 0).freq then (1 : Int) else 0) = 0 :=
        if_neg (fun hc => by omega)
      rw [e1, n0]
      exact if_pos ⟨by decide, by omega⟩
    have hS := binheap_swap_table (push_node t (merged_node t)) 0 2 ht2 hs2 (by omega)
      (by rw [hnc]; omega) (by omega) (by rw [hnc]; omega) (by omega)
    have hSnc : (binheap_swap (push_node t (merged_node t)) 0 2).nc = 3 := hnc
    have hSs : sym_range (binheap_swap (push_node t (merged_node t)) 0 2) :=
      binheap_swap_all _ 0 2 (by omega) (by rw [hnc]; omega) (by omega) (by rw [hnc]; omega)
        (fun n => n.sym < alphabet) hs2
    have hSp : ∀ j : Int, 0 ≤ j → j < (push_node t (merged_node t)).nc →
        1 ≤ ((binheap_swap (push_node t (merged_node t)) 0 2).ns j).freq :=
      binheap_swap_all _ 0 2 (by omega) (by rw [hnc]; omega) (by omega) (by rw [hnc]; omega)
        (fun n => 1 ≤ n.freq) hp2
    have s0 : (binheap_swap (push_node t (merged_node t)) 0 2).ns 0 = merged_node t := by
      rw [binheap_swap_ns_fst, n2]
    have s2 : (binheap_swap (push_node t (merged_node t)) 0 2).ns 2 = t.ns 0 := by
      rw [binheap_swap_ns_snd, n0]
    have s1 : (binheap_swap (push_node t (merged_node t)) 0 2).ns 1 = t.ns 1 := by
      rw [binheap_swap_ns_other _ _ _ _ (by omega) (by omega), n1]
    have sr : ∀ j : Int, 3 ≤ j →
        (binheap_swap (push_node t (merged_node t)) 0 2).ns j = t.ns j := by
      intro j hj
      rw [binheap_swap_ns_other _ _ _ _ (by omega) (by omega),
        push_node_ns_old _ _ _ (by omega)]
    have hSh : max_heap (binheap_swap (push_node t (merged_node t)) 0 2) := by
      apply max_heap_of_edges
      intro ix x0 x1 c hc clt
      rw [hSnc] at x1 clt
      have e : ix = 0 := by omega
      rw [e] at hc ⊢
      rw [s0, hmf]
      rcases hc with e1 | e1
      · have : c = 1 := by omega
        rw [this, s1]; omega
      · have : c = 2 := by omega
        rw [this, s2]; omega
    have d1 : binheap_heapify_down (push_node t (merged_node t)) 0 =
        (binheap_swap (push_node t (merged_node t)) 0 2, 2) := by
      unfold binheap_heapify_down
      rw [heapify_down_rec_step _ _ _ (by rw [hl]; decide), hl, hnc]
      have e3 : (3 : Int).toNat = 2 + 1 := rfl
      rw [e3, heapify_down_rec_noop 2 _ 2 hS (by omega) (by rw [hSnc]; omega)
        (heapify_down_largest_eq _ _ (fun hc => by rw [hSnc] at hc; omega)
          (fun hc => by rw [hSnc] at hc; omega))]
      dsimp only
      rw [sx_store_at_id _ 2 hS (by omega) (by rw [hSnc]; omega)]
    have d2 := binheap_heapify_down_noop (binheap_swap (push_node t (merged_node t)) 0 2) 1 hS
      (by omega) (by rw [hSnc]; omega)
      (heapify_down_largest_eq _ _ (fun hc => by rw [hSnc] at hc; omega)
        (fun hc => by rw [hSnc] at hc; omega))
    have e : add_mid_state t =
        (binheap_heapify_up (binheap_swap (push_node t (merged_node t)) 0 2) 2).1 := by
      unfold add_mid_state
      rw [hnc2]
      have a1 : (2 : Int) - 2 = 0 := rfl
      have a2 : (2 : Int) - 1 = 1 := rfl
      rw [a1, a2, d1]
      dsimp only
      rw [d2]
    have r := binheap_heapify_up_post _ 2 hS hSs (by omega) (by rw [hSnc]; omega)
    have rh := binheap_heapify_up_heap _ 2 hS hSs (by omega) (by rw [hSnc]; omega)
      (up_inv_of_max_heap _ 2 (by omega) (by rw [hSnc]; omega) hSh)
    rw [e]
    refine ⟨by rw [r.nc_eq, hSnc, hnc2]; rfl, r.table, ?_, rh, ?_, ?_, ?_⟩
    · intro ix x0 x1
      rw [r.nc_eq] at x1
      exact r.all (fun n => n.sym < alphabet) hSs ix x0 x1
    · intro ix x0 x1
      exact r.all (fun n => 1 ≤ n.freq) hSp ix x0 (by rw [hSnc]; omega)
    · intro ix hx
      rw [r.above ix (by omega), sr ix (by omega)]
      exact h.rest ix (by omega)
    · intro k
      have dS := binheap_swap_dom (push_node t (merged_node t)) 0 2 ht2 hs2 (by omega)
        (by rw [hnc]; omega) (by omega) (by rw [hnc]; omega) (by omega) k
      have dP := push_node_dom t (merged_node t) h.nc_nonneg k
      refine (not_congr (r.dom k)).trans ((not_congr dS).trans (dP.trans ?_))
      rw [hmsym]
      constructor
      · rintro (hk | hk)
        · omega
        · exact hk
      · exact Or.inr

/-! ## The invariant is kept by `binheap_add` and `binheap_inc_freq` -/

theorem heap_inv_init : heap_inv binheap_init := by
  refine ⟨le_rfl, Or.inl (by decide), ?_, ⟨?_, ?_⟩, ?_, ?_, ?_, ?_⟩
  · intro ix h0 h1
    exact absurd h1 (by show ¬ ix < 0; omega)
  · intro s _ _ h
    exact absurd rfl h
  · intro ix h0 h1
    exact absurd h1 (by show ¬ ix < 0; omega)
  · intro ix h0 h1
    exact absurd h1 (by show ¬ ix < 0; omega)
  · intro ix h0 h1
    exact absurd h1 (by show ¬ ix < 0; omega)
  · intro ix _
    exact le_rfl
  · show (0 : Int) ≤ 2 * (inserted_count binheap_init : Int)
    omega

theorem heap_inv_add (t : binheap_t) (sym : Int) (h : heap_inv t) (h0 : 0 ≤ sym)
    (h1 : sym < alphabet) (hf : t.sx sym = -1) :
    heap_inv (binheap_add t sym).1 ∧
    (∀ k : Int, (binheap_add t sym).1.sx k ≠ -1 ↔ (k = sym ∨ t.sx k ≠ -1)) := by
  have key : ∀ (m u : binheap_t), table_ok m → sym_range m → max_heap m → 0 ≤ m.nc →
      (∀ ix : Int, 0 ≤ ix → ix < m.nc → 1 ≤ (m.ns ix).freq) →
      (∀ ix : Int, m.nc ≤ ix → 0 ≤ (m.ns ix).freq) →
      (∀ k : Int, m.sx k ≠ -1 ↔ t.sx k ≠ -1) →
      (m.nc + 1 < 2 ∨ (m.nc + 1) % 2 = 0) → m.nc + 1 ≤ 2 * ((inserted_count t : Int) + 1) →
      u = (binheap_heapify_up (push_node m { freq := 1, sym := sym }) m.nc).1 →
      heap_inv u ∧ (∀ k : Int, u.sx k ≠ -1 ↔ (k = sym ∨ t.sx k ≠ -1)) := by
    intro m u mt ms mh mnc mp mr md msh mc hu
    have mf : m.sx sym = -1 := by
      by_contra hc
      exact (md sym).1 hc hf
    have r := push_sift m { freq := 1, sym := sym } mt ms mh mnc mp mr le_rfl h1 (Or.inr mf)
    rw [← hu] at r
    have dom : ∀ k : Int, u.sx k ≠ -1 ↔ (k = sym ∨ t.sx k ≠ -1) := by
      intro k
      rw [r.2.2.2.2.2.2 k, md k]
      constructor
      · rintro (hk | hk)
        · exact Or.inl hk.1
        · exact Or.inr hk
      · rintro (hk | hk)
        · exact Or.inl ⟨hk, h0, h1⟩
        · exact Or.inr hk
    have hc := inserted_count_insert t u sym h0 h1 hf dom
    refine ⟨⟨by rw [r.1]; omega, by rw [r.1]; exact msh, r.2.2.2.1, r.2.1, r.2.2.1, ?_, ?_, ?_⟩,
      dom⟩
    · intro ix x0 x1
      rw [r.1] at x1
      exact r.2.2.2.2.1 ix x0 x1
    · intro ix hx
      rw [r.1] at hx
      exact r.2.2.2.2.2.1 ix hx
    · rw [r.1, hc]
      push_cast
      exact mc
  by_cases h2 : t.nc < 2
  · have hn := h.nc_nonneg
    have hcnt := h.count
    exact key t _ h.table h.syms h.heap h.nc_nonneg h.freq_pos h.rest (fun _ => Iff.rfl)
      (by omega) (by omega) (binheap_add_small t sym h2)
  · have m := add_mid_state_spec t h h2
    have hn := h.nc_nonneg
    have hcnt := h.count
    have hsh := h.shape
    refine key (add_mid_state t) _ m.2.1 m.2.2.1 m.2.2.2.1 (by rw [m.1]; omega) ?_ ?_
      m.2.2.2.2.2.2 (by rw [m.1]; omega) (by rw [m.1]; omega)
      (by rw [binheap_add_large_eq t sym h2])
    · intro ix x0 x1
      rw [m.1] at x1
      exact m.2.2.2.2.1 ix x0 x1
    · intro ix hx
      rw [m.1] at hx
      exact m.2.2.2.2.2.1 ix hx

theorem bump_ns_same (t : binheap_t) (ix : Int) :
    (bump t ix).ns ix = { freq := (t.ns ix).freq + 1, sym := (t.ns ix).sym } :=
  ns_set_eq _ _ _

theorem bump_ns_other (t : binheap_t) (ix j : Int) (h : j ≠ ix) :
    (bump t ix).ns j = t.ns j := ns_set_ne _ _ _ _ h

theorem bump_sym (t : binheap_t) (ix j : Int) : ((bump t ix).ns j).sym = (t.ns j).sym := by
  by_cases h : j = ix
  · rw [h, bump_ns_same]
  · rw [bump_ns_other _ _ _ h]

theorem bump_freq_ge (t : binheap_t) (ix j : Int) :
    (t.ns j).freq ≤ ((bump t ix).ns j).freq := by
  by_cases h : j = ix
  · rw [h, bump_ns_same]
    show (t.ns ix).freq ≤ (t.ns ix).freq + 1
    omega
  · rw [bump_ns_other _ _ _ h]

theorem table_ok_of_sym_eq (t u : binheap_t) (hnc : u.nc = t.nc) (hsx : u.sx = t.sx)
    (hsym : ∀ j : Int, (u.ns j).sym = (t.ns j).sym) (ht : table_ok t) : table_ok u := by
  constructor
  · intro s s0 s1 hd
    rw [hsx] at hd ⊢
    rw [hnc, hsym]
    exact ht.1 s s0 s1 hd
  · intro ix x0 x1 hl
    rw [hnc] at x1
    rw [hsym] at hl ⊢
    rw [hsx]
    exact ht.2 ix x0 x1 hl

theorem sym_range_of_sym_eq (t u : binheap_t) (hnc : u.nc = t.nc)
    (hsym : ∀ j : Int, (u.ns j).sym = (t.ns j).sym) (hs : sym_range t) : sym_range u := by
  intro ix x0 x1
  rw [hnc] at x1
  rw [hsym]
  exact hs ix x0 x1

theorem bump_up_inv (t : binheap_t) (ix : Int) (h0 : 0 ≤ ix) (h1 : ix < t.nc)
    (hh : max_heap t) : up_inv (bump t ix) ix := by
  constructor
  · intro a a0 a1 c hc clt cne
    rw [bump_ns_other _ _ _ cne]
    have := edges_of_max_heap t hh a a0 a1 c hc clt
    have := bump_freq_ge t ix a
    omega
  · intro hp c hc clt
    rw [bump_ns_other _ _ _ (by omega), bump_ns_other _ _ _ (by omega)]
    have a := edges_of_max_heap t hh ((ix - 1) / 2) (by omega) (by omega) ix (by omega) h1
    have b := edges_of_max_heap t hh ix h0 h1 c hc clt
    omega

/-- On a heap in heap order with a correct table, `binheap_inc_freq` is the increment,
a sift-up from the symbol's index and the ancestor loop: the sift-down moves nothing. -/
theorem binheap_inc_freq_eq (t : binheap_t) (sym : Int) (ht : table_ok t) (hh : max_heap t)
    (h0 : 0 ≤ t.sx sym) (h1 : t.sx sym < t.nc) :
    binheap_inc_freq t sym =
      (anc_fix (binheap_heapify_up (bump t (t.sx sym)) (t.sx sym)).1
         (binheap_heapify_up (bump t (t.sx sym)) (t.sx sym)).2,
       (binheap_heapify_up (bump t (t.sx sym)) (t.sx sym)).2) := by
  have htb : table_ok (bump t (t.sx sym)) :=
    table_ok_of_sym_eq t _ rfl rfl (bump_sym t _) ht
  have hnc : (bump t (t.sx sym)).nc = t.nc := rfl
  have d := binheap_heapify_down_noop (bump t (t.sx sym)) (t.sx sym) htb h0 h1
    (heapify_down_largest_eq _ _
      (fun hl => by
        rw [hnc] at hl
        rw [bump_ns_other _ _ _ (by omega)]
        have := edges_of_max_heap t hh _ h0 h1 _ (Or.inl rfl) hl
        have := bump_freq_ge t (t.sx sym) (t.sx sym)
        omega)
      (fun hr => by
        rw [hnc] at hr
        rw [bump_ns_other _ _ _ (by omega)]
        have := edges_of_max_heap t hh _ h0 h1 _ (Or.inr rfl) hr
        have := bump_freq_ge t (t.sx sym) (t.sx sym)
        omega))
  show (anc_fix (binheap_heapify_up (binheap_heapify_down (bump t (t.sx sym)) (t.sx sym)).1
                (binheap_heapify_down (bump t (t.sx sym)) (t.sx sym)).2).1
          (binheap_heapify_up (binheap_heapify_down (bump t (t.sx sym)) (t.sx sym)).1
                (binheap_heapify_down (bump t (t.sx sym)) (t.sx sym)).2).2,
        (binheap_heapify_up (binheap_heapify_down (bump t (t.sx sym)) (t.sx sym)).1
                (binheap_heapify_down (bump t (t.sx sym)) (t.sx sym)).2).2) = _
  rw [d]

theorem anc_fix_inv (u : binheap_t) (p : Int) (hp0 : 0 ≤ p) (hp1 : p < u.nc)
    (hh : max_heap u) (ht : table_ok u) (hs : sym_range u)
    (hpos : ∀ ix : Int, 0 ≤ ix → ix < u.nc → 1 ≤ (u.ns ix).freq)
    (hrest : ∀ ix : Int, u.nc ≤ ix → 0 ≤ (u.ns ix).freq) :
    max_heap (anc_fix u p) ∧ table_ok (anc_fix u p) ∧ sym_range (anc_fix u p) ∧
    (∀ ix : Int, 0 ≤ ix → ix < u.nc → 1 ≤ ((anc_fix u p).ns ix).freq) ∧
    (∀ ix : Int, u.nc ≤ ix → 0 ≤ ((anc_fix u p).ns ix).freq) := by
  have li := inc_freq_loop_inv u.nc p.toNat u.ns p hp0 hp1 le_rfl
    (fun ix x0 x1 c hc clt _ => edges_of_max_heap u hh ix x0 x1 c hc clt) hpos hrest
  have hsym : ∀ j : Int, ((anc_fix u p).ns j).sym = (u.ns j).sym :=
    fun j => inc_freq_loop_sym _ _ _ j
  refine ⟨max_heap_of_edges _ (fun ix x0 x1 c hc clt => li.1 ix x0 x1 c hc clt),
    table_ok_of_sym_eq u _ rfl rfl hsym ht, sym_range_of_sym_eq u _ rfl hsym hs, li.2.1, li.2.2⟩

theorem heap_inv_inc (t : binheap_t) (sym : Int) (h : heap_inv t) (h0 : 0 ≤ sym)
    (h1 : sym < alphabet) (hin : t.sx sym ≠ -1) :
    heap_inv (binheap_inc_freq t sym).1 ∧
    (∀ k : Int, (binheap_inc_freq t sym).1.sx k ≠ -1 ↔ t.sx k ≠ -1) := by
  have hx := h.table.1 sym h0 h1 hin
  have htb : table_ok (bump t (t.sx sym)) :=
    table_ok_of_sym_eq t _ rfl rfl (bump_sym t _) h.table
  have hsb : sym_range (bump t (t.sx sym)) :=
    sym_range_of_sym_eq t _ rfl (bump_sym t _) h.syms
  have r := binheap_heapify_up_post (bump t (t.sx sym)) (t.sx sym) htb hsb hx.1 hx.2.1
  have rh := binheap_heapify_up_heap (bump t (t.sx sym)) (t.sx sym) htb hsb hx.1 hx.2.1
    (bump_up_inv t _ hx.1 hx.2.1 h.heap)
  have rnc : (binheap_heapify_up (bump t (t.sx sym)) (t.sx sym)).1.nc = t.nc := r.nc_eq
  have rs : sym_range (binheap_heapify_up (bump t (t.sx sym)) (t.sx sym)).1 :=
    fun ix x0 x1 => r.all (fun n => n.sym < alphabet) hsb ix x0 (by rw [rnc] at x1; exact x1)
  have rp : ∀ j : Int, 0 ≤ j →
      j < (binheap_heapify_up (bump t (t.sx sym)) (t.sx sym)).1.nc →
      1 ≤ ((binheap_heapify_up (bump t (t.sx sym)) (t.sx sym)).1.ns j).freq := by
    intro j j0 j1
    rw [rnc] at j1
    exact r.all (fun n => 1 ≤ n.freq) (fun j j0 j1 => by
      have := h.freq_pos j j0 j1
      have := bump_freq_ge t (t.sx sym) j
      omega) j j0 j1
  have rr : ∀ j : Int, (binheap_heapify_up (bump t (t.sx sym)) (t.sx sym)).1.nc ≤ j →
      0 ≤ ((binheap_heapify_up (bump t (t.sx sym)) (t.sx sym)).1.ns j).freq := by
    intro j hj
    rw [rnc] at hj
    rw [r.above j (by omega), bump_ns_other _ _ _ (by omega)]
    exact h.rest j hj
  have hr2 : (binheap_heapify_up (bump t (t.sx sym)) (t.sx sym)).2 <
      (binheap_heapify_up (bump t (t.sx sym)) (t.sx sym)).1.nc := by
    have := r.hi
    omega
  have a := anc_fix_inv _ _ r.lo hr2 rh r.table rs rp rr
  have e := binheap_inc_freq_eq t sym h.table h.heap hx.1 hx.2.1
  have dom : ∀ k : Int, (binheap_inc_freq t sym).1.sx k ≠ -1 ↔ t.sx k ≠ -1 := by
    intro k
    rw [e]
    exact not_congr (r.dom k)
  have hcnt : inserted_count (binheap_inc_freq t sym).1 = inserted_count t :=
    inserted_count_congr t _ (fun k => not_iff_not.1 (dom k))
  have hc := h.count
  have enc : (binheap_inc_freq t sym).1.nc = t.nc := by rw [e]; exact rnc
  refine ⟨⟨by rw [enc]; exact h.nc_nonneg, by rw [enc]; exact h.shape, ?_, ?_, ?_, ?_, ?_, ?_⟩,
    dom⟩
  · rw [e]; exact a.1
  · rw [e]; exact a.2.1
  · rw [e]; exact a.2.2.1
  · intro ix x0 x1
    rw [enc] at x1
    rw [e]
    exact a.2.2.2.1 ix x0 (by rw [rnc]; exact x1)
  · intro ix x1
    rw [enc] at x1
    rw [e]
    exact a.2.2.2.2 ix (by rw [rnc]; exact x1)
  · rw [enc, hcnt]; exact hc

/-! ## Sequences of calls from `binheap_init` -/

theorem binheap_verify_of_inv (t : binheap_t) (h : heap_inv t) : binheap_verify t = true := by
  apply binheap_verify_of t _ h.heap h.table
  have := h.count
  have := inserted_count_le t
  have e : max_nodes = 64 := rfl
  have e2 : alphabet = 32 := rfl
  omega

theorem heap_inv_distinct_run (ops : List heap_op) : ∀ (t : binheap_t) (added : List Int),
    heap_inv t → (∀ s : Int, s ∈ added → 0 ≤ s ∧ s < alphabet) →
    (∀ s : Int, 0 ≤ s → s < alphabet → (s ∈ added ↔ t.sx s ≠ -1)) →
    distinct_ops added ops = true → ∀ k : Nat, heap_inv ((ops.take k).foldl heap_step t) := by
  induction ops with
  | nil => intro t added h _ _ _ k; simpa using h
  | cons op rest ih =>
    intro t added h hr hd hv k
    cases k with
    | zero => simpa using h
    | succ k =>
      rw [List.take_succ_cons, List.foldl_cons]
      cases op with
      | add s =>
        simp only [distinct_ops, Bool.and_eq_true, decide_eq_true_eq] at hv
        obtain ⟨⟨s0, s1, sn⟩, hv'⟩ := hv
        have hf : t.sx s = -1 := by
          by_contra hc
          exact sn ((hd s s0 s1).2 hc)
        have a := heap_inv_add t s h s0 s1 hf
        refine ih _ (s :: added) a.1 ?_ ?_ hv' k
        · intro x hx
          rcases List.mem_cons.1 hx with e | e
          · rw [e]; exact ⟨s0, s1⟩
          · exact hr x e
        · intro x x0 x1
          show _ ↔ (binheap_add t s).1.sx x ≠ -1
          rw [a.2 x, List.mem_cons, hd x x0 x1]
      | inc s =>
        simp only [distinct_ops, Bool.and_eq_true, decide_eq_true_eq] at hv
        obtain ⟨sm, hv'⟩ := hv
        have hrs := hr s sm
        have hin : t.sx s ≠ -1 := (hd s hrs.1 hrs.2).1 sm
        have a := heap_inv_inc t s h hrs.1 hrs.2 hin
        refine ih _ added a.1 hr ?_ hv' k
        intro x x0 x1
        show _ ↔ (binheap_inc_freq t s).1.sx x ≠ -1
        rw [a.2 x, hd x x0 x1]

theorem heap_inv_fresh_run (ops : List heap_op) : ∀ (t : binheap_t),
    heap_inv t → fresh_ops t ops = true →
    ∀ k : Nat, heap_inv ((ops.take k).foldl heap_step t) := by
  induction ops with
  | nil => intro t h _ k; simpa using h
  | cons op rest ih =>
    intro t h hv k
    cases k with
    | zero => simpa using h
    | succ k =>
      rw [List.take_succ_cons, List.foldl_cons]
      cases op with
      | add s =>
        simp only [fresh_ops, Bool.and_eq_true, decide_eq_true_eq] at hv
        obtain ⟨⟨s0, s1, _, hf⟩, hv'⟩ := hv
        exact ih _ (heap_inv_add t s h s0 s1 hf).1 hv' k
      | inc s =>
        simp only [fresh_ops, Bool.and_eq_true, decide_eq_true_eq] at hv
        obtain ⟨⟨s0, s1, hin⟩, hv'⟩ := hv
        exact ih _ (heap_inv_inc t s h s0 s1 hin).1 hv' k

theorem heap_inv_of_distinct (ops : List heap_op) (h : distinct_ops [] ops = true) :
    heap_inv (heap_run ops) := by
  have := heap_inv_distinct_run ops binheap_init [] heap_inv_init
    (fun s hs => absurd hs (List.not_mem_nil s))
    (fun s _ _ => ⟨fun hs => absurd hs (List.not_mem_nil s), fun hs => absurd rfl hs⟩)
    h ops.length
  rwa [List.take_length] at this

/-- C1. From `binheap_init`, over every sequence of calls in which `binheap_add` gets
pairwise-distinct symbols of the alphabet and `binheap_inc_freq` only symbols added before,
`binheap_verify` returns true after every call (after every prefix of the sequence). -/
theorem verify_after_distinct_ops (ops : List heap_op) (h : distinct_ops [] ops = true)
    (k : Nat) : binheap_verify (heap_run (ops.take k)) = true :=
  binheap_verify_of_inv _ (heap_inv_distinct_run ops binheap_init [] heap_inv_init
    (fun s hs => absurd hs (List.not_mem_nil s))
    (fun s _ _ => ⟨fun hs => absurd hs (List.not_mem_nil s), fun hs => absurd rfl hs⟩) h k)

/-- Witness for C1: add 0, add 1, bump 0, add 2, all three prefixes. -/
theorem verify_after_distinct_ops_witness :
    distinct_ops [] [.add 0, .add 1, .inc 0, .add 2] = true ∧
    binheap_verify (heap_run ([heap_op.add 0, .add 1, .inc 0, .add 2].take 3)) = true :=
  ⟨by decide, verify_after_distinct_ops [.add 0, .add 1, .inc 0, .add 2] (by decide) 3⟩

/-- C3, as stated, fails: adding symbol 0 twice meets the stated precondition of every
call, and `binheap_verify` returns false after the second call. -/
theorem verify_fails_on_repeated_add :
    stated_ops binheap_init [.add 0, .add 0] = true ∧
    binheap_verify (heap_run [.add 0, .add 0]) = false := by
  decide

/-- C3, amended. From `binheap_init`, over every sequence of calls in which each
`binheap_add` meets its precondition and its symbol has table entry `-1` at the call, and
each `binheap_inc_freq` is on a symbol in the table, `binheap_verify` returns true after
every call. -/
theorem verify_after_fresh_ops (ops : List heap_op) (h : fresh_ops binheap_init ops = true)
    (k : Nat) : binheap_verify (heap_run (ops.take k)) = true :=
  binheap_verify_of_inv _ (heap_inv_fresh_run ops binheap_init heap_inv_init h k)

/-- Witness for C3, amended. -/
theorem verify_after_fresh_ops_witness :
    fresh_ops binheap_init [.add 3, .inc 3, .add 1] = true ∧
    binheap_verify (heap_run ([heap_op.add 3, .inc 3, .add 1].take 3)) = true :=
  ⟨by decide, verify_after_fresh_ops [.add 3, .inc 3, .add 1] (by decide) 3⟩

/-- C5 fails on the code: after adding 0, 1, 2, 3 the root is a live internal node of
frequency 2 whose children have frequencies 2 and 1. -/
theorem internal_sum_fails_after_four_adds :
    distinct_ops [] [.add 0, .add 1, .add 2, .add 3] = true ∧
    0 < (heap_run [.add 0, .add 1, .add 2, .add 3]).nc ∧
    ((heap_run [.add 0, .add 1, .add 2, .add 3]).ns 0).sym = -1 ∧
    ((heap_run [.add 0, .add 1, .add 2, .add 3]).ns 0).freq = 2 ∧
    ((heap_run [.add 0, .add 1, .add 2, .add 3]).ns (2 * 0 + 1)).freq +
      ((heap_run [.add 0, .add 1, .add 2, .add 3]).ns (2 * 0 + 2)).freq = 3 := by
  decide

/-! ## Codes of distinct symbols -/

theorem path_walk_congr (c : Int) (p q : Nat) (n : Nat)
    (h : ∀ k : Nat, k < n → p / 2 ^ k % 2 = q / 2 ^ k % 2) :
    path_walk c p n = path_walk c q n := by
  induction n with
  | zero => rfl
  | succ n ih =>
    rw [path_walk, path_walk, ih (fun k hk => h k (by omega)), h n (by omega)]

theorem code_bits_index (t : binheap_t) (s1 s2 : Int) (h1 : 0 ≤ t.sx s1)
    (h1' : t.sx s1 < 2 ^ 31) (h2 : 0 ≤ t.sx s2) (h2' : t.sx s2 < 2 ^ 31)
    (he : code_bits t s1 = code_bits t s2) : t.sx s1 = t.sx s2 := by
  have w1 := (binheap_find_walk t s1 h1 h1').2.2
  have w2 := (binheap_find_walk t s2 h2 h2').2.2
  unfold code_bits at he
  have hl := congrArg List.length he
  rw [List.length_map, List.length_map, List.length_range, List.length_range] at hl
  rw [← hl] at he w2
  rw [List.map_inj_left] at he
  rw [← w1, ← w2]
  apply path_walk_congr
  intro k hk
  have := he k (List.mem_range.2 hk)
  have a := Nat.mod_two_eq_zero_or_one ((binheap_find t s1).2.1 / 2 ^ k)
  have b := Nat.mod_two_eq_zero_or_one ((binheap_find t s2).2.1 / 2 ^ k)
  rw [decide_eq_decide] at this
  omega

/-- C6 fails on the code: after adding 0, 1, 2 the code of symbol 1 (one bit, `0`) is a
prefix of the code of symbol 2 (two bits, `00`): the node of symbol 1 at index 1 is the
parent of the node of symbol 2 at index 3. -/
theorem code_prefix_after_three_adds :
    distinct_ops [] [.add 0, .add 1, .add 2] = true ∧
    (heap_run [.add 0, .add 1, .add 2]).sx 1 = 1 ∧
    (heap_run [.add 0, .add 1, .add 2]).sx 2 = 3 ∧
    code_bits (heap_run [.add 0, .add 1, .add 2]) 1 = [false] ∧
    code_bits (heap_run [.add 0, .add 1, .add 2]) 2 = [false, false] ∧
    code_bits (heap_run [.add 0, .add 1, .add 2]) 1 <+:
      code_bits (heap_run [.add 0, .add 1, .add 2]) 2 := by
  refine ⟨by decide, by decide, by decide, by decide, by decide, ⟨[false], by decide⟩⟩

/-- What does hold of the codes: in every heap reached from `binheap_init` by adding
distinct symbols and incrementing frequencies, two distinct inserted symbols have different
codes (root-first bit sequences of the path and bit length returned by `binheap_find`). -/
theorem code_bits_distinct (ops : List heap_op) (h : distinct_ops [] ops = true)
    (s1 s2 : Int) (a0 : 0 ≤ s1) (a1 : s1 < alphabet) (b0 : 0 ≤ s2) (b1 : s2 < alphabet)
    (i1 : (heap_run ops).sx s1 ≠ -1) (i2 : (heap_run ops).sx s2 ≠ -1) (hne : s1 ≠ s2) :
    code_bits (heap_run ops) s1 ≠ code_bits (heap_run ops) s2 := by
  have hi := heap_inv_of_distinct ops h
  have x1 := hi.table.1 s1 a0 a1 i1
  have x2 := hi.table.1 s2 b0 b1 i2
  have hc := hi.count
  have hl := inserted_count_le (heap_run ops)
  have e2 : alphabet = 32 := rfl
  intro he
  have e := code_bits_index _ s1 s2 x1.1 (by omega) x2.1 (by omega) he
  have := x1.2.2
  rw [e, x2.2.2] at this
  exact hne this.symm

/-- The codes of the symbols 1 and 2 after adding 0, 1, 2 differ. -/
theorem code_bits_distinct_witness :
    distinct_ops [] [.add 0, .add 1, .add 2] = true ∧
    code_bits (heap_run [.add 0, .add 1, .add 2]) 1 ≠
      code_bits (heap_run [.add 0, .add 1, .add 2]) 2 :=
  ⟨by decide, code_bits_distinct [.add 0, .add 1, .add 2] (by decide) 1 2 (by decide)
    (by decide) (by decide) (by decide) (by decide) (by decide) (by decide)⟩

/-! ## `binheap_inc_freq` on a verified heap -/

theorem binheap_inc_freq_node (t : binheap_t) (s : Int) (hh : max_heap t) (ht : table_ok t)
    (hs : sym_range t) (h0 : 0 ≤ s) (h1 : s < alphabet) (hin : t.sx s ≠ -1) :
    ((binheap_inc_freq t s).1.ns (binheap_inc_freq t s).2).freq = (t.ns (t.sx s)).freq + 1 ∧
    ((binheap_inc_freq t s).1.ns (binheap_inc_freq t s).2).sym = s ∧
    (binheap_inc_freq t s).1.sx s = (binheap_inc_freq t s).2 := by
  have hx := ht.1 s h0 h1 hin
  have htb : table_ok (bump t (t.sx s)) :=
    table_ok_of_sym_eq t _ rfl rfl (bump_sym t _) ht
  have hsb : sym_range (bump t (t.sx s)) :=
    sym_range_of_sym_eq t _ rfl (bump_sym t _) hs
  have r := binheap_heapify_up_post (bump t (t.sx s)) (t.sx s) htb hsb hx.1 hx.2.1
  have e := binheap_inc_freq_eq t s ht hh hx.1 hx.2.1
  have hnode : (binheap_inc_freq t s).1.ns (binheap_inc_freq t s).2 =
      { freq := (t.ns (t.sx s)).freq + 1, sym := (t.ns (t.sx s)).sym } := by
    rw [e]
    show inc_freq_loop _ _ _ _ = _
    rw [inc_freq_loop_ge _ _ _ _ le_rfl, r.node, bump_ns_same]
  have hsym : ((binheap_heapify_up (bump t (t.sx s)) (t.sx s)).1.ns
      (binheap_heapify_up (bump t (t.sx s)) (t.sx s)).2).sym = s := by
    rw [r.node, bump_ns_same]
    exact hx.2.2
  refine ⟨by rw [hnode], by rw [hnode]; exact hx.2.2, ?_⟩
  rw [e]
  show (binheap_heapify_up (bump t (t.sx s)) (t.sx s)).1.sx s = _
  have hlive : (binheap_heapify_up (bump t (t.sx s)) (t.sx s)).2 <
      (binheap_heapify_up (bump t (t.sx s)) (t.sx s)).1.nc := by
    rw [r.nc_eq]
    have := r.hi
    show _ < t.nc
    omega
  have := r.table.2 _ r.lo hlive (by rw [hsym]; exact h0)
  rw [hsym] at this
  exact this

/-- The sums of the ancestor loop stay small: when the frequencies of the array are in
`[0, 2 ^ 56]`, every frequency after the loop is in `[0, 2 ^ 62]`. -/
theorem inc_freq_loop_bound (fuel : Nat) : ∀ (ns : Int → node_t) (p : Int),
    0 ≤ p → p ≤ 62 →
    (0 < p → ∀ j : Int, 0 ≤ j → j ≤ p + 1 → j ≠ p →
      0 ≤ (ns j).freq ∧ (ns j).freq ≤ 72057594037927936) →
    (0 ≤ (ns p).freq ∧ (ns p).freq ≤ 72057594037927936 * (64 - p)) →
    (∀ j : Int, 0 ≤ j → j < 64 → 0 ≤ (ns j).freq ∧ (ns j).freq ≤ 4611686018427387904) →
    ∀ j : Int, 0 ≤ j → j < 64 →
      0 ≤ (inc_freq_loop fuel ns p j).freq ∧
      (inc_freq_loop fuel ns p j).freq ≤ 4611686018427387904 := by
  induction fuel with
  | zero => intro ns p _ _ _ _ h3 j j0 j1; exact h3 j j0 j1
  | succ fuel ih =>
    intro ns p p0 p1 h1 h2 h3 j j0 j1
    rw [inc_freq_loop]
    by_cases hp : p > 0
    · rw [if_pos hp]
      have hsum : 0 ≤ (ns (2 * ((p - 1) / 2) + 1)).freq + (ns (2 * ((p - 1) / 2) + 2)).freq ∧
          (ns (2 * ((p - 1) / 2) + 1)).freq + (ns (2 * ((p - 1) / 2) + 2)).freq ≤
            72057594037927936 * (64 - (p - 1) / 2) := by
        have hc : 2 * ((p - 1) / 2) + 1 = p ∨ 2 * ((p - 1) / 2) + 2 = p := by omega
        rcases hc with e | e
        · have a := h1 hp (2 * ((p - 1) / 2) + 2) (by omega) (by omega) (by omega)
          rw [e]
          omega
        · have a := h1 hp (2 * ((p - 1) / 2) + 1) (by omega) (by omega) (by omega)
          rw [e]
          omega
      apply ih _ ((p - 1) / 2) (by omega) (by omega) _ _ _ j j0 j1
      · intro hq k k0 k1 kne
        rw [ns_set_ne _ _ _ _ kne]
        exact h1 hp k k0 (by omega) (by omega)
      · rw [ns_set_eq]
        exact hsum
      · intro k k0 k1
        by_cases e : k = (p - 1) / 2
        · rw [e, ns_set_eq]
          show 0 ≤ (ns (2 * ((p - 1) / 2) + 1)).freq + (ns (2 * ((p - 1) / 2) + 2)).freq ∧ _
          constructor
          · exact hsum.1
          · show (ns (2 * ((p - 1) / 2) + 1)).freq + (ns (2 * ((p - 1) / 2) + 2)).freq ≤ _
            omega
        · rw [ns_set_ne _ _ _ _ e]
          exact h3 k k0 k1
    · rw [if_neg hp]
      exact h3 j j0 j1

/-- No arithmetic of `binheap_inc_freq` overflows `int64_t` on a verified heap whose
frequencies are below `2 ^ 56`: the increment and the sums of the ancestor loop are the
frequencies the call stores, and every frequency of the array is in `[0, 2 ^ 63)` after
the call. -/
theorem binheap_inc_freq_range (t : binheap_t) (s : Int) (hh : max_heap t) (ht : table_ok t)
    (hs : sym_range t) (hcap : t.nc < max_nodes) (hb : freq_below t (2 ^ 56))
    (h0 : 0 ≤ s) (h1 : s < alphabet) (hin : t.sx s ≠ -1) :
    freq_below (binheap_inc_freq t s).1 (2 ^ 63) := by
  have hx := ht.1 s h0 h1 hin
  have em : max_nodes = 64 := rfl
  rw [em] at hcap
  have htb : table_ok (bump t (t.sx s)) :=
    table_ok_of_sym_eq t _ rfl rfl (bump_sym t _) ht
  have hsb : sym_range (bump t (t.sx s)) :=
    sym_range_of_sym_eq t _ rfl (bump_sym t _) hs
  have r := binheap_heapify_up_post (bump t (t.sx s)) (t.sx s) htb hsb hx.1 hx.2.1
  have e := binheap_inc_freq_eq t s ht hh hx.1 hx.2.1
  have hbump : ∀ j : Int, 0 ≤ j → j < 64 →
      0 ≤ ((bump t (t.sx s)).ns j).freq ∧
      ((bump t (t.sx s)).ns j).freq ≤ 72057594037927936 := by
    intro j j0 j1
    have a := hb j j0 (by rw [em]; exact j1)
    by_cases c : j = t.sx s
    · rw [c, bump_ns_same]
      rw [c] at a
      show 0 ≤ (t.ns (t.sx s)).freq + 1 ∧ (t.ns (t.sx s)).freq + 1 ≤ _
      norm_num at a
      omega
    · rw [bump_ns_other _ _ _ c]
      norm_num at a
      omega
  have hup : ∀ j : Int, 0 ≤ j → j < 64 →
      0 ≤ ((binheap_heapify_up (bump t (t.sx s)) (t.sx s)).1.ns j).freq ∧
      ((binheap_heapify_up (bump t (t.sx s)) (t.sx s)).1.ns j).freq ≤ 72057594037927936 := by
    intro j j0 j1
    by_cases c : j < t.nc
    · exact r.all (fun n => 0 ≤ n.freq ∧ n.freq ≤ 72057594037927936)
        (fun k k0 k1 => hbump k k0 (by change k < t.nc at k1; omega)) j j0 c
    · rw [r.above j (by omega)]
      exact hbump j j0 j1
  have hlo := r.lo
  have hhi := r.hi
  intro j j0 j1
  rw [em] at j1
  rw [e]
  show 0 ≤ (inc_freq_loop _ _ _ j).freq ∧ (inc_freq_loop _ _ _ j).freq < 2 ^ 63
  have key := inc_freq_loop_bound
    (binheap_heapify_up (bump t (t.sx s)) (t.sx s)).2.toNat
    (binheap_heapify_up (bump t (t.sx s)) (t.sx s)).1.ns
    (binheap_heapify_up (bump t (t.sx s)) (t.sx s)).2 hlo (by omega)
    (fun _ k k0 k1 _ => hup k k0 (by omega))
    (by
      have a := hup _ hlo (by omega)
      omega)
    (fun k k0 k1 => by
      have a := hup k k0 k1
      omega)
    j j0 j1
  norm_num
  omega

/-- C7. On a heap for which `binheap_verify` returns true, with fewer than `max_nodes`
nodes, symbols below `alphabet` and every frequency of the array in `[0, 2 ^ 56)`,
`binheap_inc_freq(t, s)` for an inserted symbol `s` leaves the node holding `s` with a
frequency one greater than before, and returns the index at which `s` now lives: `sx[s]`
equals the result and the node there has symbol `s`.  No `int64_t` overflows on the way:
every frequency the call stores is in `[0, 2 ^ 63)`. -/
theorem binheap_inc_freq_spec (t : binheap_t) (s : Int) (hv : binheap_verify t = true)
    (hs : sym_range t) (hcap : t.nc < max_nodes) (hb : freq_below t (2 ^ 56))
    (h0 : 0 ≤ s) (h1 : s < alphabet) (hin : t.sx s ≠ -1) :
    ((binheap_inc_freq t s).1.ns ((binheap_inc_freq t s).1.sx s)).freq
      = (t.ns (t.sx s)).freq + 1 ∧
    (binheap_inc_freq t s).1.sx s = (binheap_inc_freq t s).2 ∧
    ((binheap_inc_freq t s).1.ns (binheap_inc_freq t s).2).sym = s ∧
    freq_below (binheap_inc_freq t s).1 (2 ^ 63) := by
  have r := binheap_inc_freq_node t s (max_heap_of_verify t hv) (table_ok_of_verify t hv) hs
    h0 h1 hin
  exact ⟨by rw [r.2.2]; exact r.1, r.2.2, r.2.1,
    binheap_inc_freq_range t s (max_heap_of_verify t hv) (table_ok_of_verify t hv) hs hcap hb
      h0 h1 hin⟩

/-- Witness for C7: symbol 2 in the heap reached by adding 0, 1, 2; its node moves from
index 3 to index 1 and its frequency from 1 to 2. -/
theorem binheap_inc_freq_spec_witness :
    binheap_verify (heap_run [.add 0, .add 1, .add 2]) = true ∧
    freq_below (heap_run [.add 0, .add 1, .add 2]) (2 ^ 56) ∧
    (heap_run [.add 0, .add 1, .add 2]).sx 2 = 3 ∧
    (binheap_inc_freq (heap_run [.add 0, .add 1, .add 2]) 2).2 = 1 ∧
    ((binheap_inc_freq (heap_run [.add 0, .add 1, .add 2]) 2).1.ns
        ((binheap_inc_freq (heap_run [.add 0, .add 1, .add 2]) 2).1.sx 2)).freq
      = ((heap_run [.add 0, .add 1, .add 2]).ns
          ((heap_run [.add 0, .add 1, .add 2]).sx 2)).freq + 1 ∧
    freq_below (binheap_inc_freq (heap_run [.add 0, .add 1, .add 2]) 2).1 (2 ^ 63) :=
  ⟨by decide, by unfold freq_below; decide, by decide, by decide,
   (binheap_inc_freq_spec (heap_run [.add 0, .add 1, .add 2]) 2 (by decide)
    (heap_inv_of_distinct [.add 0, .add 1, .add 2] (by decide)).syms (by decide)
    (by unfold freq_below; decide) (by decide) (by decide) (by decide)).1,
   (binheap_inc_freq_spec (heap_run [.add 0, .add 1, .add 2]) 2 (by decide)
    (heap_inv_of_distinct [.add 0, .add 1, .add 2] (by decide)).syms (by decide)
    (by unfold freq_below; decide) (by decide) (by decide) (by decide)).2.2.2⟩

/-! ## The fuel given to each loop of `bh.c` suffices

One more unit of fuel than the caller gives changes no result: no loop of the embedding
stops for lack of fuel. -/

theorem find_loop_fuel_succ (fuel : Nat) : ∀ (i : Int) (path : Nat) (bits : Int),
    i.toNat ≤ fuel → find_loop (fuel + 1) i path bits = find_loop fuel i path bits := by
  induction fuel with
  | zero =>
    intro i path bits h
    conv_lhs => rw [find_loop]
    rw [if_neg (by omega)]
    rfl
  | succ fuel ih =>
    intro i path bits h
    conv_lhs => rw [find_loop]
    conv_rhs => rw [find_loop]
    by_cases hi : i > 0
    · rw [if_pos hi, if_pos hi]
      exact ih _ _ _ (by omega)
    · rw [if_neg hi, if_neg hi]

theorem find_loop_fuel (extra : Nat) (i : Int) (path : Nat) (bits : Int) :
    find_loop (i.toNat + extra) i path bits = find_loop i.toNat i path bits := by
  induction extra with
  | zero => rfl
  | succ extra ih =>
    rw [← Nat.add_assoc, find_loop_fuel_succ _ _ _ _ (by omega), ih]

theorem heapify_up_loop_fuel_succ (fuel : Nat) : ∀ (t : binheap_t) (i : Int),
    i.toNat ≤ fuel → heapify_up_loop (fuel + 1) t i = heapify_up_loop fuel t i := by
  induction fuel with
  | zero =>
    intro t i h
    conv_lhs => rw [heapify_up_loop]
    rw [if_neg (by omega)]
    rfl
  | succ fuel ih =>
    intro t i h
    conv_lhs => rw [heapify_up_loop]
    conv_rhs => rw [heapify_up_loop]
    by_cases hi : i > 0
    · rw [if_pos hi, if_pos hi]
      dsimp only
      split
      · exact ih _ _ (by omega)
      · rfl
    · rw [if_neg hi, if_neg hi]

theorem heapify_up_loop_fuel (extra : Nat) (t : binheap_t) (i : Int) :
    heapify_up_loop (i.toNat + extra) t i = heapify_up_loop i.toNat t i := by
  induction extra with
  | zero => rfl
  | succ extra ih =>
    rw [← Nat.add_assoc, heapify_up_loop_fuel_succ _ _ _ (by omega), ih]

theorem inc_freq_loop_fuel_succ (fuel : Nat) : ∀ (ns : Int → node_t) (p : Int),
    p.toNat ≤ fuel → inc_freq_loop (fuel + 1) ns p = inc_freq_loop fuel ns p := by
  induction fuel with
  | zero =>
    intro ns p h
    conv_lhs => rw [inc_freq_loop]
    rw [if_neg (by omega)]
    rfl
  | succ fuel ih =>
    intro ns p h
    conv_lhs => rw [inc_freq_loop]
    conv_rhs => rw [inc_freq_loop]
    by_cases hi : p > 0
    · rw [if_pos hi, if_pos hi]
      exact ih _ _ (by omega)
    · rw [if_neg hi, if_neg hi]

theorem inc_freq_loop_fuel (extra : Nat) (ns : Int → node_t) (p : Int) :
    inc_freq_loop (p.toNat + extra) ns p = inc_freq_loop p.toNat ns p := by
  induction extra with
  | zero => rfl
  | succ extra ih =>
    rw [← Nat.add_assoc, inc_freq_loop_fuel_succ _ _ _ (by omega), ih]

theorem heapify_down_largest_cases (t : binheap_t) (ix : Int) :
    heapify_down_largest t ix = ix ∨
    (heapify_down_largest t ix = 2 * ix + 1 ∧ 2 * ix + 1 < t.nc) ∨
    (heapify_down_largest t ix = 2 * ix + 2 ∧ 2 * ix + 2 < t.nc) := by
  unfold heapify_down_largest
  dsimp only
  by_cases h1 : 2 * ix + 1 < t.nc ∧ (t.ns (2 * ix + 1)).freq > (t.ns ix).freq
  · rw [if_pos h1]
    by_cases h2 : 2 * ix + 2 < t.nc ∧ (t.ns (2 * ix + 2)).freq > (t.ns (2 * ix + 1)).freq
    · rw [if_pos h2]; exact Or.inr (Or.inr ⟨rfl, h2.1⟩)
    · rw [if_neg h2]; exact Or.inr (Or.inl ⟨rfl, h1.1⟩)
  · rw [if_neg h1]
    by_cases h2 : 2 * ix + 2 < t.nc ∧ (t.ns (2 * ix + 2)).freq > (t.ns ix).freq
    · rw [if_pos h2]; exact Or.inr (Or.inr ⟨rfl, h2.1⟩)
    · rw [if_neg h2]; exact Or.inl rfl

theorem heapify_down_rec_fuel_succ (fuel : Nat) : ∀ (t : binheap_t) (ix : Int), 0 ≤ ix →
    (t.nc - ix).toNat < fuel →
    heapify_down_rec (fuel + 1) t ix = heapify_down_rec fuel t ix := by
  induction fuel with
  | zero => intro t ix _ h; omega
  | succ fuel ih =>
    intro t ix h0 h
    conv_lhs => rw [heapify_down_rec]
    conv_rhs => rw [heapify_down_rec]
    by_cases hl : heapify_down_largest t ix ≠ ix
    · simp only [hl, ne_eq, not_false_eq_true, if_true]
      have hc := heapify_down_largest_cases t ix
      have e : heapify_down_rec (fuel + 1) (binheap_swap t ix (heapify_down_largest t ix))
            (heapify_down_largest t ix) =
          heapify_down_rec fuel (binheap_swap t ix (heapify_down_largest t ix))
            (heapify_down_largest t ix) := by
        apply ih
        · omega
        · rw [binheap_swap_nc]
          omega
      rw [e]
    · simp only [hl, if_false]

theorem binheap_heapify_down_fuel (extra : Nat) (t : binheap_t) (ix : Int) (h0 : 0 ≤ ix) :
    heapify_down_rec (t.nc.toNat + 1 + extra) t ix = binheap_heapify_down t ix := by
  induction extra with
  | zero => rfl
  | succ extra ih =>
    rw [← Nat.add_assoc, heapify_down_rec_fuel_succ _ _ _ h0 (by omega), ih]

/-! ## Frame of `binheap_inc_freq` and the final store of the sifts -/

/-- The calls `binheap_add` (two or more nodes) makes, in order: the sift-down at
`smallest` from `add_down_state`, the sift-down at `second_smallest`, the sift-up of the
internal node from `add_up_state`, then the sift-up of the new leaf. -/
theorem binheap_add_calls (t : binheap_t) (sym : Int) (h : ¬ t.nc < 2) :
    binheap_add t sym =
      binheap_heapify_up
        (push_node (binheap_heapify_up (add_up_state t) t.nc).1 { freq := 1, sym := sym })
        (binheap_heapify_up (add_up_state t) t.nc).1.nc :=
  binheap_add_large t sym h

/-- The store that ends `binheap_heapify_up` is the store at the symbol
`heapify_up_store_sym`. -/
theorem binheap_heapify_up_store (t : binheap_t) (ix : Int) :
    (binheap_heapify_up t ix).1.sx =
      sx_set (heapify_up_loop ix.toNat t ix).1.sx (heapify_up_store_sym t ix)
        (heapify_up_loop ix.toNat t ix).2 :=
  rfl

/-- With four or more nodes the two sift-downs of `binheap_add` move nothing. -/
theorem add_up_state_ge4 (t : binheap_t) (h : heap_inv t) (h4 : 4 ≤ t.nc) :
    add_up_state t = push_node t (merged_node t) := by
  have ht2 : table_ok (push_node t (merged_node t)) :=
    push_node_table t _ h.table h.nc_nonneg (merged_node_sym_lt t) (Or.inl (merged_node_sym_neg t))
  have hnc : (push_node t (merged_node t)).nc = t.nc + 1 := rfl
  have d1 := binheap_heapify_down_noop (push_node t (merged_node t)) (t.nc - 2) ht2
    (by omega) (by rw [hnc]; omega)
    (heapify_down_largest_eq _ _ (fun hl => by rw [hnc] at hl; omega)
      (fun hl => by rw [hnc] at hl; omega))
  have d2 := binheap_heapify_down_noop (push_node t (merged_node t)) (t.nc - 1) ht2
    (by omega) (by rw [hnc]; omega)
    (heapify_down_largest_eq _ _ (fun hl => by rw [hnc] at hl; omega)
      (fun hl => by rw [hnc] at hl; omega))
  unfold add_up_state add_down_state
  rw [d1, d2]

/-- In every `binheap_add` on a heap reached from `binheap_init` that holds four or more
nodes, the sift-up of the internal node ends with the node it sifted at the final index:
the symbol index of its final store is `-1`. -/
theorem add_up_store_internal (t : binheap_t) (h : heap_inv t) (h4 : 4 ≤ t.nc) :
    heapify_up_store_sym (add_up_state t) t.nc = -1 := by
  have ht2 : table_ok (push_node t (merged_node t)) :=
    push_node_table t _ h.table h.nc_nonneg (merged_node_sym_lt t) (Or.inl (merged_node_sym_neg t))
  have hs2 : sym_range (push_node t (merged_node t)) :=
    push_node_all t _ (fun n => n.sym < alphabet) h.syms (merged_node_sym_lt t)
  have hlt : t.nc < (push_node t (merged_node t)).nc := by
    change t.nc < t.nc + 1
    omega
  have r := heapify_up_loop_post t.nc.toNat (push_node t (merged_node t)) t.nc ht2 hs2
    h.nc_nonneg hlt
  rw [add_up_state_ge4 t h h4]
  unfold heapify_up_store_sym
  dsimp only
  rw [r.node, push_node_ns_new]
  rfl

/-- C21 fails on the code: in the heap reached by `add 0, add 1, inc 0, inc 0`, on which
`binheap_verify` returns true, symbol 0 is stored with frequency 3 at the root and symbol 1
below it; `binheap_inc_freq(t, 1)` leaves symbol 0 with frequency 2.  In the heap reached
by `add 0, add 1, add 2, inc 1, add 3` symbol 1 (index 1, frequency 2) has two live
children; `binheap_inc_freq(t, 2)` leaves symbol 1 with frequency 4. -/
theorem inc_freq_changes_other_symbol :
    binheap_verify (heap_run [.add 0, .add 1, .inc 0, .inc 0]) = true ∧
    (heap_run [.add 0, .add 1, .inc 0, .inc 0]).sx 1 = 1 ∧
    (heap_run [.add 0, .add 1, .inc 0, .inc 0]).ns
      ((heap_run [.add 0, .add 1, .inc 0, .inc 0]).sx 0) = { freq := 3, sym := 0 } ∧
    (binheap_inc_freq (heap_run [.add 0, .add 1, .inc 0, .inc 0]) 1).1.ns
      ((binheap_inc_freq (heap_run [.add 0, .add 1, .inc 0, .inc 0]) 1).1.sx 0) =
        { freq := 2, sym := 0 } ∧
    binheap_verify (heap_run [.add 0, .add 1, .add 2, .inc 1, .add 3]) = true ∧
    (heap_run [.add 0, .add 1, .add 2, .inc 1, .add 3]).sx 2 = 3 ∧
    (heap_run [.add 0, .add 1, .add 2, .inc 1, .add 3]).nc = 6 ∧
    (heap_run [.add 0, .add 1, .add 2, .inc 1, .add 3]).ns
      ((heap_run [.add 0, .add 1, .add 2, .inc 1, .add 3]).sx 1) = { freq := 2, sym := 1 } ∧
    (binheap_inc_freq (heap_run [.add 0, .add 1, .add 2, .inc 1, .add 3]) 2).1.ns
      ((binheap_inc_freq (heap_run [.add 0, .add 1, .add 2, .inc 1, .add 3]) 2).1.sx 1) =
        { freq := 4, sym := 1 } := by
  decide

/-- C22 fails on the code: in the fourth of the calls `add 0, add 1, add 2, add 3` the
sift-up of the internal node stops at index 1 with the internal node there, and its final
store has the symbol index `-1`; in the call `add 4` after
`add 0, add 1, add 2, inc 1, add 3` the node at `smallest = 4` is internal, the sift-down
moves nothing and its final store has the symbol index `-1`. -/
theorem sift_final_store_internal :
    distinct_ops [] [.add 0, .add 1, .add 2, .add 3] = true ∧
    (heap_run [.add 0, .add 1, .add 2]).nc = 4 ∧
    (heapify_up_loop 4 (add_up_state (heap_run [.add 0, .add 1, .add 2])) 4).2 = 1 ∧
    heapify_up_store_sym (add_up_state (heap_run [.add 0, .add 1, .add 2])) 4 = -1 ∧
    distinct_ops [] [.add 0, .add 1, .add 2, .inc 1, .add 3, .add 4] = true ∧
    (heap_run [.add 0, .add 1, .add 2, .inc 1, .add 3]).nc - 2 = 4 ∧
    (binheap_heapify_down (add_down_state (heap_run [.add 0, .add 1, .add 2, .inc 1, .add 3]))
      4).2 = 4 ∧
    heapify_down_store_sym
      (add_down_state (heap_run [.add 0, .add 1, .add 2, .inc 1, .add 3])) 4 = -1 := by
  decide

/-! ## `huff_compress` and `huff_decompress` -/

/-- C2 fails on the code: the one-byte buffer `0x80` with `window_bits = 10` compresses to
the single word `2` (flag bits `0` then `1`, written least-significant first from `0b10`),
and `huff_decompress` over that word, reading the first flag bit `0`, stores the literal
`1` at `data[0]` with no error set. -/
theorem roundtrip_fails_on_byte_0x80 :
    (huff_compress list_io (list_session []) (fun _ => 128) 1 10).that = [2] ∧
    (huff_compress list_io (list_session []) (fun _ => 128) 1 10).error = 0 ∧
    (huff_decompress list_io 64 (list_session [2]) (fun _ => 0) 1 10).map
      (fun r => (r.lz.error, r.data 0)) = some (0, 1) := by
  decide

/-- C10. On a session with no error set and `window_bits` outside `[10, 20]`,
`huff_write_header`, `huff_compress` and `huff_decompress` return with `error = EINVAL`
and everything else as it was: the caller's data, `written` and the log of callback
invocations are unchanged (no callback was invoked), and so is the output memory. -/
theorem invalid_window_bits {σ : Type} (io : huff_io σ) (lz : huff_t σ) (he : lz.error = 0)
    (window_bits : Nat) (hw : window_bits < 10 ∨ 20 < window_bits) (bytes : Nat)
    (src : Nat → Nat) (dst : Int → Nat) (fuel : Nat) :
    huff_write_header io lz bytes window_bits =
      { that := lz.that, error := EINVAL, written := lz.written, calls := lz.calls } ∧
    huff_compress io lz src bytes window_bits =
      { that := lz.that, error := EINVAL, written := lz.written, calls := lz.calls } ∧
    huff_decompress io fuel lz dst bytes window_bits =
      some { lz := { that := lz.that, error := EINVAL, written := lz.written,
                     calls := lz.calls },
             data := dst, below := false } := by
  have hw' : window_bits < 10 ∨ window_bits > 20 := hw
  refine ⟨?_, ?_, ?_⟩
  · unfold huff_write_header
    rw [if_neg (by simp [he]), if_pos hw']
    rfl
  · unfold huff_compress
    rw [if_neg (by simp [he]), if_pos hw']
    rfl
  · unfold huff_decompress
    rw [if_neg (by simp [he]), if_pos hw']
    rfl

/-- Witness for C10: `window_bits = 9` and `window_bits = 21` on a fresh session. -/
theorem invalid_window_bits_witness :
    (huff_compress list_io (list_session [7]) (fun _ => 65) 4 9).error = EINVAL ∧
    (huff_compress list_io (list_session [7]) (fun _ => 65) 4 21).calls = [] :=
  ⟨by rw [(invalid_window_bits list_io (list_session [7]) rfl 9 (by decide) 4 (fun _ => 65)
      (fun _ => 0) 0).2.1],
   by rw [(invalid_window_bits list_io (list_session [7]) rfl 21 (by decide) 4 (fun _ => 65)
      (fun _ => 0) 0).2.1]; rfl⟩

/-! ## Malformed streams, failing hosts and the header -/

/-- C11 fails on the code: over the word `51074` (the literal `A`, then a match with
`pos = 1`, `length = 3`) with `bytes = 2`, `huff_decompress` stores `A` at the offsets
2 and 3, beyond the two bytes of the buffer, and returns with no error set. -/
theorem decompress_writes_past_bytes :
    (huff_decompress list_io 64 (list_session [51074]) (fun _ => 0) 2 10).map
      (fun r => (r.lz.error, r.data 0, r.data 1, r.data 2, r.data 3)) =
      some (0, 65, 65, 65, 65) := by
  decide

/-- C12 fails on the code: when the first `read` of `huff_read_header` sets the error, the
second `read` is invoked all the same, with `error = 5` at the call. -/
theorem read_header_reads_after_error :
    (huff_read_header fail_io (list_session []) 0 0).1.calls =
      [huff_call.read 0 0, huff_call.read 5 0] := by
  decide

/-- C13. In the loop of `huff_decompress`, when the two flag bits read are `1`, `1` and the
two numbers `pos` and `len` are read with no error set, and `pos` is 0 or at least
`2 ^ window_bits`, or `len` is 0, the function returns at once: the error is `EINVAL`, the
memory is as it was before the token, and the log of callback invocations is the log at
the end of the token (no further read). -/
theorem decompress_invalid_match {σ : Type} (io : huff_io σ) (bytes window_bits nfuel fuel : Nat)
    (r : bit_state σ) (data : Int → Nat) (i : Nat) (below : Bool) (p l : Nat × bit_state σ)
    (hi : i < bytes)
    (he0 : (huff_read_bit io r).2.lz.error = 0) (hb0 : (huff_read_bit io r).1 ≠ 0)
    (he1 : (huff_read_bit io (huff_read_bit io r).2).2.lz.error = 0)
    (hb1 : (huff_read_bit io (huff_read_bit io r).2).1 ≠ 0)
    (hp : huff_read_number io nfuel (huff_read_bit io (huff_read_bit io r).2).2
      ((window_bits - 4) / 2) = some p)
    (hpe : p.2.lz.error = 0)
    (hl : huff_read_number io nfuel p.2 ((window_bits - 4) / 2) = some l)
    (hle : l.2.lz.error = 0)
    (hbad : p.1 = 0 ∨ 1 <<< window_bits ≤ p.1 ∨ l.1 = 0) :
    decompress_loop io bytes (1 <<< window_bits) ((window_bits - 4) / 2) nfuel (fuel + 1)
        r data i below =
      some { lz := { that := l.2.lz.that, error := EINVAL, written := l.2.lz.written,
                     calls := l.2.lz.calls },
             data := data, below := below } := by
  rw [decompress_loop, if_pos hi]
  simp only [he0, hb0, he1, hb1, ne_eq, not_true_eq_false, not_false_eq_true, if_true,
    if_false, hp, hpe, hl, hle]
  by_cases hpos : 0 < p.1 ∧ p.1 < 1 <<< window_bits
  · have hl0 : l.1 = 0 := by
      rcases hbad with h | h | h
      · omega
      · omega
      · exact h
    simp only [hpos, and_self, not_true_eq_false, if_false, hl0, if_true]
    rfl
  · simp only [hpos, not_false_eq_true, if_true]
    rfl

/-- Witness for C13: the word `195` holds a match with `pos = 0`, `length = 3`. -/
theorem decompress_invalid_match_witness :
    decompress_loop list_io 4 (1 <<< 10) ((10 - 4) / 2) 64 (0 + 1)
        { lz := list_session [195], b64 := 0, bp := 0 } (fun _ => 0) 0 false =
      some { lz := { that := [], error := EINVAL, written := 0,
                     calls := [huff_call.read 0 195] },
             data := fun _ => 0, below := false } :=
  decompress_invalid_match list_io 4 10 64 0 { lz := list_session [195], b64 := 0, bp := 0 }
    (fun _ => 0) 0 false
    (0, { lz := { that := [], error := 0, written := 0, calls := [huff_call.read 0 195] },
          b64 := 195, bp := 6 })
    (3, { lz := { that := [], error := 0, written := 0, calls := [huff_call.read 0 195] },
          b64 := 195, bp := 10 })
    (by decide) (by decide) (by decide) (by decide) (by decide) rfl (by decide)
    rfl (by decide) (by decide)

/-- C14 fails on the code: with the header words `5` and `266` the second word lies outside
`[10, 20]`, yet `huff_read_header` sets no error and stores 10, its low 8 bits. -/
theorem read_header_accepts_266 :
    (huff_read_header list_io (list_session [5, 266]) 0 0).1.error = 0 ∧
    (huff_read_header list_io (list_session [5, 266]) 0 0).2 = (5, 10) := by
  decide

/-- What the range check of `huff_read_header` does see: on a session with no error set,
the low 8 bits of the second word read are stored as `*window_bits`, and `error = EINVAL` is
set whenever that stored value lies outside `[10, 20]`. -/
theorem read_header_window_bits {σ : Type} (io : huff_io σ) (lz : huff_t σ) (bytes wb : Nat)
    (he : lz.error = 0) :
    (huff_read_header io lz bytes wb).2.1 = (call_read io lz).1 ∧
    (huff_read_header io lz bytes wb).2.2 = (call_read io (call_read io lz).2).1 % 2 ^ 8 ∧
    ((huff_read_header io lz bytes wb).2.2 < 10 ∨ 20 < (huff_read_header io lz bytes wb).2.2 →
      (huff_read_header io lz bytes wb).1.error = EINVAL) := by
  unfold huff_read_header
  rw [if_neg (by simp [he])]
  dsimp only
  split
  · exact ⟨rfl, rfl, fun _ => rfl⟩
  · rename_i h
    exact ⟨rfl, rfl, fun hc => absurd hc h⟩

/-- The header words `5` and `9` are refused. -/
theorem read_header_window_bits_witness :
    (huff_read_header list_io (list_session [5, 9]) 0 0).2.2 = 9 ∧
    (huff_read_header list_io (list_session [5, 9]) 0 0).1.error = EINVAL :=
  ⟨by decide, (read_header_window_bits list_io (list_session [5, 9]) 0 0 rfl).2.2
    (by decide)⟩

/-- C15 fails on the code: the one-byte buffer `0xFF` compresses to the word `510`,
binary `1 1111 1110`: the first bit placed in the stream is `0` and the second is `1`,
followed by the seven low bits of the byte. -/
theorem high_literal_flag_order :
    (huff_compress list_io (list_session []) (fun _ => 255) 1 10).that = [510] ∧
    ((510 : Nat) >>> 0) &&& 1 = 0 ∧ ((510 : Nat) >>> 1) &&& 1 = 1 ∧ (510 : Nat) >>> 2 = 127 := by
  decide

/-! ## The counter `written` -/

theorem wr_rel_refl {σ : Type} (lz : huff_t σ) (h : lz.written < 2 ^ 64) : wr_rel lz lz :=
  ⟨[], by simp, by simp, fun he => ⟨he, by simp; omega⟩⟩

theorem wr_rel_trans {σ : Type} (a b c : huff_t σ) (h1 : wr_rel a b) (h2 : wr_rel b c) :
    wr_rel a c := by
  obtain ⟨n1, c1, w1, e1⟩ := h1
  obtain ⟨n2, c2, w2, e2⟩ := h2
  refine ⟨n1 ++ n2, by rw [c2, c1, List.append_assoc], ?_, ?_⟩
  · intro x hx
    rcases List.mem_append.1 hx with h | h
    · exact w1 x h
    · exact w2 x h
  · intro he
    have hb := e2 he
    have ha := e1 hb.1
    refine ⟨ha.1, ?_⟩
    rw [hb.2, ha.2, List.length_append]
    omega

theorem wr_rel_written_lt {σ : Type} (a b : huff_t σ) (h : wr_rel a b) (he : b.error = 0) :
    b.written < 2 ^ 64 := by
  obtain ⟨n, _, _, e⟩ := h
  rw [(e he).2]
  exact Nat.mod_lt _ (by norm_num)

/-- One flushed word: the write callback followed by `written += 8` when no error is set. -/
theorem wr_rel_call_write {σ : Type} (io : huff_io σ) (lz : huff_t σ) (b64 : Nat)
    (he : lz.error = 0) :
    wr_rel lz (if (call_write io lz b64).error = 0 then add_written (call_write io lz b64)
      else call_write io lz b64) := by
  refine ⟨[huff_call.write lz.error b64], ?_, ?_, ?_⟩
  · split <;> rfl
  · intro c hc
    rw [List.mem_singleton] at hc
    exact ⟨_, _, hc⟩
  · intro h
    split at h
    · refine ⟨he, ?_⟩
      rename_i h0
      rw [if_pos h0]
      show (lz.written + 8) % 2 ^ 64 = _
      simp
    · rename_i h0
      exact absurd h h0

theorem wr_rel_write_bit {σ : Type} (io : huff_io σ) (w : bit_state σ) (bit : Nat)
    (hw : w.lz.written < 2 ^ 64) : wr_rel w.lz (huff_write_bit io w bit).lz := by
  unfold huff_write_bit
  dsimp only
  split
  · rename_i h
    exact wr_rel_call_write io w.lz w.b64 h.2
  · exact wr_rel_refl _ hw

theorem write_bit_written_lt {σ : Type} (io : huff_io σ) (w : bit_state σ) (bit : Nat)
    (hw : w.lz.written < 2 ^ 64) : (huff_write_bit io w bit).lz.written < 2 ^ 64 := by
  unfold huff_write_bit
  dsimp only
  split
  · split
    · exact Nat.mod_lt _ (by norm_num)
    · exact hw
  · exact hw

theorem wr_rel_write_bits {σ : Type} (io : huff_io σ) (n : Nat) : ∀ (w : bit_state σ)
    (bits : Nat), w.lz.written < 2 ^ 64 →
    wr_rel w.lz (huff_write_bits io n w bits).lz ∧
    (huff_write_bits io n w bits).lz.written < 2 ^ 64 := by
  induction n with
  | zero => intro w bits hw; exact ⟨wr_rel_refl _ hw, hw⟩
  | succ n ih =>
    intro w bits hw
    rw [huff_write_bits]
    have h1 := wr_rel_write_bit io w (bits &&& 1) hw
    have h2 := ih (huff_write_bit io w (bits &&& 1)) (bits >>> 1)
      (write_bit_written_lt io w _ hw)
    exact ⟨wr_rel_trans _ _ _ h1 h2.1, h2.2⟩

theorem wr_rel_write_number_loop {σ : Type} (io : huff_io σ) (base fuel : Nat) :
    ∀ (w : bit_state σ) (bits : Nat), w.lz.written < 2 ^ 64 →
    wr_rel w.lz (huff_write_number_loop io base fuel w bits).lz ∧
    (huff_write_number_loop io base fuel w bits).lz.written < 2 ^ 64 := by
  induction fuel with
  | zero => intro w bits hw; exact ⟨wr_rel_refl _ hw, hw⟩
  | succ fuel ih =>
    intro w bits hw
    rw [huff_write_number_loop]
    have h1 := wr_rel_write_bits io base w bits hw
    by_cases hb : bits >>> base ≠ 0
    · simp only [if_pos hb]
      have h2 := wr_rel_write_bit io (huff_write_bits io base w bits) 1 h1.2
      have h2' := write_bit_written_lt io (huff_write_bits io base w bits) 1 h1.2
      have h3 := ih _ (bits >>> base) h2'
      exact ⟨wr_rel_trans _ _ _ (wr_rel_trans _ _ _ h1.1 h2) h3.1, h3.2⟩
    · simp only [if_neg hb]
      have h2 := wr_rel_write_bit io (huff_write_bits io base w bits) 0 h1.2
      have h2' := write_bit_written_lt io (huff_write_bits io base w bits) 0 h1.2
      exact ⟨wr_rel_trans _ _ _ h1.1 h2, h2'⟩

theorem wr_rel_write_number {σ : Type} (io : huff_io σ) (w : bit_state σ) (bits base : Nat)
    (hw : w.lz.written < 2 ^ 64) :
    wr_rel w.lz (huff_write_number io w bits base).lz ∧
    (huff_write_number io w bits base).lz.written < 2 ^ 64 :=
  wr_rel_write_number_loop io base 64 w bits hw

theorem wr_rel_flush {σ : Type} (io : huff_io σ) (w : bit_state σ)
    (hw : w.lz.written < 2 ^ 64) : wr_rel w.lz (huff_flush io w) := by
  unfold huff_flush
  split
  · rename_i h
    exact wr_rel_call_write io w.lz w.b64 h.2
  · exact wr_rel_refl _ hw

theorem wr_rel_compress_loop {σ : Type} (io : huff_io σ) (data : Nat → Nat)
    (bytes window base fuel : Nat) : ∀ (w : bit_state σ) (i : Nat), w.lz.written < 2 ^ 64 →
    wr_rel w.lz (compress_loop io data bytes window base fuel w i) := by
  induction fuel with
  | zero => intro w i hw; exact wr_rel_flush io w hw
  | succ fuel ih =>
    intro w i hw
    rw [compress_loop]
    split
    · dsimp only
      split
      · have a := wr_rel_write_bits io 2 w 3 hw
        split
        · exact a.1
        · have b := wr_rel_write_number io (huff_write_bits io 2 w 3)
            (find_match data bytes window i).2 base a.2
          have ab := wr_rel_trans _ _ _ a.1 b.1
          split
          · exact ab
          · have c := wr_rel_write_number io _ (find_match data bytes window i).1 base b.2
            have abc := wr_rel_trans _ _ _ ab c.1
            split
            · exact abc
            · exact wr_rel_trans _ _ _ abc (ih _ _ c.2)
      · split
        · have a := wr_rel_write_bit io w 0 hw
          have a' := write_bit_written_lt io w 0 hw
          split
          · exact a
          · have b := wr_rel_write_bits io 7 (huff_write_bit io w 0) (data i) a'
            have ab := wr_rel_trans _ _ _ a b.1
            split
            · exact ab
            · exact wr_rel_trans _ _ _ ab (ih _ _ b.2)
        · have a := wr_rel_write_bits io 2 w 2 hw
          split
          · exact a.1
          · have b := wr_rel_write_bits io 7 (huff_write_bits io 2 w 2) (data i) a.2
            have ab := wr_rel_trans _ _ _ a.1 b.1
            split
            · exact ab
            · exact wr_rel_trans _ _ _ ab (ih _ _ b.2)
    · exact wr_rel_flush io w hw

/-- C17, as stated, fails: compressing the one-byte buffer `A` passes one word to the write
callback and `written` grows from 0 to 8. -/
theorem written_counts_bytes :
    (huff_compress list_io (list_session []) (fun _ => 65) 1 10).calls =
      [huff_call.write 0 130] ∧
    (huff_compress list_io (list_session []) (fun _ => 65) 1 10).error = 0 ∧
    (huff_compress list_io (list_session []) (fun _ => 65) 1 10).written = 8 := by
  decide

/-- C17, amended. When `huff_compress` returns with no error set, the log of callback
invocations has grown by write invocations only, and `written` has grown (modulo `2 ^ 64`)
by 8 for each of them, the final word of `huff_flush` included: `written` counts bytes. -/
theorem compress_written {σ : Type} (io : huff_io σ) (lz : huff_t σ) (data : Nat → Nat)
    (bytes window_bits : Nat) (hw : lz.written < 2 ^ 64)
    (he : (huff_compress io lz data bytes window_bits).error = 0) :
    ∃ new : List huff_call,
      (huff_compress io lz data bytes window_bits).calls = lz.calls ++ new ∧
      (∀ c ∈ new, ∃ e w, c = huff_call.write e w) ∧
      (huff_compress io lz data bytes window_bits).written =
        (lz.written + 8 * new.length) % 2 ^ 64 := by
  have key : wr_rel lz (huff_compress io lz data bytes window_bits) := by
    unfold huff_compress
    split
    · exact wr_rel_refl _ hw
    · split
      · have hne : (set_invalid lz).error ≠ 0 := by
          show EINVAL ≠ 0
          decide
        exact ⟨[], by simp [set_invalid], by simp, fun h => absurd h hne⟩
      · exact wr_rel_compress_loop io data bytes _ _ bytes _ 0 hw
  obtain ⟨new, hc, hwr, hrel⟩ := key
  exact ⟨new, hc, hwr, (hrel he).2⟩

/-- Witness for C17, amended: the buffer `AB` over the list host. -/
theorem compress_written_witness :
    ∃ new : List huff_call,
      (huff_compress list_io (list_session []) (fun i => 65 + i) 2 10).calls =
        (list_session []).calls ++ new ∧
      (∀ c ∈ new, ∃ e w, c = huff_call.write e w) ∧
      (huff_compress list_io (list_session []) (fun i => 65 + i) 2 10).written =
        ((list_session []).written + 8 * new.length) % 2 ^ 64 :=
  compress_written list_io (list_session []) (fun i => 65 + i) 2 10 (by decide) (by decide)

/-! ## The match search of `huff_compress` -/

theorem is_run_unique (data : Nat → Nat) (j i n k k' : Nat) (h : is_run data j i n k)
    (h' : is_run data j i n k') : k = k' := by
  rcases Nat.lt_trichotomy k k' with hlt | heq | hgt
  · exact absurd (h'.2.1 k hlt) (h.2.2 (by have := h'.1; omega))
  · exact heq
  · exact absurd (h.2.1 k' hgt) (h'.2.2 (by have := h.1; omega))

theorem match_len_loop_run (data : Nat → Nat) (j i n : Nat) (fuel : Nat) : ∀ k : Nat,
    k ≤ n → n - k ≤ fuel → (∀ m : Nat, m < k → data (j + m) = data (i + m)) →
    is_run data j i n (match_len_loop data j i n fuel k) := by
  induction fuel with
  | zero =>
    intro k hk hf hm
    have : k = n := by omega
    show is_run data j i n k
    exact ⟨hk, hm, fun h => by omega⟩
  | succ fuel ih =>
    intro k hk hf hm
    rw [match_len_loop]
    split
    · rename_i h
      apply ih (k + 1) (by omega) (by omega)
      intro m hmk
      by_cases e : m = k
      · rw [e]; exact h.2
      · exact hm m (by omega)
    · rename_i h
      refine ⟨hk, hm, fun hlt => ?_⟩
      intro e
      exact h ⟨hlt, e⟩

theorem run_len_is_run (data : Nat → Nat) (j i n : Nat) :
    is_run data j i n (run_len data j i n) :=
  match_len_loop_run data j i n n 0 (Nat.zero_le _) (by omega) (fun m hm => by omega)

theorem search_loop_inv (data : Nat → Nat) (bytes i min_j : Nat) (fuel : Nat) :
    ∀ (j len pos : Nat), j < i → j ≤ min_j + fuel → min_j ≤ j →
    search_inv data bytes i min_j j len pos →
    search_inv data bytes i min_j min_j
      (search_loop data bytes i min_j fuel j len pos).1
      (search_loop data bytes i min_j fuel j len pos).2 := by
  induction fuel with
  | zero =>
    intro j len pos hj hf hm hinv
    have e : j = min_j := by omega
    rw [e] at hinv
    exact hinv
  | succ fuel ih =>
    intro j len pos hj hf hm hinv
    rw [search_loop]
    split
    · rename_i hgt
      dsimp only
      have hrun : run_len data j i (bytes - i) =
          match_len_loop data j i (bytes - i) (bytes - i) 0 := rfl
      rw [← hrun]
      split
      · rename_i hk
        apply ih (j - 1) _ _ (by omega) (by omega) (by omega)
        refine ⟨?_, Or.inr ⟨by omega, by omega, by omega, by
          have : i - (i - j) = j := by omega
          rw [this]; exact hgt, by
          have : i - (i - j) = j := by omega
          rw [this]; omega, by
          have : i - (i - j) = j := by omega
          rw [this], ?_⟩⟩
        · intro c hc1 hc2
          by_cases e : c = j
          · rw [e]
          · have := hinv.1 c (by omega) hc2
            omega
        · intro c hc1 hc2
          have : i - (i - j) = j := by omega
          rw [this] at hc1
          have := hinv.1 c hc1 hc2
          omega
      · rename_i hk
        apply ih (j - 1) _ _ (by omega) (by omega) (by omega)
        refine ⟨?_, ?_⟩
        · intro c hc1 hc2
          by_cases e : c = j
          · rw [e]; omega
          · exact hinv.1 c (by omega) hc2
        · rcases hinv.2 with h | h
          · exact Or.inl h
          · exact Or.inr ⟨h.1, h.2.1, h.2.2.1, h.2.2.2.1, by omega, h.2.2.2.2.2.1,
              h.2.2.2.2.2.2⟩
    · rename_i hgt
      have e : j = min_j := by omega
      rw [e] at hinv
      exact hinv

theorem find_match_inv (data : Nat → Nat) (bytes window i : Nat) (hw : 0 < window) :
    search_inv data bytes i (i - window) (i - window)
      (find_match data bytes window i).1 (find_match data bytes window i).2 := by
  unfold find_match
  have hmin : (if i > window then i - window else 0) = i - window := by
    split
    · rfl
    · omega
  rw [hmin]
  split
  · rename_i h1
    apply search_loop_inv data bytes i (i - window) i (i - 1) 0 0 (by omega) (by omega)
      (by omega)
    exact ⟨fun c h1 h2 => by omega, Or.inl ⟨rfl, rfl⟩⟩
  · rename_i h1
    exact ⟨fun c h1 h2 => by omega, Or.inl ⟨rfl, rfl⟩⟩

theorem find_match_props (data : Nat → Nat) (bytes window i : Nat) (hw : 0 < window)
    (hm : (find_match data bytes window i).1 > 2) :
    3 ≤ (find_match data bytes window i).1 ∧
    (find_match data bytes window i).1 ≤ bytes - i ∧
    0 < (find_match data bytes window i).2 ∧
    (find_match data bytes window i).2 < window ∧
    (find_match data bytes window i).2 ≤ i ∧
    (i - window < i - (find_match data bytes window i).2 ∧
      i - (find_match data bytes window i).2 < i ∧
      is_run data (i - (find_match data bytes window i).2) i (bytes - i)
        (find_match data bytes window i).1) ∧
    (∀ j k : Nat, i - window < j → j < i → is_run data j i (bytes - i) k →
      k ≤ (find_match data bytes window i).1 ∧
      (k = (find_match data bytes window i).1 → (find_match data bytes window i).2 ≤ i - j)) := by
  have h := find_match_inv data bytes window i hw
  rcases h.2 with h0 | h1
  · omega
  · obtain ⟨a, b, c, d, _, f, g⟩ := h1
    have hr := run_len_is_run data (i - (find_match data bytes window i).2) i (bytes - i)
    rw [f] at hr
    refine ⟨by omega, hr.1, b, by omega, c, ⟨d, by omega, hr⟩, ?_⟩
    intro j k hj1 hj2 hk
    have e := is_run_unique data j i (bytes - i) k _ hk (run_len_is_run data j i (bytes - i))
    rw [e]
    refine ⟨h.1 j hj1 hj2, fun heq => ?_⟩
    by_contra hc
    have := g j (by omega) hj2
    omega

/-- The search at window `2 ^ window_bits`: at every cursor `i` where it returns `len > 2`,
`len` is at least 3 and at most `bytes - i`; `0 < pos < 2 ^ window_bits`; the candidate
`j = i - pos` lies in `(max(0, i - window), i)` and its common run with `data[i ..]`, capped
at `bytes - i`, is `len`; no candidate in that range has a longer run, and none with a run
of `len` is closer than `pos`. -/
theorem find_match_spec (data : Nat → Nat) (bytes window_bits i : Nat)
    (hm : (find_match data bytes (1 <<< window_bits) i).1 > 2) :
    3 ≤ (find_match data bytes (1 <<< window_bits) i).1 ∧
    (find_match data bytes (1 <<< window_bits) i).1 ≤ bytes - i ∧
    0 < (find_match data bytes (1 <<< window_bits) i).2 ∧
    (find_match data bytes (1 <<< window_bits) i).2 < 1 <<< window_bits ∧
    (i - 1 <<< window_bits < i - (find_match data bytes (1 <<< window_bits) i).2 ∧
      i - (find_match data bytes (1 <<< window_bits) i).2 < i ∧
      is_run data (i - (find_match data bytes (1 <<< window_bits) i).2) i (bytes - i)
        (find_match data bytes (1 <<< window_bits) i).1) ∧
    (∀ j k : Nat, i - 1 <<< window_bits < j → j < i → is_run data j i (bytes - i) k →
      k ≤ (find_match data bytes (1 <<< window_bits) i).1 ∧
      (k = (find_match data bytes (1 <<< window_bits) i).1 →
        (find_match data bytes (1 <<< window_bits) i).2 ≤ i - j)) := by
  have hw : 0 < 1 <<< window_bits := by
    rw [Nat.one_shiftLeft]
    exact Nat.pow_pos (by norm_num)
  have h := find_match_props data bytes (1 <<< window_bits) i hw hm
  exact ⟨h.1, h.2.1, h.2.2.1, h.2.2.2.1, h.2.2.2.2.2.1, h.2.2.2.2.2.2⟩

/-- In `abcabcabc` the search at `i = 4` finds length 5 at distance 3. -/
theorem find_match_spec_witness :
    find_match (fun k => 97 + k % 3) 9 (1 <<< 10) 4 = (5, 3) ∧
    is_run (fun k => 97 + k % 3) (4 - (find_match (fun k => 97 + k % 3) 9 (1 <<< 10) 4).2) 4
      (9 - 4) (find_match (fun k => 97 + k % 3) 9 (1 <<< 10) 4).1 :=
  ⟨by decide, (find_match_spec (fun k => 97 + k % 3) 9 10 4 (by decide)).2.2.2.2.1.2.2⟩

/-! ## The tokens `huff_compress` emits -/

theorem write_bit_error {σ : Type} (io : huff_io σ) (hq : quiet_io io) (w : bit_state σ)
    (bit : Nat) (he : w.lz.error = 0) : (huff_write_bit io w bit).lz.error = 0 := by
  unfold huff_write_bit
  dsimp only
  split
  · have e : (call_write io w.lz w.b64).error = 0 := by
      show (io.write w.lz.that w.lz.error w.b64).2 = 0
      rw [he]
      exact hq _ _
    rw [if_pos e]
    exact e
  · exact he

theorem write_bits_error {σ : Type} (io : huff_io σ) (hq : quiet_io io) (n : Nat) :
    ∀ (w : bit_state σ) (bits : Nat), w.lz.error = 0 →
    (huff_write_bits io n w bits).lz.error = 0 := by
  induction n with
  | zero => intro w bits he; exact he
  | succ n ih =>
    intro w bits he
    rw [huff_write_bits]
    exact ih _ _ (write_bit_error io hq w _ he)

theorem write_number_loop_error {σ : Type} (io : huff_io σ) (hq : quiet_io io)
    (base fuel : Nat) : ∀ (w : bit_state σ) (bits : Nat), w.lz.error = 0 →
    (huff_write_number_loop io base fuel w bits).lz.error = 0 := by
  induction fuel with
  | zero => intro w bits he; exact he
  | succ fuel ih =>
    intro w bits he
    rw [huff_write_number_loop]
    have h1 := write_bits_error io hq base w bits he
    by_cases hb : bits >>> base ≠ 0
    · simp only [if_pos hb]
      exact ih _ _ (write_bit_error io hq _ 1 h1)
    · simp only [if_neg hb]
      exact write_bit_error io hq _ 0 h1

theorem write_number_error {σ : Type} (io : huff_io σ) (hq : quiet_io io) (w : bit_state σ)
    (bits base : Nat) (he : w.lz.error = 0) : (huff_write_number io w bits base).lz.error = 0 :=
  write_number_loop_error io hq base 64 w bits he

/-- With a host that never fails, the loop of `huff_compress` writes the tokens of
`compress_tokens` one after the other and flushes. -/
theorem compress_loop_tokens {σ : Type} (io : huff_io σ) (hq : quiet_io io)
    (data : Nat → Nat) (bytes window base fuel : Nat) : ∀ (w : bit_state σ) (i : Nat),
    w.lz.error = 0 →
    compress_loop io data bytes window base fuel w i =
      huff_flush io (write_tokens io base w (compress_tokens data bytes window fuel i)) := by
  induction fuel with
  | zero => intro w i _; rfl
  | succ fuel ih =>
    intro w i he
    rw [compress_loop, compress_tokens]
    by_cases hi : i < bytes
    · rw [if_pos hi, if_pos hi]
      dsimp only
      by_cases hm : (find_match data bytes window i).1 > 2
      · rw [if_pos hm, if_pos hm]
        have e1 := write_bits_error io hq 2 w 3 he
        have e2 := write_number_error io hq _ (find_match data bytes window i).2 base e1
        have e3 := write_number_error io hq _ (find_match data bytes window i).1 base e2
        rw [if_neg (by simp [e1]), if_neg (by simp [e2]), if_neg (by simp [e3]), ih _ _ e3]
        rfl
      · rw [if_neg hm, if_neg hm]
        by_cases hb : data i < 128
        · rw [if_pos hb]
          have e1 := write_bit_error io hq w 0 he
          have e2 := write_bits_error io hq 7 _ (data i) e1
          rw [if_neg (by simp [e1]), if_neg (by simp [e2]), ih _ _ e2]
          show _ = huff_flush io (write_tokens io base (write_token io base w
            (lz_token.lit (data i))) _)
          rw [write_token, if_pos hb]
        · rw [if_neg hb]
          have e1 := write_bits_error io hq 2 w 2 he
          have e2 := write_bits_error io hq 7 _ (data i) e1
          rw [if_neg (by simp [e1]), if_neg (by simp [e2]), ih _ _ e2]
          show _ = huff_flush io (write_tokens io base (write_token io base w
            (lz_token.lit (data i))) _)
          rw [write_token, if_neg hb]
    · rw [if_neg hi, if_neg hi]
      rfl

theorem huff_compress_tokens {σ : Type} (io : huff_io σ) (hq : quiet_io io) (lz : huff_t σ)
    (data : Nat → Nat) (bytes window_bits : Nat) (he : lz.error = 0)
    (hw : 10 ≤ window_bits ∧ window_bits ≤ 20) :
    huff_compress io lz data bytes window_bits =
      huff_flush io (write_tokens io ((window_bits - 4) / 2) { lz := lz, b64 := 0, bp := 0 }
        (compress_tokens data bytes (1 <<< window_bits) bytes 0)) := by
  unfold huff_compress
  rw [if_neg (by simp [he]), if_neg (by omega)]
  exact compress_loop_tokens io hq data bytes _ _ bytes _ 0 he

theorem compress_tokens_done (data : Nat → Nat) (bytes window fuel i : Nat) (h : ¬ i < bytes) :
    compress_tokens data bytes window fuel i = [] := by
  cases fuel with
  | zero => rfl
  | succ fuel => rw [compress_tokens, if_neg h]

theorem run_len_const (b j i n : Nat) : run_len (fun _ => b) j i n = n :=
  is_run_unique (fun _ => b) j i n _ _ (run_len_is_run _ j i n)
    ⟨le_rfl, fun _ _ => rfl, fun h => absurd h (Nat.lt_irrefl n)⟩

/-- On a buffer of `n ≥ 5` copies of one byte the loop emits two literals and one match at
distance 1 that covers the rest. -/
theorem compress_tokens_const (b n window : Nat) (hn : 5 ≤ n) (hw : 2 < window) :
    compress_tokens (fun _ => b) n window n 0 =
      [lz_token.lit b, lz_token.lit b, lz_token.mat 1 (n - 2)] := by
  obtain ⟨k, rfl⟩ : ∃ k, n = k + 3 := ⟨n - 3, by omega⟩
  have m0 : find_match (fun _ => b) (k + 3) window 0 = (0, 0) := by
    unfold find_match
    rw [if_neg (by omega)]
  have m1 : find_match (fun _ => b) (k + 3) window 1 = (0, 0) := by
    unfold find_match
    rw [if_pos (by omega), if_neg (by omega), search_loop, if_neg (by omega)]
  have hr : match_len_loop (fun _ => b) 1 2 (k + 3 - 2) (k + 3 - 2) 0 = k + 3 - 2 :=
    run_len_const b 1 2 (k + 3 - 2)
  have m2 : find_match (fun _ => b) (k + 3) window 2 = (k + 3 - 2, 1) := by
    unfold find_match
    rw [if_pos (by omega), if_neg (by omega)]
    show search_loop (fun _ => b) (k + 3) 2 0 (1 + 1) 1 0 0 = _
    rw [search_loop, if_pos (by omega)]
    dsimp only
    rw [hr, if_pos (by omega)]
    show search_loop (fun _ => b) (k + 3) 2 0 (0 + 1) 0 (k + 3 - 2) 1 = _
    rw [search_loop, if_neg (by omega)]
  rw [compress_tokens, if_pos (by omega), m0, if_neg (by decide)]
  rw [compress_tokens, if_pos (by omega), m1, if_neg (by decide)]
  rw [compress_tokens, if_pos (by omega), m2, if_pos (by show k + 3 - 2 > 2; omega)]
  rw [compress_tokens_done _ _ _ _ _ (by show ¬ (0 + 1 + 1 + (k + 3 - 2) < k + 3); omega)]

/-- The list host never sets the error. -/
theorem quiet_list_io : quiet_io list_io := fun _ _ => rfl

/-- C16, as stated, fails: 1025 copies of one byte with `window_bits = 10` (window 1024)
give two literals and a single match token, of distance 1 and length 1023; the whole
output of `huff_compress` is the one word `34356052674`, which holds these three tokens. -/
theorem repeated_byte_one_match :
    compress_tokens (fun _ => 97) 1025 (1 <<< 10) 1025 0 =
      [lz_token.lit 97, lz_token.lit 97, lz_token.mat 1 1023] ∧
    List.countP lz_token.is_mat
      [lz_token.lit 97, lz_token.lit 97, lz_token.mat 1 1023] = 1 ∧
    (huff_compress list_io (list_session []) (fun _ => 97) 1025 10).that = [34356052674] := by
  have ht := compress_tokens_const 97 1025 (1 <<< 10) (by decide) (by decide)
  refine ⟨ht, by decide, ?_⟩
  rw [huff_compress_tokens list_io quiet_list_io (list_session []) (fun _ => 97) 1025 10 rfl
    (by decide), ht]
  set_option maxRecDepth 8192 in decide

/-- C16, amended. For every byte `b`, every `window_bits` in `[10, 20]` and every length
`n > 2 ^ window_bits`, the loop of `huff_compress` on `n` copies of `b` emits two literals
and exactly one match token, of distance `1 < 2 ^ window_bits` and length `n - 2`; with a
host that never fails these are the tokens `huff_compress` writes. -/
theorem repeated_byte_tokens {σ : Type} (io : huff_io σ) (hq : quiet_io io) (lz : huff_t σ)
    (he : lz.error = 0) (b window_bits n : Nat)
    (hw : 10 ≤ window_bits ∧ window_bits ≤ 20) (hn : 1 <<< window_bits < n) :
    compress_tokens (fun _ => b) n (1 <<< window_bits) n 0 =
      [lz_token.lit b, lz_token.lit b, lz_token.mat 1 (n - 2)] ∧
    1 < 1 <<< window_bits ∧
    huff_compress io lz (fun _ => b) n window_bits =
      huff_flush io (write_tokens io ((window_bits - 4) / 2) { lz := lz, b64 := 0, bp := 0 }
        [lz_token.lit b, lz_token.lit b, lz_token.mat 1 (n - 2)]) := by
  have h10 : 2 ^ 10 ≤ 1 <<< window_bits := by
    rw [Nat.one_shiftLeft]
    exact Nat.pow_le_pow_right (by norm_num) hw.1
  have h1024 : (2 : Nat) ^ 10 = 1024 := by norm_num
  have ht := compress_tokens_const b n (1 <<< window_bits) (by omega) (by omega)
  refine ⟨ht, by omega, ?_⟩
  rw [huff_compress_tokens io hq lz _ n window_bits he hw, ht]

/-- Witness for C16, amended: 1025 copies of `a`, `window_bits = 10`. -/
theorem repeated_byte_tokens_witness :
    compress_tokens (fun _ => 97) 1025 (1 <<< 10) 1025 0 =
      [lz_token.lit 97, lz_token.lit 97, lz_token.mat 1 (1025 - 2)] :=
  (repeated_byte_tokens list_io quiet_list_io (list_session []) rfl 97 10 1025 (by decide)
    (by decide)).1

/-- Every match token of the loop of `huff_compress` carries the `(len, pos)` the search
returned at the cursor where the token is emitted, and the search returned `len > 2`. -/
theorem compress_tokens_matches (data : Nat → Nat) (bytes window : Nat) (fuel : Nat) :
    ∀ i c pos len : Nat,
    (c, lz_token.mat pos len) ∈ cursor_tokens i (compress_tokens data bytes window fuel i) →
    c < bytes ∧ (find_match data bytes window c).1 > 2 ∧
      pos = (find_match data bytes window c).2 ∧ len = (find_match data bytes window c).1 := by
  induction fuel with
  | zero =>
    intro i c pos len h
    simp [compress_tokens, cursor_tokens] at h
  | succ fuel ih =>
    intro i c pos len h
    rw [compress_tokens] at h
    by_cases hlt : i < bytes
    · rw [if_pos hlt] at h
      by_cases hm : (find_match data bytes window i).1 > 2
      · rw [if_pos hm, cursor_tokens, List.mem_cons] at h
        rcases h with h | h
        · have e1 := (Prod.mk.inj h).1
          have e2 := lz_token.mat.inj (Prod.mk.inj h).2
          rw [e1]
          exact ⟨hlt, hm, e2.1, e2.2⟩
        · exact ih _ c pos len h
      · rw [if_neg hm, cursor_tokens, List.mem_cons] at h
        rcases h with h | h
        · exact absurd (Prod.mk.inj h).2 (by simp)
        · exact ih _ c pos len h
    · rw [if_neg hlt] at h
      simp [cursor_tokens] at h

/-- C18. For every buffer, every `window_bits` in `[10, 20]` and every host whose write
callback sets no error, `huff_compress` writes the tokens of `compress_tokens`, and for
every match token `(pos, len)` among them, emitted at cursor `i`: `(len, pos)` is what the
search returned at `i`; `len` is at least 3 and at most `bytes - i`; `0 < pos < 2 ^
window_bits`; the candidate `j = i - pos` lies in `(max(0, i - window), i)` and its common
run with `data[i ..]`, capped at `bytes - i`, is `len`; no candidate in that range has a
longer run, and none with a run of `len` is closer than `pos`. -/
theorem compress_match_spec {σ : Type} (io : huff_io σ) (hq : quiet_io io) (lz : huff_t σ)
    (he : lz.error = 0) (data : Nat → Nat) (bytes window_bits : Nat)
    (hw : 10 ≤ window_bits ∧ window_bits ≤ 20) :
    huff_compress io lz data bytes window_bits =
      huff_flush io (write_tokens io ((window_bits - 4) / 2) { lz := lz, b64 := 0, bp := 0 }
        (compress_tokens data bytes (1 <<< window_bits) bytes 0)) ∧
    ∀ i pos len : Nat,
      (i, lz_token.mat pos len) ∈
        cursor_tokens 0 (compress_tokens data bytes (1 <<< window_bits) bytes 0) →
      i < bytes ∧ (len, pos) = find_match data bytes (1 <<< window_bits) i ∧
      3 ≤ len ∧ len ≤ bytes - i ∧ 0 < pos ∧ pos < 1 <<< window_bits ∧
      i - 1 <<< window_bits < i - pos ∧ i - pos < i ∧
      is_run data (i - pos) i (bytes - i) len ∧
      ∀ j k : Nat, i - 1 <<< window_bits < j → j < i → is_run data j i (bytes - i) k →
        k ≤ len ∧ (k = len → pos ≤ i - j) := by
  have hwin : 0 < 1 <<< window_bits := by
    rw [Nat.one_shiftLeft]
    exact Nat.pow_pos (by norm_num)
  refine ⟨huff_compress_tokens io hq lz data bytes window_bits he hw, ?_⟩
  intro i pos len hmem
  obtain ⟨hlt, hm, e1, e2⟩ :=
    compress_tokens_matches data bytes (1 <<< window_bits) bytes 0 i pos len hmem
  have p := find_match_props data bytes (1 <<< window_bits) i hwin hm
  rw [← e1, ← e2] at p
  exact ⟨hlt, by rw [e1, e2], p.1, p.2.1, p.2.2.1, p.2.2.2.1, p.2.2.2.2.2.1.1,
    p.2.2.2.2.2.1.2.1, p.2.2.2.2.2.1.2.2, p.2.2.2.2.2.2⟩

/-- Witness for C18: `huff_compress` on `abcabcabc` emits four literals (the candidate
`j = 0` is never tried) and, at cursor 4, the match of length 5 at distance 3. -/
theorem compress_match_spec_witness :
    compress_tokens (fun k => 97 + k % 3) 9 (1 <<< 10) 9 0 =
      [lz_token.lit 97, lz_token.lit 98, lz_token.lit 99, lz_token.lit 97,
        lz_token.mat 3 5] ∧
    (5, 3) = find_match (fun k => 97 + k % 3) 9 (1 <<< 10) 4 ∧
    is_run (fun k => 97 + k % 3) (4 - 3) 4 (9 - 4) 5 ∧
    (huff_compress list_io (list_session []) (fun k => 97 + k % 3) 9 10).error = 0 :=
  ⟨by decide,
   ((compress_match_spec list_io quiet_list_io (list_session []) rfl (fun k => 97 + k % 3) 9 10
      (by decide)).2 4 3 5 (by decide)).2.1,
   ((compress_match_spec list_io quiet_list_io (list_session []) rfl (fun k => 97 + k % 3) 9 10
      (by decide)).2 4 3 5 (by decide)).2.2.2.2.2.2.2.2.1,
   by decide⟩

/-! ## The bit writer over the list host -/

theorem words_bits_append (ws : List Nat) (w : Nat) :
    words_bits (ws ++ [w]) = words_bits ws ++ low_bits w 64 := by
  induction ws with
  | nil => simp [words_bits]
  | cons a ws ih => simp [words_bits, ih]

theorem low_bits_succ (w n : Nat) : low_bits w (n + 1) = low_bits w n ++ [w.testBit n] := by
  simp [low_bits, List.range_succ]

theorem low_bits_succ_head (w n : Nat) :
    low_bits w (n + 1) = w.testBit 0 :: low_bits (w >>> 1) n := by
  unfold low_bits
  rw [List.range_succ_eq_map, List.map_cons, List.map_map]
  congr 1
  apply List.map_congr_left
  intro k _
  simp [Nat.testBit_shiftRight, Nat.add_comm]

theorem low_bits_congr (a b n : Nat) (h : ∀ k : Nat, k < n → a.testBit k = b.testBit k) :
    low_bits a n = low_bits b n := by
  unfold low_bits
  apply List.map_congr_left
  intro k hk
  exact h k (List.mem_range.1 hk)

theorem low_bits_length (w n : Nat) : (low_bits w n).length = n := by
  simp [low_bits]

theorem testBit_small (bit k : Nat) (hb : bit ≤ 1) (hk : 0 < k) : bit.testBit k = false := by
  apply Nat.testBit_lt_two_pow
  have : 2 ^ 1 ≤ 2 ^ k := Nat.pow_le_pow_right (by norm_num) hk
  omega

theorem testBit_zero_small (bit : Nat) (hb : bit ≤ 1) : bit.testBit 0 = decide (bit = 1) := by
  rw [Nat.testBit_zero]
  congr 1
  apply propext
  omega

/-- One bit written: the bit sequence of the writer grows by that bit. -/
theorem write_bit_bits (w : bit_state (List Nat)) (bit : Nat) (hw : wr_ok w) (hb : bit ≤ 1) :
    wr_ok (huff_write_bit list_io w bit) ∧
    wbits (huff_write_bit list_io w bit) = wbits w ++ [decide (bit = 1)] ∧
    0 < (huff_write_bit list_io w bit).bp ∧
    (huff_write_bit list_io w bit).lz.calls.length + w.lz.that.length =
      w.lz.calls.length + (huff_write_bit list_io w bit).lz.that.length := by
  by_cases h64 : w.bp = 64
  · have e : huff_write_bit list_io w bit =
        { lz := { that := w.lz.that ++ [w.b64], error := 0,
                  written := (w.lz.written + 8) % 2 ^ 64,
                  calls := w.lz.calls ++ [huff_call.write w.lz.error w.b64] },
          b64 := 0 ||| (bit <<< 0) % 2 ^ 64, bp := (0 + 1) % 2 ^ 32 } := by
      unfold huff_write_bit
      dsimp only
      rw [if_pos ⟨h64, hw.error⟩]
      have e1 : (call_write list_io w.lz w.b64).error = 0 := hw.error
      rw [if_pos e1]
      show _ = _
      simp only [add_written, call_write, list_io, hw.error]
    have hbit : 0 ||| (bit <<< 0) % 2 ^ 64 = bit := by
      rw [Nat.zero_or, Nat.shiftLeft_zero, Nat.mod_eq_of_lt (by omega)]
    rw [e, hbit]
    have hbp : (0 + 1) % 2 ^ 32 = 1 := by decide
    rw [hbp]
    refine ⟨⟨rfl, by show 1 ≤ 64; omega, ?_⟩, ?_, by show 0 < 1; omega, ?_⟩
    · intro k hk
      have hk' : 1 ≤ k := hk
      exact testBit_small bit k hb (by omega)
    · show words_bits (w.lz.that ++ [w.b64]) ++ low_bits bit 1 = _
      have e1 : low_bits bit 1 = [decide (bit = 1)] := by
        rw [low_bits_succ, testBit_zero_small bit hb]
        rfl
      rw [words_bits_append, wbits, h64, e1]
    · show (w.lz.calls ++ [huff_call.write w.lz.error w.b64]).length + w.lz.that.length =
        w.lz.calls.length + (w.lz.that ++ [w.b64]).length
      simp only [List.length_append, List.length_singleton]
      omega
  · have hlt : w.bp < 64 := by have := hw.bp_le; omega
    have hsh : bit <<< w.bp < 2 ^ 64 := by
      rw [Nat.shiftLeft_eq]
      have : 2 ^ w.bp ≤ 2 ^ 63 := Nat.pow_le_pow_right (by norm_num) (by omega)
      have : bit * 2 ^ w.bp ≤ 1 * 2 ^ w.bp := Nat.mul_le_mul_right _ hb
      have h63 : (2 : Nat) ^ 63 < 2 ^ 64 := by norm_num
      omega
    have e : huff_write_bit list_io w bit =
        { lz := w.lz, b64 := w.b64 ||| bit <<< w.bp, bp := w.bp + 1 } := by
      unfold huff_write_bit
      dsimp only
      rw [if_neg (fun h => h64 h.1), Nat.mod_eq_of_lt hsh, Nat.mod_eq_of_lt (by omega)]
    have tb : ∀ k : Nat, (w.b64 ||| bit <<< w.bp).testBit k =
        if k < w.bp then w.b64.testBit k else if k = w.bp then decide (bit = 1) else false := by
      intro k
      rw [Nat.testBit_or, Nat.testBit_shiftLeft]
      by_cases h1 : k < w.bp
      · rw [if_pos h1]
        have : ¬ k ≥ w.bp := by omega
        simp [this]
      · rw [if_neg h1, hw.clean k (by omega)]
        by_cases h2 : k = w.bp
        · rw [if_pos h2, h2]
          simp [testBit_zero_small bit hb]
        · rw [if_neg h2]
          have : k ≥ w.bp := by omega
          simp [this, testBit_small bit (k - w.bp) hb (by omega)]
    rw [e]
    refine ⟨⟨hw.error, by show w.bp + 1 ≤ 64; omega, ?_⟩, ?_, by show 0 < w.bp + 1; omega, rfl⟩
    · intro k hk
      have hk' : w.bp + 1 ≤ k := hk
      show (w.b64 ||| bit <<< w.bp).testBit k = false
      rw [tb, if_neg (by omega), if_neg (by omega)]
    · show words_bits w.lz.that ++ low_bits (w.b64 ||| bit <<< w.bp) (w.bp + 1) = _
      rw [low_bits_succ, tb w.bp, if_neg (by omega), if_pos rfl, wbits, List.append_assoc]
      congr 2
      apply low_bits_congr
      intro k hk
      rw [tb, if_pos hk]

theorem write_bits_bits (n : Nat) : ∀ (w : bit_state (List Nat)) (v : Nat), wr_ok w →
    wr_ok (huff_write_bits list_io n w v) ∧
    wbits (huff_write_bits list_io n w v) = wbits w ++ low_bits v n ∧
    (0 < n → 0 < (huff_write_bits list_io n w v).bp) ∧
    (huff_write_bits list_io n w v).lz.calls.length + w.lz.that.length =
      w.lz.calls.length + (huff_write_bits list_io n w v).lz.that.length := by
  induction n with
  | zero =>
    intro w v hw
    exact ⟨hw, by simp [huff_write_bits, low_bits], fun h => absurd h (by decide), rfl⟩
  | succ n ih =>
    intro w v hw
    rw [huff_write_bits]
    have hb : v &&& 1 ≤ 1 := by rw [Nat.and_one_is_mod]; omega
    have h1 := write_bit_bits w (v &&& 1) hw hb
    have h2 := ih (huff_write_bit list_io w (v &&& 1)) (v >>> 1) h1.1
    refine ⟨h2.1, ?_, fun _ => ?_, by omega⟩
    · rw [h2.2.1, h1.2.1, low_bits_succ_head, List.append_assoc]
      congr 2
      rw [Nat.and_one_is_mod, Nat.testBit_zero]
      rfl
    · by_cases hn : 0 < n
      · exact h2.2.2.1 hn
      · have : n = 0 := by omega
        subst this
        exact h1.2.2.1

theorem write_number_loop_bits (base fuel : Nat) : ∀ (w : bit_state (List Nat)) (v : Nat),
    wr_ok w →
    wr_ok (huff_write_number_loop list_io base fuel w v) ∧
    wbits (huff_write_number_loop list_io base fuel w v) = wbits w ++ number_bits base fuel v ∧
    (0 < fuel → 0 < (huff_write_number_loop list_io base fuel w v).bp) ∧
    (huff_write_number_loop list_io base fuel w v).lz.calls.length + w.lz.that.length =
      w.lz.calls.length + (huff_write_number_loop list_io base fuel w v).lz.that.length := by
  induction fuel with
  | zero =>
    intro w v hw
    exact ⟨hw, by simp [huff_write_number_loop, number_bits], fun h => absurd h (by decide),
      rfl⟩
  | succ fuel ih =>
    intro w v hw
    rw [huff_write_number_loop, number_bits]
    have h1 := write_bits_bits base w v hw
    by_cases hb : v >>> base ≠ 0
    · simp only [if_pos hb]
      have h2 := write_bit_bits (huff_write_bits list_io base w v) 1 h1.1 (by decide)
      have h3 := ih (huff_write_bit list_io (huff_write_bits list_io base w v) 1) (v >>> base)
        h2.1
      refine ⟨h3.1, ?_, fun _ => ?_, by omega⟩
      · rw [h3.2.1, h2.2.1, h1.2.1]
        simp [hb]
      · by_cases hf : 0 < fuel
        · exact h3.2.2.1 hf
        · have : fuel = 0 := by omega
          subst this
          exact h2.2.2.1
    · simp only [if_neg hb]
      have h2 := write_bit_bits (huff_write_bits list_io base w v) 0 h1.1 (by decide)
      refine ⟨h2.1, ?_, fun _ => h2.2.2.1, by omega⟩
      rw [h2.2.1, h1.2.1]
      simp [hb]

/-! ## The bit reader over the list host -/

theorem high_bits_cons (w bp : Nat) (h : bp < 64) :
    high_bits w bp = w.testBit bp :: high_bits w (bp + 1) := by
  unfold high_bits
  have e : 64 - bp = (64 - (bp + 1)) + 1 := by omega
  rw [e, List.range_succ_eq_map, List.map_cons, List.map_map]
  congr 1
  apply List.map_congr_left
  intro k _
  show w.testBit (bp + (k + 1)) = w.testBit (bp + 1 + k)
  congr 1
  omega

theorem high_bits_end (w : Nat) : high_bits w 64 = [] := rfl

theorem high_bits_zero (w : Nat) : high_bits w 0 = low_bits w 64 := by
  unfold high_bits low_bits
  apply List.map_congr_left
  intro k _
  rw [Nat.zero_add]

theorem high_bits_mod (w bp : Nat) : high_bits (w % 2 ^ 64) bp = high_bits w bp := by
  unfold high_bits
  apply List.map_congr_left
  intro k hk
  have := List.mem_range.1 hk
  rw [Nat.testBit_mod_two_pow]
  simp
  intro h
  omega

theorem bit_of_testBit (w bp : Nat) : (w >>> bp) &&& 1 = (w.testBit bp).toNat := by
  rw [Nat.and_one_is_mod, Nat.shiftRight_eq_div_pow, Nat.toNat_testBit]

/-- One bit read: the reader returns the first bit before it and moves past it; a word
is taken from the host exactly when `bp = 0`. -/
theorem read_bit_bits (r : bit_state (List Nat)) (b : Bool) (rest : List Bool) (hr : rd_ok r)
    (hb : rbits r = b :: rest) :
    (huff_read_bit list_io r).1 = b.toNat ∧ rd_ok (huff_read_bit list_io r).2 ∧
    rbits (huff_read_bit list_io r).2 = rest ∧
    (huff_read_bit list_io r).2.lz.calls.length + (huff_read_bit list_io r).2.lz.that.length =
      r.lz.calls.length + r.lz.that.length := by
  by_cases h0 : r.bp = 0
  · rw [rbits, if_pos h0, List.nil_append] at hb
    cases hws : r.lz.that with
    | nil => rw [hws] at hb; exact absurd hb (by simp [words_bits])
    | cons w ws =>
      rw [hws, words_bits, ← high_bits_zero, high_bits_cons w 0 (by omega),
        List.cons_append] at hb
      have hb1 := (List.cons.inj hb).1
      have hb2 := (List.cons.inj hb).2
      have e : huff_read_bit list_io r =
          (((w % 2 ^ 64) >>> 0) &&& 1,
           { lz := { that := ws, error := r.lz.error, written := r.lz.written,
                     calls := r.lz.calls ++ [huff_call.read r.lz.error (w % 2 ^ 64)] },
             b64 := w % 2 ^ 64, bp := 1 }) := by
        unfold huff_read_bit
        dsimp only
        rw [if_pos h0]
        simp only [call_read, list_io, hws, h0, List.headD_cons, List.tail_cons]
        rfl
      rw [e]
      refine ⟨?_, ⟨hr.error, by show 1 < 64; omega⟩, ?_, ?_⟩
      · show ((w % 2 ^ 64) >>> 0) &&& 1 = b.toNat
        rw [bit_of_testBit, Nat.testBit_mod_two_pow, ← hb1]
        simp
      · show (if (1 : Nat) = 0 then [] else high_bits (w % 2 ^ 64) 1) ++ words_bits ws = rest
        rw [if_neg (by decide), high_bits_mod]
        exact hb2
      · show (r.lz.calls ++ [huff_call.read r.lz.error (w % 2 ^ 64)]).length + ws.length =
          r.lz.calls.length + (w :: ws).length
        rw [List.length_append, List.length_cons, List.length_cons, List.length_nil]
        omega
  · have hlt := hr.bp_lt
    rw [rbits, if_neg h0, high_bits_cons r.b64 r.bp hlt, List.cons_append] at hb
    have hb1 := (List.cons.inj hb).1
    have hb2 := (List.cons.inj hb).2
    have e : huff_read_bit list_io r =
        ((r.b64 >>> r.bp) &&& 1,
         { lz := r.lz, b64 := r.b64, bp := if r.bp = 63 then 0 else r.bp + 1 }) := by
      unfold huff_read_bit
      dsimp only
      rw [if_neg h0]
    rw [e]
    refine ⟨by show (r.b64 >>> r.bp) &&& 1 = _; rw [bit_of_testBit, hb1], ⟨hr.error, ?_⟩, ?_,
      rfl⟩
    · show (if r.bp = 63 then 0 else r.bp + 1) < 64
      split <;> omega
    · show (if (if r.bp = 63 then 0 else r.bp + 1) = 0 then []
        else high_bits r.b64 (if r.bp = 63 then 0 else r.bp + 1)) ++ words_bits r.lz.that = rest
      by_cases h63 : r.bp = 63
      · rw [if_pos h63, if_pos rfl]
        rw [h63] at hb2
        exact hb2
      · rw [if_neg h63, if_neg (by omega)]
        exact hb2

theorem read_bits_loop_bits (n fuel : Nat) : ∀ (r : bit_state (List Nat)) (i acc : Nat)
    (bs rest : List Bool), rd_ok r → rbits r = bs ++ rest → bs.length = n - i → i ≤ n →
    n ≤ 64 → n - i ≤ fuel → acc < 2 ^ i →
    (huff_read_bits_loop list_io n fuel r i acc).1 = acc + 2 ^ i * bits_val bs ∧
    rd_ok (huff_read_bits_loop list_io n fuel r i acc).2 ∧
    rbits (huff_read_bits_loop list_io n fuel r i acc).2 = rest ∧
    (huff_read_bits_loop list_io n fuel r i acc).2.lz.calls.length +
        (huff_read_bits_loop list_io n fuel r i acc).2.lz.that.length =
      r.lz.calls.length + r.lz.that.length := by
  induction fuel with
  | zero =>
    intro r i acc bs rest hr hb hl hi hn hf ha
    have : bs = [] := List.length_eq_zero.1 (by omega)
    subst this
    exact ⟨by simp [huff_read_bits_loop, bits_val], hr, by simpa using hb, rfl⟩
  | succ fuel ih =>
    intro r i acc bs rest hr hb hl hi hn hf ha
    rw [huff_read_bits_loop]
    by_cases hlt : i < n
    · rw [if_pos ⟨hlt, hr.error⟩]
      cases bs with
      | nil => simp at hl; omega
      | cons b bs =>
        rw [List.cons_append] at hb
        have h1 := read_bit_bits r b (bs ++ rest) hr hb
        have hpow : 2 ^ i * b.toNat < 2 ^ 64 := by
          have : 2 ^ i ≤ 2 ^ 63 := Nat.pow_le_pow_right (by norm_num) (by omega)
          have : b.toNat ≤ 1 := Bool.toNat_le b
          have h63 : (2 : Nat) ^ 63 < 2 ^ 64 := by norm_num
          have : 2 ^ i * b.toNat ≤ 2 ^ i * 1 := Nat.mul_le_mul_left _ this
          omega
        have hacc : acc ||| ((huff_read_bit list_io r).1 <<< i) % 2 ^ 64 =
            acc + 2 ^ i * b.toNat := by
          rw [h1.1, Nat.shiftLeft_eq, Nat.mul_comm, Nat.mod_eq_of_lt hpow, Nat.lor_comm,
            ← Nat.mul_add_lt_is_or ha, Nat.add_comm]
        rw [hacc]
        have hlen : bs.length = n - (i + 1) := by
          simp only [List.length_cons] at hl
          omega
        have hacc2 : acc + 2 ^ i * b.toNat < 2 ^ (i + 1) := by
          have : b.toNat ≤ 1 := Bool.toNat_le b
          have : 2 ^ i * b.toNat ≤ 2 ^ i * 1 := Nat.mul_le_mul_left _ this
          rw [pow_succ]
          omega
        have h2 := ih (huff_read_bit list_io r).2 (i + 1) (acc + 2 ^ i * b.toNat) bs rest
          h1.2.1 h1.2.2.1 hlen (by omega) hn (by omega) hacc2
        refine ⟨?_, h2.2.1, h2.2.2.1, by omega⟩
        rw [h2.1, bits_val, pow_succ]
        ring
    · have : bs = [] := List.length_eq_zero.1 (by omega)
      subst this
      rw [if_neg (fun h => hlt h.1)]
      exact ⟨by simp [bits_val], hr, by simpa using hb, rfl⟩

theorem read_bits_bits (r : bit_state (List Nat)) (n : Nat) (bs rest : List Bool)
    (hr : rd_ok r) (hb : rbits r = bs ++ rest) (hl : bs.length = n) (hn : n ≤ 64) :
    (huff_read_bits list_io r n).1 = bits_val bs ∧ rd_ok (huff_read_bits list_io r n).2 ∧
    rbits (huff_read_bits list_io r n).2 = rest ∧
    (huff_read_bits list_io r n).2.lz.calls.length +
        (huff_read_bits list_io r n).2.lz.that.length =
      r.lz.calls.length + r.lz.that.length := by
  have h := read_bits_loop_bits n n r 0 0 bs rest hr hb (by omega) (by omega) hn (by omega)
    (by norm_num)
  refine ⟨?_, h.2.1, h.2.2.1, h.2.2.2⟩
  show (huff_read_bits_loop list_io n n r 0 0).1 = _
  rw [h.1]
  simp

theorem bits_val_low_bits (v n : Nat) : bits_val (low_bits v n) = v % 2 ^ n := by
  induction n generalizing v with
  | zero => simp [low_bits, bits_val, Nat.mod_one]
  | succ n ih =>
    rw [low_bits_succ_head, bits_val, ih, Nat.shiftRight_eq_div_pow, Nat.testBit_zero]
    have h2 : v % 2 ^ (n + 1) = v % 2 + 2 * (v / 2 % 2 ^ n) := by
      rw [pow_succ, Nat.mul_comm, Nat.mod_mul]
    rw [h2, pow_one]
    congr 1
    rcases Nat.mod_two_eq_zero_or_one v with h | h <;> simp [h]

theorem read_number_loop_bits (base : Nat) (hb2 : base ≤ 64) (f : Nat) :
    ∀ (rf : Nat) (r : bit_state (List Nat)) (acc shift v : Nat) (rest : List Bool),
    rd_ok r → rbits r = number_bits base f v ++ rest → v < 2 ^ (base * f) → 1 ≤ f → f ≤ rf →
    acc < 2 ^ shift → acc + 2 ^ shift * v < 2 ^ 64 → shift + base * f < 2 ^ 32 →
    ∃ r' : bit_state (List Nat),
      huff_read_number_loop list_io base rf r acc shift = some (acc + 2 ^ shift * v, r') ∧
      rd_ok r' ∧ rbits r' = rest ∧
      r'.lz.calls.length + r'.lz.that.length = r.lz.calls.length + r.lz.that.length := by
  induction f with
  | zero => intro rf r acc shift v rest _ _ _ h1; omega
  | succ f ih =>
    intro rf r acc shift v rest hr hbits hv _ hrf hacc htot hsh
    obtain ⟨rf', rfl⟩ : ∃ k, rf = k + 1 := ⟨rf - 1, by omega⟩
    rw [number_bits, List.append_assoc, List.append_assoc] at hbits
    have x := read_bits_bits r base (low_bits v base) _ hr hbits (low_bits_length v base) hb2
    rw [bits_val_low_bits] at x
    have hxb := x.2.2.1
    rw [List.singleton_append] at hxb
    have y := read_bit_bits (huff_read_bits list_io r base).2 _ _ x.2.1 hxb
    have hchunk : v % 2 ^ base < 2 ^ base := Nat.mod_lt _ (Nat.pow_pos (by norm_num))
    have hdecomp : v = v % 2 ^ base + 2 ^ base * (v / 2 ^ base) := (Nat.mod_add_div v _).symm
    have hle : 2 ^ shift * (v % 2 ^ base) ≤ 2 ^ shift * v :=
      Nat.mul_le_mul_left _ (Nat.mod_le _ _)
    have hbits1 : acc ||| ((huff_read_bits list_io r base).1 <<< shift) % 2 ^ 64 =
        acc + 2 ^ shift * (v % 2 ^ base) := by
      rw [x.1, Nat.shiftLeft_eq, Nat.mul_comm, Nat.mod_eq_of_lt (by omega), Nat.lor_comm,
        ← Nat.mul_add_lt_is_or hacc, Nat.add_comm]
    have hshift : (shift + base) % 2 ^ 32 = shift + base := by
      apply Nat.mod_eq_of_lt
      have : base ≤ base * (f + 1) := Nat.le_mul_of_pos_right _ (by omega)
      omega
    rw [huff_read_number_loop]
    simp only [hbits1, hshift]
    by_cases hc : v >>> base ≠ 0
    · have hy1 : (huff_read_bit list_io (huff_read_bits list_io r base).2).1 = 1 := by
        rw [y.1]; simp [hc]
      rw [if_pos ⟨by rw [hy1]; decide, y.2.1.error⟩]
      have hyb := y.2.2.1
      rw [if_pos hc] at hyb
      have hv' : v >>> base < 2 ^ (base * f) := by
        rw [Nat.shiftRight_eq_div_pow]
        apply Nat.div_lt_of_lt_mul
        rw [← pow_add]
        have : base + base * f = base * (f + 1) := by ring
        rw [this]
        exact hv
      have hf1 : 1 ≤ f := by
        by_contra hcon
        have : f = 0 := by omega
        subst this
        simp at hv'
        exact hc hv'
      have hacc' : acc + 2 ^ shift * (v % 2 ^ base) < 2 ^ (shift + base) := by
        have h1 : 2 ^ shift * (v % 2 ^ base + 1) ≤ 2 ^ shift * 2 ^ base :=
          Nat.mul_le_mul_left _ hchunk
        rw [pow_add]
        rw [Nat.mul_add, Nat.mul_one] at h1
        omega
      have hsplit : acc + 2 ^ shift * (v % 2 ^ base) + 2 ^ (shift + base) * (v >>> base) =
          acc + 2 ^ shift * v := by
        rw [Nat.shiftRight_eq_div_pow, pow_add, Nat.add_assoc, Nat.mul_assoc, ← Nat.mul_add,
          ← hdecomp]
      have h := ih rf' (huff_read_bit list_io (huff_read_bits list_io r base).2).2
        (acc + 2 ^ shift * (v % 2 ^ base)) (shift + base) (v >>> base) rest y.2.1 hyb hv' hf1
        (by omega) hacc' (by rw [hsplit]; exact htot)
        (by
          have : base * (f + 1) = base + base * f := by ring
          omega)
      obtain ⟨r', e, ok, rb, cnt⟩ := h
      refine ⟨r', ?_, ok, rb, by omega⟩
      rw [e, hsplit]
    · have hy1 : (huff_read_bit list_io (huff_read_bits list_io r base).2).1 = 0 := by
        rw [y.1]; simp [hc]
      rw [if_neg (fun h => h.1 hy1)]
      have hyb := y.2.2.1
      rw [if_neg hc, List.nil_append] at hyb
      have hsmall : v % 2 ^ base = v := by
        have h0 : v / 2 ^ base = 0 := by
          rw [← Nat.shiftRight_eq_div_pow]
          exact not_not.1 hc
        rw [h0, Nat.mul_zero, Nat.add_zero] at hdecomp
        exact hdecomp.symm
      refine ⟨_, ?_, y.2.1, hyb, by omega⟩
      rw [hsmall]

/-- The value `huff_read_number` returns over the bits `huff_write_number` emits. -/
theorem read_number_bits (r : bit_state (List Nat)) (v base : Nat) (rest : List Bool)
    (hr : rd_ok r) (hv : v < 2 ^ 64) (hb1 : 1 ≤ base) (hb2 : base ≤ 64) (rf : Nat)
    (hrf : 64 ≤ rf) (hbits : rbits r = number_bits base 64 v ++ rest) :
    ∃ r' : bit_state (List Nat),
      huff_read_number list_io rf r base = some (v, r') ∧ rd_ok r' ∧ rbits r' = rest ∧
      r'.lz.calls.length + r'.lz.that.length = r.lz.calls.length + r.lz.that.length := by
  have hv' : v < 2 ^ (base * 64) :=
    lt_of_lt_of_le hv (Nat.pow_le_pow_right (by norm_num)
      (Nat.le_mul_of_pos_left 64 (by omega)))
  have h := read_number_loop_bits base hb2 64 rf r 0 0 v rest hr hbits hv' (by norm_num)
    hrf (by norm_num) (by simpa using hv)
    (by
      have : base * 64 ≤ 64 * 64 := Nat.mul_le_mul_right _ hb2
      have e32 : (2 : Nat) ^ 32 = 4294967296 := by norm_num
      omega)
  obtain ⟨r', e, ok, rb, cnt⟩ := h
  refine ⟨r', ?_, ok, rb, cnt⟩
  show huff_read_number_loop list_io base rf r 0 0 = _
  rw [e]
  simp

/-- C20. For every value `v < 2 ^ 64` and every `base` in `3 .. 8`: when a reader over the
list host has before it the bits that `huff_write_number(v, base)` appended to the stream
of a writer (whatever the bit positions `bp` of the writer and of the reader), followed by
any bits `rest`, `huff_read_number(base)` returns `v`, sets no error and leaves exactly
`rest` before the reader. -/
theorem number_roundtrip (w r : bit_state (List Nat)) (v base : Nat) (code rest : List Bool)
    (hw : wr_ok w) (hr : rd_ok r) (hv : v < 2 ^ 64) (hb : 3 ≤ base ∧ base ≤ 8)
    (hcode : wbits (huff_write_number list_io w v base) = wbits w ++ code)
    (hrest : rbits r = code ++ rest) :
    ∃ r' : bit_state (List Nat),
      huff_read_number list_io 64 r base = some (v, r') ∧ r'.lz.error = 0 ∧
      rbits r' = rest := by
  have hwr := (write_number_loop_bits base 64 w v hw).2.1
  have e : code = number_bits base 64 v := by
    have h2 : wbits (huff_write_number list_io w v base) = wbits w ++ number_bits base 64 v :=
      hwr
    rw [hcode] at h2
    exact List.append_cancel_left h2
  rw [e] at hrest
  obtain ⟨r', h1, ok, rb, _⟩ := read_number_bits r v base rest hr hv (by omega) (by omega) 64
    le_rfl hrest
  exact ⟨r', h1, ok.error, rb⟩

/-- Witness for C20: `v = 1000`, `base = 3`, written from bit position 62 of a word (the
16 bits of the code run over the word boundary) and read from bit position 0. -/
theorem number_roundtrip_witness :
    ∃ r' : bit_state (List Nat),
      huff_read_number list_io 64 { lz := list_session [8152], b64 := 0, bp := 0 } 3 =
        some (1000, r') ∧ r'.lz.error = 0 ∧ rbits r' = List.replicate 48 false :=
  number_roundtrip { lz := list_session [], b64 := 0, bp := 62 }
    { lz := list_session [8152], b64 := 0, bp := 0 } 1000 3
    [false, false, false, true, true, false, true, true, true, true, true, true, true, false,
      false, false]
    (List.replicate 48 false)
    ⟨rfl, by decide, fun k _ => Nat.zero_testBit k⟩ ⟨rfl, by decide⟩ (by decide) (by decide)
    (by decide) (by decide)

/-! ## `huff_decompress` invokes the read callback only -/

theorem rd_rel_refl {σ : Type} (lz : huff_t σ) : rd_rel lz lz :=
  ⟨[], by simp, by simp⟩

theorem rd_rel_trans {σ : Type} (a b c : huff_t σ) (h1 : rd_rel a b) (h2 : rd_rel b c) :
    rd_rel a c := by
  obtain ⟨n1, c1, w1⟩ := h1
  obtain ⟨n2, c2, w2⟩ := h2
  refine ⟨n1 ++ n2, by rw [c2, c1, List.append_assoc], ?_⟩
  intro x hx
  rcases List.mem_append.1 hx with h | h
  · exact w1 x h
  · exact w2 x h

theorem rd_rel_invalid {σ : Type} (a b : huff_t σ) (h : rd_rel a b) :
    rd_rel a (set_invalid b) := h

theorem rd_rel_read_bit {σ : Type} (io : huff_io σ) (r : bit_state σ) :
    rd_rel r.lz (huff_read_bit io r).2.lz := by
  unfold huff_read_bit
  dsimp only
  split
  · exact ⟨[_], rfl, fun c hc => ⟨_, _, List.mem_singleton.1 hc⟩⟩
  · exact rd_rel_refl _

theorem rd_rel_read_bits_loop {σ : Type} (io : huff_io σ) (n fuel : Nat) :
    ∀ (r : bit_state σ) (i bits : Nat),
    rd_rel r.lz (huff_read_bits_loop io n fuel r i bits).2.lz := by
  induction fuel with
  | zero => intro r i bits; exact rd_rel_refl _
  | succ fuel ih =>
    intro r i bits
    rw [huff_read_bits_loop]
    split
    · exact rd_rel_trans _ _ _ (rd_rel_read_bit io r) (ih _ _ _)
    · exact rd_rel_refl _

theorem rd_rel_read_bits {σ : Type} (io : huff_io σ) (r : bit_state σ) (n : Nat) :
    rd_rel r.lz (huff_read_bits io r n).2.lz :=
  rd_rel_read_bits_loop io n n r 0 0

theorem rd_rel_read_number_loop {σ : Type} (io : huff_io σ) (base fuel : Nat) :
    ∀ (r : bit_state σ) (bits shift : Nat) (p : Nat × bit_state σ),
    huff_read_number_loop io base fuel r bits shift = some p → rd_rel r.lz p.2.lz := by
  induction fuel with
  | zero => intro r bits shift p h; simp [huff_read_number_loop] at h
  | succ fuel ih =>
    intro r bits shift p h
    rw [huff_read_number_loop] at h
    have h12 := rd_rel_trans _ _ _ (rd_rel_read_bits io r base)
      (rd_rel_read_bit io (huff_read_bits io r base).2)
    split at h
    · exact rd_rel_trans _ _ _ h12 (ih _ _ _ p h)
    · have e := Option.some.inj h
      rw [← e]
      exact h12

theorem rd_rel_read_number {σ : Type} (io : huff_io σ) (fuel : Nat) (r : bit_state σ)
    (base : Nat) (p : Nat × bit_state σ) (h : huff_read_number io fuel r base = some p) :
    rd_rel r.lz p.2.lz :=
  rd_rel_read_number_loop io base fuel r 0 0 p h

theorem rd_rel_decompress_loop {σ : Type} (io : huff_io σ) (bytes window base nfuel fuel : Nat) :
    ∀ (r : bit_state σ) (data : Int → Nat) (i : Nat) (below : Bool) (out : huff_out σ),
    decompress_loop io bytes window base nfuel fuel r data i below = some out →
    rd_rel r.lz out.lz := by
  induction fuel with
  | zero =>
    intro r data i below out h
    rw [decompress_loop] at h
    split at h
    · exact absurd h (by simp)
    · rw [← Option.some.inj h]
      exact rd_rel_refl _
  | succ fuel ih =>
    intro r data i below out h
    rw [decompress_loop] at h
    have a0 := rd_rel_read_bit io r
    split at h
    · dsimp only at h
      split at h
      · rw [← Option.some.inj h]; exact a0
      · split at h
        · have a1 := rd_rel_trans _ _ _ a0 (rd_rel_read_bit io (huff_read_bit io r).2)
          split at h
          · rw [← Option.some.inj h]; exact a1
          · split at h
            · split at h
              · exact absurd h (by simp)
              · rename_i p hp
                have a2 := rd_rel_trans _ _ _ a1 (rd_rel_read_number io nfuel _ base p hp)
                split at h
                · rw [← Option.some.inj h]; exact a2
                · split at h
                  · exact absurd h (by simp)
                  · rename_i l hl
                    have a3 := rd_rel_trans _ _ _ a2 (rd_rel_read_number io nfuel _ base l hl)
                    split at h
                    · rw [← Option.some.inj h]; exact a3
                    · split at h
                      · rw [← Option.some.inj h]; exact a3
                      · split at h
                        · rw [← Option.some.inj h]; exact a3
                        · exact rd_rel_trans _ _ _ a3 (ih _ _ _ _ out h)
            · have a2 := rd_rel_trans _ _ _ a1
                (rd_rel_read_bits io (huff_read_bit io (huff_read_bit io r).2).2 7)
              split at h
              · rw [← Option.some.inj h]; exact a2
              · exact rd_rel_trans _ _ _ a2 (ih _ _ _ _ out h)
        · have a2 := rd_rel_trans _ _ _ a0 (rd_rel_read_bits io (huff_read_bit io r).2 7)
          split at h
          · rw [← Option.some.inj h]; exact a2
          · exact rd_rel_trans _ _ _ a2 (ih _ _ _ _ out h)
    · rw [← Option.some.inj h]
      exact rd_rel_refl _

/-- Whatever the host and the stream, `huff_decompress` adds read invocations only to the
log. -/
theorem rd_rel_decompress {σ : Type} (io : huff_io σ) (fuel : Nat) (lz : huff_t σ)
    (data : Int → Nat) (bytes window_bits : Nat) (out : huff_out σ)
    (h : huff_decompress io fuel lz data bytes window_bits = some out) : rd_rel lz out.lz := by
  unfold huff_decompress at h
  split at h
  · rw [← Option.some.inj h]; exact rd_rel_refl _
  · split at h
    · rw [← Option.some.inj h]; exact rd_rel_refl _
    · exact rd_rel_decompress_loop io bytes _ _ fuel fuel _ data 0 false out h

/-- Whatever the host and the buffer, `huff_compress` on a session whose counter fits 64 bits
adds write invocations only to the log. -/
theorem wr_rel_huff_compress {σ : Type} (io : huff_io σ) (lz : huff_t σ) (data : Nat → Nat)
    (bytes window_bits : Nat) (hw : lz.written < 2 ^ 64) :
    wr_rel lz (huff_compress io lz data bytes window_bits) := by
  unfold huff_compress
  split
  · exact wr_rel_refl _ hw
  · split
    · have hne : (set_invalid lz).error ≠ 0 := by
        show EINVAL ≠ 0
        decide
      exact ⟨[], by simp [set_invalid], by simp, fun h => absurd h hne⟩
    · exact wr_rel_compress_loop io data bytes _ _ bytes _ 0 hw

/-! ## Round trip of buffers of bytes below `0x80` -/

theorem compress_tokens_ok (data : Nat → Nat) (bytes window : Nat) (hw : 0 < window)
    (hlow : ∀ k : Nat, k < bytes → data k < 128) (fuel : Nat) : ∀ i : Nat, i ≤ bytes →
    bytes - i ≤ fuel → tokens_ok data bytes window i (compress_tokens data bytes window fuel i) := by
  induction fuel with
  | zero =>
    intro i hi hf
    show i = bytes
    omega
  | succ fuel ih =>
    intro i hi hf
    rw [compress_tokens]
    by_cases hlt : i < bytes
    · rw [if_pos hlt]
      by_cases hm : (find_match data bytes window i).1 > 2
      · rw [if_pos hm]
        have p := find_match_props data bytes window i hw hm
        refine ⟨hlt, p.2.2.1, p.2.2.2.1, p.2.2.2.2.1, by omega, by omega, ?_, ?_⟩
        · exact p.2.2.2.2.2.1.2.2.2.1
        · exact ih _ (by omega) (by omega)
      · rw [if_neg hm]
        exact ⟨hlt, rfl, hlow i hlt, ih _ (by omega) (by omega)⟩
    · rw [if_neg hlt]
      show i = bytes
      omega

theorem write_token_bits (base : Nat) (w : bit_state (List Nat)) (t : lz_token) (hw : wr_ok w) :
    wr_ok (write_token list_io base w t) ∧
    wbits (write_token list_io base w t) = wbits w ++ token_bits base t ∧
    0 < (write_token list_io base w t).bp ∧
    (write_token list_io base w t).lz.calls.length + w.lz.that.length =
      w.lz.calls.length + (write_token list_io base w t).lz.that.length := by
  cases t with
  | lit b =>
    rw [write_token, token_bits]
    by_cases hb : b < 128
    · rw [if_pos hb, if_pos hb]
      have h1 := write_bit_bits w 0 hw (by decide)
      have h2 := write_bits_bits 7 (huff_write_bit list_io w 0) b h1.1
      refine ⟨h2.1, ?_, h2.2.2.1 (by decide), by omega⟩
      rw [h2.2.1, h1.2.1]
      simp
    · rw [if_neg hb, if_neg hb]
      have h1 := write_bits_bits 2 w 2 hw
      have h2 := write_bits_bits 7 (huff_write_bits list_io 2 w 2) b h1.1
      refine ⟨h2.1, ?_, h2.2.2.1 (by decide), by omega⟩
      rw [h2.2.1, h1.2.1, List.append_assoc]
  | mat pos len =>
    rw [write_token, token_bits]
    have h1 := write_bits_bits 2 w 3 hw
    have h2 := write_number_loop_bits base 64 (huff_write_bits list_io 2 w 3) pos h1.1
    have h3 := write_number_loop_bits base 64
      (huff_write_number list_io (huff_write_bits list_io 2 w 3) pos base) len h2.1
    refine ⟨h3.1, ?_, h3.2.2.1 (by decide), ?_⟩
    · show wbits (huff_write_number_loop list_io base 64 _ len) = _
      rw [h3.2.1]
      show wbits (huff_write_number_loop list_io base 64 _ pos) ++ _ = _
      rw [h2.2.1, h1.2.1, List.append_assoc, List.append_assoc, List.append_assoc]
    · have a := h1.2.2.2
      have b := h2.2.2.2
      have c := h3.2.2.2
      show (huff_write_number_loop list_io base 64
        (huff_write_number_loop list_io base 64 (huff_write_bits list_io 2 w 3) pos) len
        ).lz.calls.length + _ = _ + (huff_write_number_loop list_io base 64
        (huff_write_number_loop list_io base 64 (huff_write_bits list_io 2 w 3) pos) len
        ).lz.that.length
      have b' : (huff_write_number_loop list_io base 64 (huff_write_bits list_io 2 w 3)
          pos).lz.calls.length + (huff_write_bits list_io 2 w 3).lz.that.length =
          (huff_write_bits list_io 2 w 3).lz.calls.length +
          (huff_write_number_loop list_io base 64 (huff_write_bits list_io 2 w 3)
          pos).lz.that.length := b
      have c' : (huff_write_number_loop list_io base 64
          (huff_write_number_loop list_io base 64 (huff_write_bits list_io 2 w 3) pos) len
          ).lz.calls.length + (huff_write_number_loop list_io base 64
          (huff_write_bits list_io 2 w 3) pos).lz.that.length =
          (huff_write_number_loop list_io base 64 (huff_write_bits list_io 2 w 3)
          pos).lz.calls.length + (huff_write_number_loop list_io base 64
          (huff_write_number_loop list_io base 64 (huff_write_bits list_io 2 w 3) pos) len
          ).lz.that.length := c
      omega

theorem write_tokens_bits (base : Nat) (ts : List lz_token) : ∀ (w : bit_state (List Nat)),
    wr_ok w →
    wr_ok (write_tokens list_io base w ts) ∧
    wbits (write_tokens list_io base w ts) = wbits w ++ tokens_bits base ts ∧
    (ts ≠ [] → 0 < (write_tokens list_io base w ts).bp) ∧
    (write_tokens list_io base w ts).lz.calls.length + w.lz.that.length =
      w.lz.calls.length + (write_tokens list_io base w ts).lz.that.length := by
  induction ts with
  | nil =>
    intro w hw
    exact ⟨hw, by simp [write_tokens, tokens_bits], fun h => absurd rfl h, rfl⟩
  | cons t ts ih =>
    intro w hw
    have h1 := write_token_bits base w t hw
    have h2 := ih (write_token list_io base w t) h1.1
    have e : write_tokens list_io base w (t :: ts) =
        write_tokens list_io base (write_token list_io base w t) ts := rfl
    rw [e]
    refine ⟨h2.1, ?_, fun _ => ?_, by omega⟩
    · rw [h2.2.1, h1.2.1, tokens_bits, List.append_assoc]
    · by_cases hts : ts = []
      · subst hts
        exact h1.2.2.1
      · exact h2.2.2.1 hts

theorem low_bits_clean (w bp : Nat) (hbp : bp ≤ 64)
    (hc : ∀ k : Nat, bp ≤ k → w.testBit k = false) :
    low_bits w 64 = low_bits w bp ++ List.replicate (64 - bp) false := by
  apply List.ext_getElem
  · simp [low_bits_length]
    omega
  · intro k h1 h2
    simp only [low_bits, List.getElem_map, List.getElem_range]
    by_cases hk : k < bp
    · rw [List.getElem_append_left (by simpa using hk)]
      simp
    · rw [List.getElem_append_right (by simpa using hk)]
      simp [hc k (by omega)]

/-- After `huff_flush` the host holds the bits written, padded with zeros to whole words;
the padding is shorter than a word. -/
theorem flush_bits (w : bit_state (List Nat)) (hw : wr_ok w) :
    ∃ pad : Nat, pad < 64 ∧
      words_bits (huff_flush list_io w).that = wbits w ++ List.replicate pad false ∧
      (huff_flush list_io w).error = 0 ∧
      (huff_flush list_io w).calls.length + w.lz.that.length =
        w.lz.calls.length + (huff_flush list_io w).that.length := by
  by_cases hbp : w.bp > 0
  · refine ⟨64 - w.bp, by omega, ?_, ?_, ?_⟩
    · have e : (huff_flush list_io w).that = w.lz.that ++ [w.b64] := by
        unfold huff_flush
        rw [if_pos ⟨hbp, hw.error⟩]
        have e1 : (call_write list_io w.lz w.b64).error = 0 := hw.error
        simp only [e1, if_true]
        rfl
      rw [e, words_bits_append, low_bits_clean w.b64 w.bp hw.bp_le hw.clean, wbits,
        List.append_assoc]
    · unfold huff_flush
      rw [if_pos ⟨hbp, hw.error⟩]
      have e1 : (call_write list_io w.lz w.b64).error = 0 := hw.error
      simp only [e1, if_true]
      exact e1
    · unfold huff_flush
      rw [if_pos ⟨hbp, hw.error⟩]
      have e1 : (call_write list_io w.lz w.b64).error = 0 := hw.error
      simp only [e1, if_true]
      show (w.lz.calls ++ [_]).length + _ = _ + (w.lz.that ++ [w.b64]).length
      rw [List.length_append, List.length_append, List.length_cons, List.length_cons,
        List.length_nil, List.length_nil]
      omega
  · have h0 : w.bp = 0 := by omega
    have e : huff_flush list_io w = w.lz := by
      unfold huff_flush
      rw [if_neg (fun h => hbp h.1)]
    refine ⟨0, by omega, ?_, by rw [e]; exact hw.error, by rw [e]⟩
    rw [e, wbits, h0]
    simp [low_bits]

theorem copy_loop_data (data : Nat → Nat) (pos : Nat) (hpos : 0 < pos) (len : Nat) :
    ∀ (mem : Int → Nat) (i : Nat), pos ≤ i →
    (∀ k : Nat, k < i → mem (k : Int) = data k) →
    (∀ k : Nat, k < len → data (i - pos + k) = data (i + k)) →
    (copy_loop pos len mem i).2 = i + len ∧
    ∀ k : Nat, k < i + len → (copy_loop pos len mem i).1 (k : Int) = data k := by
  induction len with
  | zero =>
    intro mem i _ hm _
    exact ⟨rfl, fun k hk => hm k hk⟩
  | succ len ih =>
    intro mem i hpi hm hd
    rw [copy_loop]
    have hsrc : mem ((i : Int) - (pos : Int)) = data i := by
      have e : (i : Int) - (pos : Int) = ((i - pos : Nat) : Int) := by omega
      rw [e, hm (i - pos) (by omega)]
      have := hd 0 (by omega)
      simpa using this
    have h := ih (mem_set mem (i : Int) (mem ((i : Int) - (pos : Int)))) (i + 1) (by omega)
      (fun k hk => by
        unfold mem_set
        by_cases e : k = i
        · rw [if_pos (by rw [e]), hsrc, e]
        · rw [if_neg (by omega)]
          exact hm k (by omega))
      (fun k hk => by
        have := hd (k + 1) (by omega)
        have e1 : i + 1 - pos + k = i - pos + (k + 1) := by omega
        have e2 : i + 1 + k = i + (k + 1) := by omega
        rw [e1, e2]
        exact this)
    refine ⟨by rw [h.1]; omega, fun k hk => h.2 k (by omega)⟩

/-- Over the bits of tokens that describe `data`, the loop of `huff_decompress` rebuilds
`data`, sets no error, reads nothing below the buffer and stops right after the tokens. -/
theorem decompress_loop_tokens (data : Nat → Nat) (bytes window base nfuel : Nat)
    (hb1 : 1 ≤ base) (hb2 : base ≤ 64) (hn : 64 ≤ nfuel) (hbytes : bytes < 2 ^ 64)
    (ts : List lz_token) : ∀ (fuel : Nat) (r : bit_state (List Nat)) (mem : Int → Nat)
    (i : Nat) (below : Bool) (rest : List Bool), rd_ok r →
    rbits r = tokens_bits base ts ++ rest → tokens_ok data bytes window i ts →
    (∀ k : Nat, k < i → mem (k : Int) = data k) → ts.length ≤ fuel →
    ∃ (rf : bit_state (List Nat)) (out : huff_out (List Nat)),
      decompress_loop list_io bytes window base nfuel fuel r mem i below = some out ∧
      out.lz = rf.lz ∧ rd_ok rf ∧ rbits rf = rest ∧
      (∀ k : Nat, k < bytes → out.data (k : Int) = data k) ∧ out.below = below ∧
      rf.lz.calls.length + rf.lz.that.length = r.lz.calls.length + r.lz.that.length := by
  induction ts with
  | nil =>
    intro fuel r mem i below rest hr hbits hok hmem _
    have hi : i = bytes := hok
    refine ⟨r, { lz := r.lz, data := mem, below := below }, ?_, rfl, hr, by simpa [tokens_bits]
      using hbits, fun k hk => hmem k (by omega), rfl, rfl⟩
    cases fuel with
    | zero => rw [decompress_loop, if_neg (by omega)]
    | succ fuel => rw [decompress_loop, if_neg (by omega)]
  | cons t ts ih =>
    intro fuel r mem i below rest hr hbits hok hmem hfuel
    obtain ⟨fuel', rfl⟩ : ∃ k, fuel = k + 1 := ⟨fuel - 1, by
      simp only [List.length_cons] at hfuel; omega⟩
    have hfuel' : ts.length ≤ fuel' := by simp only [List.length_cons] at hfuel; omega
    rw [tokens_bits, List.append_assoc] at hbits
    cases t with
    | lit b =>
      obtain ⟨hlt, hbd, hb128, hrest⟩ := hok
      rw [token_bits, if_pos hb128] at hbits
      simp only [List.append_assoc, List.cons_append, List.nil_append] at hbits
      have h0 := read_bit_bits r false _ hr hbits
      have h1 := read_bits_bits (huff_read_bit list_io r).2 7 (low_bits b 7) _ h0.2.1 h0.2.2.1
        (low_bits_length b 7) (by decide)
      rw [bits_val_low_bits] at h1
      have hbv : b % 2 ^ 7 = b := Nat.mod_eq_of_lt (by omega)
      have hmem' : ∀ k : Nat, k < i + 1 →
          mem_set mem (i : Int) ((huff_read_bits list_io (huff_read_bit list_io r).2 7).1 % 256)
            (k : Int) = data k := by
        intro k hk
        unfold mem_set
        by_cases e : k = i
        · rw [if_pos (by rw [e]), h1.1, hbv, Nat.mod_eq_of_lt (by omega), e, hbd]
        · rw [if_neg (by omega)]
          exact hmem k (by omega)
      obtain ⟨rf, out, e, h⟩ := ih fuel' _ _ (i + 1) below rest h1.2.1 h1.2.2.1 hrest hmem' hfuel'
      refine ⟨rf, out, ?_, h.1, h.2.1, h.2.2.1, h.2.2.2.1, h.2.2.2.2.1, by
        have := h.2.2.2.2.2; omega⟩
      rw [decompress_loop, if_pos hlt]
      simp only [h0.2.1.error, h0.1, h1.2.1.error, ne_eq, not_true_eq_false, if_false,
        Bool.toNat_false]
      exact e
    | mat pos len =>
      obtain ⟨hlt, hp0, hpw, hpi, hl0, hlen, hdata, hrest⟩ := hok
      have e3 : low_bits 3 2 = [true, true] := by decide
      rw [token_bits, e3] at hbits
      simp only [List.append_assoc, List.cons_append, List.nil_append] at hbits
      have h0 := read_bit_bits r true _ hr hbits
      have h1 := read_bit_bits (huff_read_bit list_io r).2 true _ h0.2.1 h0.2.2.1
      obtain ⟨r3, e3', ok3, rb3, c3⟩ := read_number_bits
        (huff_read_bit list_io (huff_read_bit list_io r).2).2 pos base _ h1.2.1 (by omega) hb1
        hb2 nfuel hn h1.2.2.1
      obtain ⟨r4, e4, ok4, rb4, c4⟩ := read_number_bits r3 len base _ ok3 (by omega) hb1
        hb2 nfuel hn rb3
      have hn' : (i + len) % 2 ^ 64 = i + len := Nat.mod_eq_of_lt (by omega)
      have hc := copy_loop_data data pos hp0 len mem i hpi hmem hdata
      have hcnt : i + len - i = len := by omega
      obtain ⟨rf, out, e, h⟩ := ih fuel' r4 (copy_loop pos len mem i).1 (i + len) below rest
        ok4 rb4 hrest hc.2 hfuel'
      refine ⟨rf, out, ?_, h.1, h.2.1, h.2.2.1, h.2.2.2.1, h.2.2.2.2.1, by
        have := h.2.2.2.2.2; omega⟩
      rw [decompress_loop, if_pos hlt]
      simp only [h0.2.1.error, h0.1, h1.2.1.error, h1.1, ne_eq, not_true_eq_false, if_false,
        Bool.toNat_true, one_ne_zero, not_false_eq_true, if_true, e3', e4, ok3.error,
        ok4.error, hn', hcnt, hc.1]
      have hcond : (0 < pos ∧ pos < window) := ⟨hp0, hpw⟩
      have hl0' : ¬ len = 0 := by omega
      have hbl : (below || decide (i < i + len ∧ i < pos)) = below := by
        have : ¬ (i < i + len ∧ i < pos) := fun hc => by omega
        rw [decide_eq_false this, Bool.or_false]
      simp only [hcond, and_self, not_true_eq_false, if_false, hl0', hbl]
      exact e

theorem compress_tokens_length (data : Nat → Nat) (bytes window fuel : Nat) : ∀ i : Nat,
    (compress_tokens data bytes window fuel i).length ≤ fuel := by
  induction fuel with
  | zero => intro i; simp [compress_tokens]
  | succ fuel ih =>
    intro i
    rw [compress_tokens]
    split
    · split
      · have := ih (i + (find_match data bytes window i).1)
        simp only [List.length_cons]
        omega
      · have := ih (i + 1)
        simp only [List.length_cons]
        omega
    · simp

theorem words_bits_length (ws : List Nat) : (words_bits ws).length = 64 * ws.length := by
  induction ws with
  | nil => rfl
  | cons w ws ih =>
    rw [words_bits, List.length_append, low_bits_length, ih, List.length_cons]
    omega

/-- Compressing a buffer of bytes below `0x80` over the list host and decompressing the
words written gives the buffer back, with as many reads as there were writes. -/
theorem roundtrip_list_host (data : Nat → Nat) (bytes window_bits fuel : Nat) (mem : Int → Nat)
    (hlow : ∀ k : Nat, k < bytes → data k < 128)
    (hw : 10 ≤ window_bits ∧ window_bits ≤ 20) (hbytes : bytes < 2 ^ 64)
    (hf1 : bytes ≤ fuel) (hf2 : 64 ≤ fuel) :
    ∃ out : huff_out (List Nat),
      huff_decompress list_io fuel
        (list_session (huff_compress list_io (list_session []) data bytes window_bits).that)
        mem bytes window_bits = some out ∧
      out.lz.error = 0 ∧ (∀ k : Nat, k < bytes → out.data (k : Int) = data k) ∧
      out.lz.calls.length =
        (huff_compress list_io (list_session []) data bytes window_bits).calls.length ∧
      out.below = false := by
  have hwin : 0 < 1 <<< window_bits := by
    rw [Nat.one_shiftLeft]
    exact Nat.pow_pos (by norm_num)
  have hc := huff_compress_tokens list_io quiet_list_io (list_session []) data bytes
    window_bits rfl hw
  have hw0 : wr_ok ({ lz := list_session [], b64 := 0, bp := 0 } : bit_state (List Nat)) :=
    ⟨rfl, by decide, fun k _ => Nat.zero_testBit k⟩
  have wt := write_tokens_bits ((window_bits - 4) / 2)
    (compress_tokens data bytes (1 <<< window_bits) bytes 0) _ hw0
  obtain ⟨pad, hpad, hwords, _, hcnt⟩ := flush_bits _ wt.1
  rw [← hc] at hwords hcnt
  have hwb0 : wbits ({ lz := list_session [], b64 := 0, bp := 0 } : bit_state (List Nat)) = [] :=
    rfl
  rw [wt.2.1, hwb0, List.nil_append] at hwords
  obtain ⟨ws, hws⟩ : ∃ ws : List Nat,
      (huff_compress list_io (list_session []) data bytes window_bits).that = ws := ⟨_, rfl⟩
  rw [hws] at hwords hcnt ⊢
  have hr0 : rd_ok ({ lz := list_session ws, b64 := 0, bp := 0 } : bit_state (List Nat)) :=
    ⟨rfl, by show (0 : Nat) < 64; decide⟩
  have hrb : rbits ({ lz := list_session ws, b64 := 0, bp := 0 } : bit_state (List Nat)) =
      tokens_bits ((window_bits - 4) / 2)
        (compress_tokens data bytes (1 <<< window_bits) bytes 0) ++
        List.replicate pad false := by
    rw [← hwords]
    rfl
  have hok := compress_tokens_ok data bytes (1 <<< window_bits) hwin hlow bytes 0
    (Nat.zero_le _) (by omega)
  have hlen := compress_tokens_length data bytes (1 <<< window_bits) bytes 0
  obtain ⟨rf, out, e, hlz, hrf, hrest, hdata, hbelow, hacc⟩ :=
    decompress_loop_tokens data bytes (1 <<< window_bits) ((window_bits - 4) / 2) fuel
      (by omega) (by omega) hf2 hbytes _ fuel _ mem 0 false _ hr0 hrb hok
      (fun k hk => by omega) (by omega)
  have hthat : rf.lz.that = [] := by
    have h1 := congrArg List.length hrest
    rw [rbits, List.length_append, words_bits_length, List.length_replicate] at h1
    apply List.length_eq_zero.1
    omega
  refine ⟨out, ?_, by rw [hlz]; exact hrf.error, hdata, ?_, hbelow⟩
  · unfold huff_decompress
    rw [if_neg (by simp [list_session]), if_neg (by omega)]
    exact e
  · rw [hlz]
    rw [hthat] at hacc
    have a := wt.2.2.2
    simp only [list_session, List.length_nil] at hacc a hcnt ⊢
    omega

/-- C19. For every buffer of `bytes < 2 ^ 64` bytes, all below `0x80`, and every
`window_bits` in `[10, 20]`: `huff_decompress` over the words that `huff_compress` handed to
the list host returns with no error, the memory holds the buffer at the offsets
`0 .. bytes - 1`, its log holds read invocations only and as many of them as the log of
`huff_compress` holds invocations, all of which are writes, and no match copy read an offset
below 0.  The number `fuel` bounds the iterations of the loops of `huff_decompress`; `bytes`
and 64 suffice. -/
theorem roundtrip_low_bytes (data : Nat → Nat) (bytes window_bits fuel : Nat) (mem : Int → Nat)
    (hlow : ∀ k : Nat, k < bytes → data k < 128)
    (hw : 10 ≤ window_bits ∧ window_bits ≤ 20) (hbytes : bytes < 2 ^ 64)
    (hf1 : bytes ≤ fuel) (hf2 : 64 ≤ fuel) :
    ∃ out : huff_out (List Nat),
      huff_decompress list_io fuel
        (list_session (huff_compress list_io (list_session []) data bytes window_bits).that)
        mem bytes window_bits = some out ∧
      out.lz.error = 0 ∧ (∀ k : Nat, k < bytes → out.data (k : Int) = data k) ∧
      out.lz.calls.length =
        (huff_compress list_io (list_session []) data bytes window_bits).calls.length ∧
      (∀ c ∈ out.lz.calls, ∃ e w, c = huff_call.read e w) ∧
      (∀ c ∈ (huff_compress list_io (list_session []) data bytes window_bits).calls,
        ∃ e w, c = huff_call.write e w) ∧
      out.below = false := by
  obtain ⟨out, hd, he, hdata, hcnt, hbelow⟩ :=
    roundtrip_list_host data bytes window_bits fuel mem hlow hw hbytes hf1 hf2
  obtain ⟨nr, hnr, hrd⟩ := rd_rel_decompress list_io fuel _ mem bytes window_bits out hd
  obtain ⟨nw, hnw, hwr, _⟩ := wr_rel_huff_compress list_io (list_session []) data bytes
    window_bits (by show (0 : Nat) < 2 ^ 64; norm_num)
  refine ⟨out, hd, he, hdata, hcnt, ?_, ?_, hbelow⟩
  · intro c hc
    rw [hnr] at hc
    exact hrd c (by simpa [list_session] using hc)
  · intro c hc
    rw [hnw] at hc
    exact hwr c (by simpa [list_session] using hc)

/-- Witness for C19: the buffer `abcabcabc`, `window_bits = 10`. -/
theorem roundtrip_low_bytes_witness :
    ∃ out : huff_out (List Nat),
      huff_decompress list_io 64
        (list_session (huff_compress list_io (list_session []) (fun k => 97 + k % 3) 9 10).that)
        (fun _ => 0) 9 10 = some out ∧
      out.lz.error = 0 ∧ (∀ k : Nat, k < 9 → out.data (k : Int) = 97 + k % 3) ∧
      out.lz.calls.length =
        (huff_compress list_io (list_session []) (fun k => 97 + k % 3) 9 10).calls.length ∧
      (∀ c ∈ out.lz.calls, ∃ e w, c = huff_call.read e w) ∧
      (∀ c ∈ (huff_compress list_io (list_session []) (fun k => 97 + k % 3) 9 10).calls,
        ∃ e w, c = huff_call.write e w) ∧
      out.below = false :=
  roundtrip_low_bytes (fun k => 97 + k % 3) 9 10 64 (fun _ => 0)
    (fun k _ => by
      have : k % 3 < 3 := Nat.mod_lt _ (by decide)
      show 97 + k % 3 < 128
      omega)
    (by decide) (by decide) (by decide) (by decide)
